import Mathlib

/-!
# CxxHeap: a comparator-driven binary heap over an array-mapped complete tree

Shallow embedding of `src/pqueue/pqueue/*.h` / `*.cpp`.

* `std::vector<T>` is a `List T`; a comparator (`ISortOrder<T>::LessThan`) is a
  pure function `T → T → Bool`.
* `boost::uint32_t` is a `Nat` reduced modulo `2^32` after every arithmetic step.
* C++ exceptions are values of `Err`.  `assert` is modelled as enabled: a
  failing assertion ends the call with `Err.AssertionFailed`.
* The recursive `BubbleUp` and `SiftDown` take a step budget; running out of
  budget is reported as `Outcome.unfinished`, never as a result.
-/

set_option autoImplicit false

namespace pqueue

/-! ## Definitions -/

/-- Exception classes of the repository, plus the failure of an `assert`. -/
inductive Err where
  | CCannotAccessEmptyHeap
  | CCannotEraseFromEmptyCompleteTree
  | CIteratorInvalid
  | COutOfBounds
  | AssertionFailed
  deriving DecidableEq

/-- How a call that mutates the vector ends, with the vector contents at that
moment: normal return, a thrown exception (or failed assertion), or the step
budget of the model being exhausted before the recursion finished. -/
inductive Outcome (T : Type) where
  | returned (tree : List T)
  | threw (e : Err) (tree : List T)
  | unfinished (tree : List T)
  deriving DecidableEq

/-- Vector contents carried by an outcome. -/
def Outcome.tree {T : Type} : Outcome T → List T
  | .returned t => t
  | .threw _ t => t
  | .unfinished t => t

/-- Reduction of a natural number to `boost::uint32_t`. -/
def uint32 (n : Nat) : Nat := n % 4294967296

/-- Class `CCompleteTreeIndex`: the index is stored one-based in a `uint32_t`. -/
structure CCompleteTreeIndex where
  m_oneBasedIndex : Nat
  deriving DecidableEq

namespace CCompleteTreeIndex

/-- Constructor `CCompleteTreeIndex(arrayIndex)`: `m_oneBasedIndex(arrayIndex + 1)`;
the argument is converted to `uint32_t` at the call. -/
def ofArrayIndex (arrayIndex : Nat) : CCompleteTreeIndex :=
  ⟨uint32 (uint32 arrayIndex + 1)⟩

/-- Method `GetCurrentLocationInArray`: `assert(m_oneBasedIndex != 0)` and then
`m_oneBasedIndex - 1`. -/
def GetCurrentLocationInArray (i : CCompleteTreeIndex) : Except Err Nat :=
  if i.m_oneBasedIndex = 0 then .error .AssertionFailed
  else .ok (i.m_oneBasedIndex - 1)

/-- Method `MoveToLeft`: `m_oneBasedIndex *= 2`. -/
def MoveToLeft (i : CCompleteTreeIndex) : CCompleteTreeIndex :=
  ⟨uint32 (i.m_oneBasedIndex * 2)⟩

/-- Method `MoveToRight`: `m_oneBasedIndex *= 2; ++m_oneBasedIndex`. -/
def MoveToRight (i : CCompleteTreeIndex) : CCompleteTreeIndex :=
  ⟨uint32 (uint32 (i.m_oneBasedIndex * 2) + 1)⟩

/-- Method `MoveToParent`: `m_oneBasedIndex /= 2`. -/
def MoveToParent (i : CCompleteTreeIndex) : CCompleteTreeIndex :=
  ⟨i.m_oneBasedIndex / 2⟩

end CCompleteTreeIndex

/-! ### `CCompleteTree<T>::Iterator`

An iterator is a weak pointer to the vector together with a
`CCompleteTreeIndex`.  The functions below take the result of
`m_parentTree.lock()` as the argument `parentTree` (`none` when the tree has
been destroyed) and the index as `it`. -/

namespace Iterator

/-- Method `GoRightChild`. -/
def GoRightChild (it : CCompleteTreeIndex) : CCompleteTreeIndex := it.MoveToRight

/-- Method `GoLeftChild`. -/
def GoLeftChild (it : CCompleteTreeIndex) : CCompleteTreeIndex := it.MoveToLeft

/-- Method `GoUp`. -/
def GoUp (it : CCompleteTreeIndex) : CCompleteTreeIndex := it.MoveToParent

/-- Method `IsStillInTree`: the array offset is below the size of the vector;
throws `CIteratorInvalid` when the weak pointer no longer locks. -/
def IsStillInTree {T : Type} (parentTree : Option (List T)) (it : CCompleteTreeIndex) :
    Except Err Bool :=
  match parentTree with
  | some tree =>
    match it.GetCurrentLocationInArray with
    | .ok loc => .ok (decide (loc < tree.length))
    | .error e => .error e
  | none => .error .CIteratorInvalid

/-- Method `GetValue`: the element at the iterator, `COutOfBounds` when the
iterator is not in the tree. -/
def GetValue {T : Type} (parentTree : Option (List T)) (it : CCompleteTreeIndex) :
    Except Err T :=
  match IsStillInTree parentTree it with
  | .error e => .error e
  | .ok false => .error .COutOfBounds
  | .ok true =>
    match parentTree, it.GetCurrentLocationInArray with
    | some tree, .ok loc =>
      match tree[loc]? with
      | some v => .ok v
      | none => .error .COutOfBounds
    | some _, .error e => .error e
    | none, _ => .error .CIteratorInvalid

/-- Method `SetValue`: overwrite the element at the iterator, `COutOfBounds`
when the iterator is not in the tree.  The result is the new vector. -/
def SetValue {T : Type} (parentTree : Option (List T)) (it : CCompleteTreeIndex) (val : T) :
    Except Err (List T) :=
  match IsStillInTree parentTree it with
  | .error e => .error e
  | .ok false => .error .COutOfBounds
  | .ok true =>
    match parentTree, it.GetCurrentLocationInArray with
    | some tree, .ok loc => .ok (tree.set loc val)
    | some _, .error e => .error e
    | none, _ => .error .CIteratorInvalid

/-- Method `operator==`: equal array offsets and equal locked tree pointers;
`sameTree` is the outcome of comparing the two locked pointers. -/
def eq (sameTree : Bool) (lhs this : CCompleteTreeIndex) : Except Err Bool :=
  match lhs.GetCurrentLocationInArray with
  | .error e => .error e
  | .ok a =>
    match this.GetCurrentLocationInArray with
    | .error e => .error e
    | .ok b => if a = b then .ok sameTree else .ok false

end Iterator

/-! ### `CCompleteTree<T>` -/

namespace CCompleteTree

/-- Method `GetRootNode`: iterator at array offset 0. -/
def GetRootNode : CCompleteTreeIndex := CCompleteTreeIndex.ofArrayIndex 0

/-- Method `GetLastNode`: iterator at `m_tree->size() - 1`.  The subtraction is
done in `size_t` and the result converted to `uint32_t`; for an unsigned
`size_t` of at least 32 bits that is `(size + 2^32 - 1) mod 2^32`. -/
def GetLastNode {T : Type} (tree : List T) : CCompleteTreeIndex :=
  CCompleteTreeIndex.ofArrayIndex (uint32 (tree.length + 4294967295))

/-- Method `EraseLastNode`: `pop_back`, or `CCannotEraseFromEmptyCompleteTree`. -/
def EraseLastNode {T : Type} (tree : List T) : Except Err (List T) :=
  if 0 < tree.length then .ok tree.dropLast
  else .error .CCannotEraseFromEmptyCompleteTree

/-- Method `Append`: `push_back`. -/
def Append {T : Type} (tree : List T) (val : T) : List T := tree ++ [val]

/-- Method `GetSize`. -/
def GetSize {T : Type} (tree : List T) : Nat := tree.length

end CCompleteTree

/-! ### `CompleteTreeUtils.h` -/

/-- The call `std::max<T>(a, b, comp)`: `b` when `comp(a, b)`, otherwise `a`. -/
def stdMax {T : Type} (comp : T → T → Bool) (a b : T) : T :=
  if comp a b then b else a

/-- Two-iterator `PickLargestIterator` for two iterators into the same live
vector `tree`. -/
def PickLargestIterator {T : Type} (compPred : T → T → Bool) (tree : List T)
    (iter1 iter2 : CCompleteTreeIndex) : Except Err CCompleteTreeIndex :=
  -- the else-chain after the first test fails
  let rest : Except Err CCompleteTreeIndex :=
    match Iterator.IsStillInTree (some tree) iter1 with
    | .error e => .error e
    | .ok true => .ok iter1
    | .ok false =>
      match Iterator.IsStillInTree (some tree) iter2 with
      | .error e => .error e
      | .ok true => .ok iter2
      | .ok false => .ok iter1
  -- the picker used when both iterators are in the tree
  let both : Except Err CCompleteTreeIndex :=
    match Iterator.GetValue (some tree) iter1 with
    | .error e => .error e
    | .ok v1 =>
      match Iterator.GetValue (some tree) iter2 with
      | .error e => .error e
      | .ok v2 =>
        let bestT := stdMax compPred v1 v2
        let isEqual := !(compPred bestT v1 || compPred v1 bestT)
        if isEqual then .ok iter1 else .ok iter2
  match Iterator.IsStillInTree (some tree) iter1 with
  | .error e => .error e
  | .ok false => rest
  | .ok true =>
    match Iterator.IsStillInTree (some tree) iter2 with
    | .error e => .error e
    | .ok false => rest
    | .ok true => both

/-- Three-iterator `PickLargestIterator`: the pick of the first two against the
third. -/
def PickLargestIterator3 {T : Type} (compPred : T → T → Bool) (tree : List T)
    (iter1 iter2 iter3 : CCompleteTreeIndex) : Except Err CCompleteTreeIndex :=
  match PickLargestIterator compPred tree iter1 iter2 with
  | .error e => .error e
  | .ok w => PickLargestIterator compPred tree w iter3

/-- Function `SwapNodeValues` for two iterators into the same live vector. -/
def SwapNodeValues {T : Type} (tree : List T) (iter1 iter2 : CCompleteTreeIndex) :
    Outcome T :=
  match Iterator.GetValue (some tree) iter1 with
  | .error e => .threw e tree
  | .ok temp =>
    match Iterator.GetValue (some tree) iter2 with
    | .error e => .threw e tree
    | .ok v2 =>
      match Iterator.SetValue (some tree) iter1 v2 with
      | .error e => .threw e tree
      | .ok tree1 =>
        match Iterator.SetValue (some tree1) iter2 temp with
        | .error e => .threw e tree1
        | .ok tree2 => .returned tree2

/-! ### `CHeap<T>` -/

namespace CHeap

/-- Method `AreNodesInSortOrder`: `m_sortOrder(child.GetValue(), parent.GetValue())`. -/
def AreNodesInSortOrder {T : Type} (m_sortOrder : T → T → Bool) (tree : List T)
    (parent child : CCompleteTreeIndex) : Except Err Bool :=
  match Iterator.GetValue (some tree) child with
  | .error e => .error e
  | .ok c =>
    match Iterator.GetValue (some tree) parent with
    | .error e => .error e
    | .ok p => .ok (m_sortOrder c p)

/-- Method `BubbleUp`, with a budget of `steps` calls. -/
def BubbleUp {T : Type} (m_sortOrder : T → T → Bool) :
    Nat → List T → CCompleteTreeIndex → Outcome T
  | 0, tree, _ => .unfinished tree
  | steps + 1, tree, currLoc =>
    match Iterator.eq true CCompleteTree.GetRootNode currLoc with
    | .error e => .threw e tree
    | .ok true => .returned tree
    | .ok false =>
      let child := currLoc
      let parent := Iterator.GoUp currLoc
      match AreNodesInSortOrder m_sortOrder tree parent child with
      | .error e => .threw e tree
      | .ok true => .returned tree
      | .ok false =>
        match SwapNodeValues tree parent child with
        | .returned tree1 => BubbleUp m_sortOrder steps tree1 parent
        | .threw e tree1 => .threw e tree1
        | .unfinished tree1 => .unfinished tree1

/-- Method `SiftDown`, with a budget of `steps` calls. -/
def SiftDown {T : Type} (m_sortOrder : T → T → Bool) :
    Nat → List T → CCompleteTreeIndex → Outcome T
  | 0, tree, _ => .unfinished tree
  | steps + 1, tree, currLoc =>
    let parent := currLoc
    let leftChild := Iterator.GoLeftChild currLoc
    let rightChild := Iterator.GoRightChild currLoc
    match PickLargestIterator3 m_sortOrder tree parent leftChild rightChild with
    | .error e => .threw e tree
    | .ok biggestNode =>
      match Iterator.eq true parent biggestNode with
      | .error e => .threw e tree
      | .ok true => .returned tree
      | .ok false =>
        match Iterator.IsStillInTree (some tree) biggestNode with
        | .error e => .threw e tree
        | .ok false => .threw .AssertionFailed tree
        | .ok true =>
          match SwapNodeValues tree parent biggestNode with
          | .returned tree1 => SiftDown m_sortOrder steps tree1 biggestNode
          | .threw e tree1 => .threw e tree1
          | .unfinished tree1 => .unfinished tree1

/-- Method `Insert`. -/
def Insert {T : Type} (m_sortOrder : T → T → Bool) (steps : Nat) (m_tree : List T) (t : T) :
    Outcome T :=
  let tree1 := CCompleteTree.Append m_tree t
  let backOfCompleteTree := CCompleteTree.GetLastNode tree1
  BubbleUp m_sortOrder steps tree1 backOfCompleteTree

/-- Method `PeekTop` (a `const` method: the vector is not touched). -/
def PeekTop {T : Type} (m_tree : List T) : Except Err T :=
  if CCompleteTree.GetSize m_tree = 0 then .error .CCannotAccessEmptyHeap
  else Iterator.GetValue (some m_tree) CCompleteTree.GetRootNode

/-- Method `PopTop`. -/
def PopTop {T : Type} (m_sortOrder : T → T → Bool) (steps : Nat) (m_tree : List T) :
    Outcome T :=
  if CCompleteTree.GetSize m_tree = 0 then .threw .CCannotAccessEmptyHeap m_tree
  else
    let root := CCompleteTree.GetRootNode
    let lastInserted := CCompleteTree.GetLastNode m_tree
    match SwapNodeValues m_tree root lastInserted with
    | .returned tree1 =>
      match CCompleteTree.EraseLastNode tree1 with
      | .error e => .threw e tree1
      | .ok tree2 => SiftDown m_sortOrder steps tree2 root
    | .threw e tree1 => .threw e tree1
    | .unfinished tree1 => .unfinished tree1

/-- Method `GetSize`. -/
def GetSize {T : Type} (m_tree : List T) : Nat := CCompleteTree.GetSize m_tree

end CHeap

/-! ### `BasicHeapSortOrders.h` -/

/-- Method `CStdLessSortOrder<int>::LessThan`: `std::less`. -/
def CStdLessSortOrder.LessThan (lhs rhs : Int) : Bool := decide (lhs < rhs)

/-- Method `CStdGreaterSortOrder<int>::LessThan`: `std::greater<int>`. -/
def CStdGreaterSortOrder.LessThan (lhs rhs : Int) : Bool := decide (lhs > rhs)

/-- Method `CCompositeSortOrder<T>::LessThan`: the loop over `m_sortCriteria`. -/
def CCompositeSortOrder.LessThan {T : Type} :
    List (T → T → Bool) → T → T → Bool
  | [], _, _ => false
  | currSort :: rest, lhs, rhs =>
    if currSort lhs rhs then true
    else if currSort rhs lhs then false
    else CCompositeSortOrder.LessThan rest lhs rhs

/-! ### Vocabulary of the specification -/

/-- A comparator is a strict weak ordering: irreflexive, transitive, and with a
transitive incomparability ("tie") relation. -/
structure StrictWeakOrder {T : Type} (lt : T → T → Bool) : Prop where
  irrefl : ∀ a, lt a a = false
  trans : ∀ a b c, lt a b = true → lt b c = true → lt a c = true
  incomp_trans : ∀ a b c, lt a b = false → lt b a = false → lt b c = false →
    lt c b = false → lt a c = false ∧ lt c a = false

/-- Array offset of the parent of the node at array offset `i`. -/
def parentOffset (i : Nat) : Nat := (i + 1) / 2 - 1

/-- The comparator does not judge the parent of offset `i` less than the node at
offset `i`. -/
def heapOrderedAt {T : Type} (lt : T → T → Bool) (tree : List T) (i : Nat) : Bool :=
  match tree[parentOffset i]?, tree[i]? with
  | some p, some c => !(lt p c)
  | _, _ => true

/-- Heap property of an array: at every non-root offset the parent is not less
than the node. -/
def IsHeap {T : Type} (lt : T → T → Bool) (tree : List T) : Prop :=
  ∀ i, i < tree.length → 0 < i → heapOrderedAt lt tree i = true

instance {T : Type} (lt : T → T → Bool) (tree : List T) : Decidable (IsHeap lt tree) :=
  inferInstanceAs (Decidable (∀ i, i < tree.length → 0 < i → heapOrderedAt lt tree i = true))

/-- One call made by a client of the heap. -/
inductive Op (T : Type) where
  | insert (t : T)
  | popTop
  deriving DecidableEq

/-- A client applying a sequence of `Insert` and `PopTop` calls to a heap; the
first call that does not return normally ends the run. -/
def runOps {T : Type} (m_sortOrder : T → T → Bool) (steps : Nat) :
    List (Op T) → List T → Outcome T
  | [], tree => .returned tree
  | Op.insert t :: rest, tree =>
    match CHeap.Insert m_sortOrder steps tree t with
    | .returned tree1 => runOps m_sortOrder steps rest tree1
    | .threw e tree1 => .threw e tree1
    | .unfinished tree1 => .unfinished tree1
  | Op.popTop :: rest, tree =>
    match CHeap.PopTop m_sortOrder steps tree with
    | .returned tree1 => runOps m_sortOrder steps rest tree1
    | .threw e tree1 => .threw e tree1
    | .unfinished tree1 => .unfinished tree1

/-- A client draining a heap: `n` rounds of `PeekTop` followed by `PopTop`,
collecting the peeked values in order.  `none` when a call does not return
normally. -/
def drain {T : Type} (m_sortOrder : T → T → Bool) (steps : Nat) :
    Nat → List T → Option (List T)
  | 0, _ => some []
  | n + 1, tree =>
    match CHeap.PeekTop tree with
    | .error _ => none
    | .ok x =>
      match CHeap.PopTop m_sortOrder steps tree with
      | .returned tree1 =>
        match drain m_sortOrder steps n tree1 with
        | some xs => some (x :: xs)
        | none => none
      | _ => none

/-- Lexicographic reference for a list of criteria, in the words of the
specification: the first criterion that tells the two values apart decides, and
the verdict is its `lessThan(a, b)`; no such criterion means `false`. -/
def lexicographicLess {T : Type} (criteria : List (T → T → Bool)) (a b : T) : Bool :=
  match criteria.find? (fun c => c a b || c b a) with
  | some c => c a b
  | none => false

/-! ### Closed forms used in the proofs -/

/-- Offset chosen by the two-iterator picker, for iterators at offsets `i`, `j`. -/
def pickOffset2 {T : Type} (comp : T → T → Bool) (tree : List T) (i j : Nat) : Nat :=
  match tree[i]?, tree[j]? with
  | some v1, some v2 => if comp v1 v2 || comp v1 v1 then j else i
  | some _, none => i
  | none, some _ => j
  | none, none => i

/-- Offset chosen by the three-iterator picker for a node and its two children. -/
def pickOffset3 {T : Type} (comp : T → T → Bool) (tree : List T) (i : Nat) : Nat :=
  pickOffset2 comp tree (pickOffset2 comp tree i (2 * i + 1)) (2 * i + 2)

/-- The value at offset `a` is not judged less than the value at offset `b`
(nothing is said when an offset lies outside the vector). -/
def NotLessAt {T : Type} (lt : T → T → Bool) (tree : List T) (a b : Nat) : Prop :=
  ∀ x y, tree[a]? = some x → tree[b]? = some y → lt x y = false

/-- Invariant of `BubbleUp` at offset `i`: heap order holds on every edge except
the one above `i`, and the children of `i` are in order with the parent of `i`. -/
def BubbleInv {T : Type} (lt : T → T → Bool) (tree : List T) (i : Nat) : Prop :=
  (∀ j, 0 < j → j ≠ i → NotLessAt lt tree (parentOffset j) j) ∧
  (0 < i → ∀ j, 0 < j → parentOffset j = i → NotLessAt lt tree (parentOffset i) j)

/-- Invariant of `SiftDown` at offset `i`: heap order holds on every edge except
those below `i`, and the children of `i` are in order with the parent of `i`. -/
def SiftInv {T : Type} (lt : T → T → Bool) (tree : List T) (i : Nat) : Prop :=
  (∀ j, 0 < j → parentOffset j ≠ i → NotLessAt lt tree (parentOffset j) j) ∧
  (0 < i → ∀ j, 0 < j → parentOffset j = i → NotLessAt lt tree (parentOffset i) j)

/-- Every `PopTop` of the sequence meets a non-empty heap, when the sequence is
applied to a heap holding `size` elements (the calls are then the successful
ones). -/
def popsSucceed {T : Type} : List (Op T) → Nat → Bool
  | [], _ => true
  | Op.insert _ :: rest, size => popsSucceed rest (size + 1)
  | Op.popTop :: rest, size => decide (0 < size) && popsSucceed rest (size - 1)

/-! ### `HeapUtils.h` and `Pqueue.h` -/

/-- How a call that works on a state `σ` ends, with the state at that moment:
normal return, a thrown exception (or failed assertion), or the step budget of
the model being exhausted. -/
inductive Ended (σ : Type) where
  | returned (s : σ)
  | threw (e : Err) (s : σ)
  | unfinished (s : σ)
  deriving DecidableEq

/-- The two heaps `Reheapify` works on when they are distinct objects, with the
number of loop rounds completed so far (a counter kept by the model only). -/
structure Transfer (T : Type) where
  rounds : Nat
  dest : List T
  src : List T
  deriving DecidableEq

/-- The heap `Reheapify` works on when `dest` and `src` are the same object,
with the number of loop rounds completed so far (a counter kept by the model
only). -/
structure SelfTransfer (T : Type) where
  rounds : Nat
  heap : List T
  deriving DecidableEq

/-- The `while (currSize > 0)` loop of `Reheapify` for two distinct heaps:
`dest.Insert(src.PeekTop()); src.PopTop(); --currSize`. -/
def ReheapifyLoop {T : Type} (destOrder srcOrder : T → T → Bool) (steps : Nat) :
    Nat → Transfer T → Ended (Transfer T)
  | 0, s => .returned s
  | currSize + 1, s =>
    match CHeap.PeekTop s.src with
    | .error e => .threw e s
    | .ok t =>
      match CHeap.Insert destOrder steps s.dest t with
      | .threw e dest1 => .threw e ⟨s.rounds, dest1, s.src⟩
      | .unfinished dest1 => .unfinished ⟨s.rounds, dest1, s.src⟩
      | .returned dest1 =>
        match CHeap.PopTop srcOrder steps s.src with
        | .threw e src1 => .threw e ⟨s.rounds, dest1, src1⟩
        | .unfinished src1 => .unfinished ⟨s.rounds, dest1, src1⟩
        | .returned src1 =>
          ReheapifyLoop destOrder srcOrder steps currSize ⟨s.rounds + 1, dest1, src1⟩

/-- Function `Reheapify(dest, src)` for two distinct heaps:
`unsigned int currSize = src.GetSize()` is read once, then the loop runs. -/
def Reheapify {T : Type} (destOrder srcOrder : T → T → Bool) (steps : Nat)
    (dest src : List T) : Ended (Transfer T) :=
  ReheapifyLoop destOrder srcOrder steps (uint32 (CHeap.GetSize src)) ⟨0, dest, src⟩

/-- The loop of `Reheapify` when `dest` and `src` are the same heap: the top is
inserted into the heap it comes from, then the top is popped. -/
def ReheapifySelfLoop {T : Type} (m_sortOrder : T → T → Bool) (steps : Nat) :
    Nat → SelfTransfer T → Ended (SelfTransfer T)
  | 0, s => .returned s
  | currSize + 1, s =>
    match CHeap.PeekTop s.heap with
    | .error e => .threw e s
    | .ok t =>
      match CHeap.Insert m_sortOrder steps s.heap t with
      | .threw e heap1 => .threw e ⟨s.rounds, heap1⟩
      | .unfinished heap1 => .unfinished ⟨s.rounds, heap1⟩
      | .returned heap1 =>
        match CHeap.PopTop m_sortOrder steps heap1 with
        | .threw e heap2 => .threw e ⟨s.rounds, heap2⟩
        | .unfinished heap2 => .unfinished ⟨s.rounds, heap2⟩
        | .returned heap2 =>
          ReheapifySelfLoop m_sortOrder steps currSize ⟨s.rounds + 1, heap2⟩

/-- Function `Reheapify(h, h)`: `dest` and `src` are the same heap. -/
def ReheapifySelf {T : Type} (m_sortOrder : T → T → Bool) (steps : Nat) (heap : List T) :
    Ended (SelfTransfer T) :=
  ReheapifySelfLoop m_sortOrder steps (uint32 (CHeap.GetSize heap)) ⟨0, heap⟩

/-- Class `CPqueue<T>`: it owns one heap `m_heap`, given here by the sort
order and the vector of that heap. -/
structure CPqueue (T : Type) where
  m_sortOrder : T → T → Bool
  m_tree : List T

namespace CPqueue

/-- Constructor `CPqueue(sortOrder)`: a new empty heap with that sort order. -/
def new {T : Type} (sortOrder : T → T → Bool) : CPqueue T := ⟨sortOrder, []⟩

/-- Method `Push`: `m_heap->Insert(newItem)`. -/
def Push {T : Type} (steps : Nat) (q : CPqueue T) (newItem : T) : Ended (CPqueue T) :=
  match CHeap.Insert q.m_sortOrder steps q.m_tree newItem with
  | .returned tree1 => .returned ⟨q.m_sortOrder, tree1⟩
  | .threw e tree1 => .threw e ⟨q.m_sortOrder, tree1⟩
  | .unfinished tree1 => .unfinished ⟨q.m_sortOrder, tree1⟩

/-- Method `PopFront`: `m_heap->PopTop()`. -/
def PopFront {T : Type} (steps : Nat) (q : CPqueue T) : Ended (CPqueue T) :=
  match CHeap.PopTop q.m_sortOrder steps q.m_tree with
  | .returned tree1 => .returned ⟨q.m_sortOrder, tree1⟩
  | .threw e tree1 => .threw e ⟨q.m_sortOrder, tree1⟩
  | .unfinished tree1 => .unfinished ⟨q.m_sortOrder, tree1⟩

/-- Method `PeekFront`: `m_heap->PeekTop()`. -/
def PeekFront {T : Type} (q : CPqueue T) : Except Err T := CHeap.PeekTop q.m_tree

/-- Method `ChangeSortOrder`: a new empty heap with the new sort order,
`Reheapify(*newHeap, *m_heap)`, then `m_heap = newHeap`.  When `Reheapify` does
not return, the queue still owns the old heap, as far as it was drained. -/
def ChangeSortOrder {T : Type} (steps : Nat) (q : CPqueue T) (sortOrder : T → T → Bool) :
    Ended (CPqueue T) :=
  match Reheapify sortOrder q.m_sortOrder steps [] q.m_tree with
  | .returned s => .returned ⟨sortOrder, s.dest⟩
  | .threw e s => .threw e ⟨q.m_sortOrder, s.src⟩
  | .unfinished s => .unfinished ⟨q.m_sortOrder, s.src⟩

end CPqueue

/-- One call made by a client of the priority queue. -/
inductive QueueOp (T : Type) where
  | push (newItem : T)
  | popFront

/-- A client applying a sequence of `Push` and `PopFront` calls to a queue; the
first call that does not return normally ends the run. -/
def runQueueOps {T : Type} (steps : Nat) : List (QueueOp T) → CPqueue T → Ended (CPqueue T)
  | [], q => .returned q
  | QueueOp.push t :: rest, q =>
    match CPqueue.Push steps q t with
    | .returned q1 => runQueueOps steps rest q1
    | .threw e q1 => .threw e q1
    | .unfinished q1 => .unfinished q1
  | QueueOp.popFront :: rest, q =>
    match CPqueue.PopFront steps q with
    | .returned q1 => runQueueOps steps rest q1
    | .threw e q1 => .threw e q1
    | .unfinished q1 => .unfinished q1

/-- Every `PopFront` of the sequence meets a non-empty queue, when the sequence
is applied to a queue holding `size` elements. -/
def popFrontsSucceed {T : Type} : List (QueueOp T) → Nat → Bool
  | [], _ => true
  | QueueOp.push _ :: rest, size => popFrontsSucceed rest (size + 1)
  | QueueOp.popFront :: rest, size => decide (0 < size) && popFrontsSucceed rest (size - 1)

/-- A comparator on pairs that looks at the first component only, in the way
`CSortOnCriteriaA` of the tests looks at one field of a struct. -/
def lessOnFirst (lhs rhs : Nat × Nat) : Bool := decide (lhs.1 < rhs.1)

/-- One call made by a client of the complete tree. -/
inductive TreeOp (T : Type) where
  | append (val : T)
  | eraseLastNode

/-- A client applying a sequence of `Append` and `EraseLastNode` calls to a
tree; the first call that throws ends the run with that exception. -/
def runTreeOps {T : Type} : List (TreeOp T) → List T → Except Err (List T)
  | [], tree => .ok tree
  | TreeOp.append val :: rest, tree => runTreeOps rest (CCompleteTree.Append tree val)
  | TreeOp.eraseLastNode :: rest, tree =>
    match CCompleteTree.EraseLastNode tree with
    | .ok tree1 => runTreeOps rest tree1
    | .error e => .error e

/-- Implicit conversion of a `double` to `int`: the fractional part is
discarded (truncation toward zero). A `double` is modelled by the rational
number it denotes; the conversion is used on values within the range of `int`. -/
def intOfDouble (x : Rat) : Int := Int.tdiv x.num x.den

/-- Method `CStdGreaterSortOrder<T>::LessThan` for an element type `T` other
than `int`: the body calls `std::greater<int>`, so both arguments first go
through the implicit conversion `toInt` of `T` to `int`. -/
def CStdGreaterSortOrder.LessThanT {T : Type} (toInt : T → Int) (lhs rhs : T) : Bool :=
  CStdGreaterSortOrder.LessThan (toInt lhs) (toInt rhs)

/-- Three values for a comparator that is not a strict weak ordering. -/
inductive Psc where
  | p
  | s
  | c
  deriving DecidableEq

/-- The comparator on `Psc` whose only related pair is `c < s`. -/
def onlyCBelowS : Psc → Psc → Bool
  | Psc.c, Psc.s => true
  | _, _ => false

/-! ## Theorems -/

/-! ### Evaluation of the tree primitives -/

section Primitives

variable {T : Type}

theorem GetRootNode_eq : CCompleteTree.GetRootNode = ⟨0 + 1⟩ := by
  simp [CCompleteTree.GetRootNode, CCompleteTreeIndex.ofArrayIndex, uint32]

theorem GetLastNode_eq (tree : List T) (h0 : 0 < tree.length) (h : tree.length < 4294967296) :
    CCompleteTree.GetLastNode tree = ⟨(tree.length - 1) + 1⟩ := by
  have h1 : (tree.length + 4294967295) % 4294967296 = tree.length - 1 := by omega
  have h2 : (tree.length - 1) % 4294967296 = tree.length - 1 := by omega
  have h3 : (tree.length - 1 + 1) % 4294967296 = tree.length - 1 + 1 := by omega
  simp only [CCompleteTree.GetLastNode, CCompleteTreeIndex.ofArrayIndex, uint32, h1, h2, h3]

theorem location_succ (i : Nat) :
    CCompleteTreeIndex.GetCurrentLocationInArray ⟨i + 1⟩ = .ok i := by
  simp [CCompleteTreeIndex.GetCurrentLocationInArray]

theorem IsStillInTree_succ (tree : List T) (i : Nat) :
    Iterator.IsStillInTree (some tree) ⟨i + 1⟩ = .ok (decide (i < tree.length)) := by
  simp [Iterator.IsStillInTree, location_succ]

theorem GetValue_some (tree : List T) (i : Nat) (v : T) (h : tree[i]? = some v) :
    Iterator.GetValue (some tree) ⟨i + 1⟩ = .ok v := by
  have hi : i < tree.length := (List.getElem?_eq_some.mp h).1
  simp [Iterator.GetValue, IsStillInTree_succ, location_succ, hi, h]

theorem SetValue_lt (tree : List T) (i : Nat) (v : T) (h : i < tree.length) :
    Iterator.SetValue (some tree) ⟨i + 1⟩ v = .ok (tree.set i v) := by
  simp [Iterator.SetValue, IsStillInTree_succ, location_succ, h]

theorem eq_succ (i j : Nat) :
    Iterator.eq true ⟨i + 1⟩ ⟨j + 1⟩ = .ok (decide (i = j)) := by
  by_cases h : i = j <;> simp [Iterator.eq, location_succ, h]

theorem GoUp_succ (i : Nat) (h : 0 < i) :
    Iterator.GoUp ⟨i + 1⟩ = ⟨parentOffset i + 1⟩ := by
  have h1 : (i + 1) / 2 = (i + 1) / 2 - 1 + 1 := by omega
  simp only [Iterator.GoUp, CCompleteTreeIndex.MoveToParent, parentOffset]
  rw [← h1]

theorem GoLeftChild_succ (i : Nat) (h : 2 * i + 2 < 4294967296) :
    Iterator.GoLeftChild ⟨i + 1⟩ = ⟨(2 * i + 1) + 1⟩ := by
  have h1 : (i + 1) * 2 % 4294967296 = 2 * i + 1 + 1 := by omega
  simp only [Iterator.GoLeftChild, CCompleteTreeIndex.MoveToLeft, uint32, h1]

theorem GoRightChild_succ (i : Nat) (h : 2 * i + 3 < 4294967296) :
    Iterator.GoRightChild ⟨i + 1⟩ = ⟨(2 * i + 2) + 1⟩ := by
  have h1 : (i + 1) * 2 % 4294967296 = 2 * i + 2 := by omega
  have h2 : (2 * i + 2 + 1) % 4294967296 = 2 * i + 2 + 1 := by omega
  simp only [Iterator.GoRightChild, CCompleteTreeIndex.MoveToRight, uint32, h1, h2]

theorem SwapNodeValues_some (tree : List T) (i j : Nat) (a b : T)
    (hi : tree[i]? = some a) (hj : tree[j]? = some b) :
    SwapNodeValues tree ⟨i + 1⟩ ⟨j + 1⟩ = .returned ((tree.set i b).set j a) := by
  have hil : i < tree.length := (List.getElem?_eq_some.mp hi).1
  have hjl : j < tree.length := (List.getElem?_eq_some.mp hj).1
  have hjl2 : j < (tree.set i b).length := by simpa using hjl
  simp [SwapNodeValues, GetValue_some tree i a hi, GetValue_some tree j b hj,
    SetValue_lt tree i b hil, SetValue_lt (tree.set i b) j a hjl2]

theorem PickLargestIterator_succ (comp : T → T → Bool) (tree : List T) (i j : Nat) :
    PickLargestIterator comp tree ⟨i + 1⟩ ⟨j + 1⟩ = .ok ⟨pickOffset2 comp tree i j + 1⟩ := by
  unfold PickLargestIterator pickOffset2
  simp only [IsStillInTree_succ]
  cases hi : tree[i]? with
  | none =>
    have hi2 : ¬ i < tree.length := by
      have := List.getElem?_eq_none_iff.mp hi; omega
    cases hj : tree[j]? with
    | none =>
      have hj2 : ¬ j < tree.length := by
        have := List.getElem?_eq_none_iff.mp hj; omega
      simp [hi2, hj2]
    | some v2 =>
      have hj2 : j < tree.length := (List.getElem?_eq_some.mp hj).1
      simp [hi2, hj2]
  | some v1 =>
    have hi2 : i < tree.length := (List.getElem?_eq_some.mp hi).1
    cases hj : tree[j]? with
    | none =>
      have hj2 : ¬ j < tree.length := by
        have := List.getElem?_eq_none_iff.mp hj; omega
      simp [hi2, hj2]
    | some v2 =>
      have hj2 : j < tree.length := (List.getElem?_eq_some.mp hj).1
      simp only [hi2, hj2, decide_True, GetValue_some tree i v1 hi, GetValue_some tree j v2 hj,
        stdMax]
      by_cases h12 : comp v1 v2 = true
      · by_cases h21 : comp v2 v1 = true <;> simp [h12, h21]
      · by_cases h11 : comp v1 v1 = true <;> simp [h12, h11]

end Primitives

/-! ### One call of `BubbleUp` and of `SiftDown` -/

section Steps

variable {T : Type}

theorem BubbleUp_root (comp : T → T → Bool) (s : Nat) (tree : List T) :
    CHeap.BubbleUp comp (s + 1) tree ⟨0 + 1⟩ = .returned tree := by
  simp [CHeap.BubbleUp, GetRootNode_eq, eq_succ]

theorem BubbleUp_step (comp : T → T → Bool) (s : Nat) (tree : List T) (i : Nat) (c p : T)
    (hi : 0 < i) (hc : tree[i]? = some c) (hp : tree[parentOffset i]? = some p) :
    CHeap.BubbleUp comp (s + 1) tree ⟨i + 1⟩ =
      if comp c p = true then .returned tree
      else CHeap.BubbleUp comp s ((tree.set (parentOffset i) c).set i p)
        ⟨parentOffset i + 1⟩ := by
  have hne : ¬ 0 = i := by omega
  rw [CHeap.BubbleUp]
  simp only [GetRootNode_eq, eq_succ, hne, decide_False, GoUp_succ i hi,
    CHeap.AreNodesInSortOrder, GetValue_some tree i c hc,
    GetValue_some tree (parentOffset i) p hp,
    SwapNodeValues_some tree (parentOffset i) i p c hp hc]
  by_cases h : comp c p = true <;> simp [h]

theorem pickOffset2_cases (comp : T → T → Bool) (tree : List T) (i j : Nat) :
    pickOffset2 comp tree i j = i ∨
      (pickOffset2 comp tree i j = j ∧ ∃ v, tree[j]? = some v) := by
  unfold pickOffset2
  cases hi : tree[i]? with
  | none =>
    cases hj : tree[j]? with
    | none => simp
    | some v2 => simp
  | some v1 =>
    cases hj : tree[j]? with
    | none => simp
    | some v2 =>
      by_cases h : (comp v1 v2 || comp v1 v1) = true
      · simp [h]
      · simp [h]

theorem pickOffset3_cases (comp : T → T → Bool) (tree : List T) (i : Nat) :
    pickOffset3 comp tree i = i ∨
      (pickOffset3 comp tree i = 2 * i + 1 ∧ ∃ v, tree[2 * i + 1]? = some v) ∨
      (pickOffset3 comp tree i = 2 * i + 2 ∧ ∃ v, tree[2 * i + 2]? = some v) := by
  unfold pickOffset3
  rcases pickOffset2_cases comp tree (pickOffset2 comp tree i (2 * i + 1)) (2 * i + 2) with h | h
  · rw [h]
    rcases pickOffset2_cases comp tree i (2 * i + 1) with h1 | h1
    · exact Or.inl h1
    · exact Or.inr (Or.inl h1)
  · exact Or.inr (Or.inr h)

theorem PickLargestIterator3_succ (comp : T → T → Bool) (tree : List T) (i : Nat) :
    PickLargestIterator3 comp tree ⟨i + 1⟩ ⟨(2 * i + 1) + 1⟩ ⟨(2 * i + 2) + 1⟩ =
      .ok ⟨pickOffset3 comp tree i + 1⟩ := by
  simp only [PickLargestIterator3, PickLargestIterator_succ, pickOffset3]

theorem SiftDown_stop (comp : T → T → Bool) (s : Nat) (tree : List T) (i : Nat)
    (hw : 2 * i + 3 < 4294967296) (hb : pickOffset3 comp tree i = i) :
    CHeap.SiftDown comp (s + 1) tree ⟨i + 1⟩ = .returned tree := by
  rw [CHeap.SiftDown]
  simp only [GoLeftChild_succ i (by omega), GoRightChild_succ i hw,
    PickLargestIterator3_succ, hb, eq_succ, decide_True]

theorem SiftDown_step (comp : T → T → Bool) (s : Nat) (tree : List T) (i b : Nat) (vi vb : T)
    (hw : 2 * i + 3 < 4294967296) (hb : pickOffset3 comp tree i = b) (hne : b ≠ i)
    (hi : tree[i]? = some vi) (hvb : tree[b]? = some vb) :
    CHeap.SiftDown comp (s + 1) tree ⟨i + 1⟩ =
      CHeap.SiftDown comp s ((tree.set i vb).set b vi) ⟨b + 1⟩ := by
  have hbl : b < tree.length := (List.getElem?_eq_some.mp hvb).1
  have hne2 : ¬ i = b := fun h => hne h.symm
  rw [CHeap.SiftDown]
  simp only [GoLeftChild_succ i (by omega), GoRightChild_succ i hw,
    PickLargestIterator3_succ, hb, eq_succ, hne2, decide_False, IsStillInTree_succ, hbl,
    decide_True, SwapNodeValues_some tree i b vi vb hi hvb]

end Steps

/-! ### Proof rules for the two recursions -/

section Rules

variable {T : Type}

theorem parentOffset_lt {i : Nat} (h : 0 < i) : parentOffset i < i := by
  unfold parentOffset; omega

/-- Rule for `BubbleUp`: an invariant `P` kept by every swap, which yields `Q`
at the root and wherever the comparison stops the recursion, gives `Q` for the
returned vector; a budget above the starting offset is enough. -/
theorem BubbleUp_rule (comp : T → T → Bool) (P : List T → Nat → Prop) (Q : List T → Prop)
    (hroot : ∀ tree, P tree 0 → Q tree)
    (hstop : ∀ tree i c p, 0 < i → P tree i → tree[i]? = some c →
      tree[parentOffset i]? = some p → comp c p = true → Q tree)
    (hswap : ∀ tree i c p, 0 < i → P tree i → tree[i]? = some c →
      tree[parentOffset i]? = some p → comp c p = false →
      P ((tree.set (parentOffset i) c).set i p) (parentOffset i)) :
    ∀ (steps : Nat) (tree : List T) (i : Nat), i < tree.length → i < steps → P tree i →
      ∃ tree1, CHeap.BubbleUp comp steps tree ⟨i + 1⟩ = .returned tree1 ∧ Q tree1 := by
  intro steps
  induction steps with
  | zero => intro tree i _ h; omega
  | succ s ih =>
    intro tree i hil his hP
    by_cases hi : i = 0
    · subst hi
      exact ⟨tree, BubbleUp_root comp s tree, hroot tree hP⟩
    · have hi0 : 0 < i := by omega
      have hpl : parentOffset i < i := parentOffset_lt hi0
      obtain ⟨c, hc⟩ : ∃ c, tree[i]? = some c := ⟨tree[i], by simp [hil]⟩
      obtain ⟨p, hp⟩ : ∃ p, tree[parentOffset i]? = some p :=
        ⟨tree[parentOffset i], by simp [show parentOffset i < tree.length by omega]⟩
      rw [BubbleUp_step comp s tree i c p hi0 hc hp]
      by_cases hcp : comp c p = true
      · simp only [hcp, if_true]
        exact ⟨tree, rfl, hstop tree i c p hi0 hP hc hp hcp⟩
      · simp only [hcp]
        have hcp2 : comp c p = false := by simpa using hcp
        exact ih _ _ (by simp; omega) (by omega) (hswap tree i c p hi0 hP hc hp hcp2)

/-- Rule for `SiftDown`: an invariant `P` kept by every swap with the picked
child, which yields `Q` where the node itself is picked, gives `Q` for the
returned vector, provided child offsets do not wrap around in 32 bits. -/
theorem SiftDown_rule (comp : T → T → Bool) (P : List T → Nat → Prop) (Q : List T → Prop)
    (hstop : ∀ tree i, P tree i → pickOffset3 comp tree i = i → Q tree)
    (hswap : ∀ tree i b vi vb, P tree i → pickOffset3 comp tree i = b → b ≠ i →
      tree[i]? = some vi → tree[b]? = some vb → P ((tree.set i vb).set b vi) b) :
    ∀ (steps : Nat) (tree : List T) (i : Nat), tree.length < 2147483648 →
      2 * i + 3 < 4294967296 → tree.length - i < steps → P tree i →
      ∃ tree1, CHeap.SiftDown comp steps tree ⟨i + 1⟩ = .returned tree1 ∧ Q tree1 := by
  intro steps
  induction steps with
  | zero => intro tree i _ _ h; omega
  | succ s ih =>
    intro tree i hcap hw hfuel hP
    by_cases hb : pickOffset3 comp tree i = i
    · exact ⟨tree, SiftDown_stop comp s tree i hw hb, hstop tree i hP hb⟩
    · have hchild : ∃ vb, tree[pickOffset3 comp tree i]? = some vb ∧
          i < pickOffset3 comp tree i := by
        rcases pickOffset3_cases comp tree i with h | ⟨h, v, hv⟩ | ⟨h, v, hv⟩
        · exact absurd h hb
        · exact ⟨v, by rw [h]; exact hv, by omega⟩
        · exact ⟨v, by rw [h]; exact hv, by omega⟩
      obtain ⟨vb, hvb, hlt⟩ := hchild
      have hbl : pickOffset3 comp tree i < tree.length := (List.getElem?_eq_some.mp hvb).1
      have hil : i < tree.length := by omega
      obtain ⟨vi, hvi⟩ : ∃ vi, tree[i]? = some vi :=
        ⟨tree[i], by simp [show i < tree.length by omega]⟩
      rw [SiftDown_step comp s tree i _ vi vb hw rfl hb hvi hvb]
      exact ih _ _ (by simpa using hcap) (by omega) (by simp; omega)
        (hswap tree i _ vi vb hP rfl hb hvi hvb)

end Rules

/-! ### Order facts, swaps and the two invariants -/

section Inv
variable {T : Type}

theorem StrictWeakOrder.asymm {lt : T → T → Bool} (h : StrictWeakOrder lt) (a b : T)
    (hab : lt a b = true) : lt b a = false := by
  cases hba : lt b a with
  | false => rfl
  | true =>
    have := h.trans a b a hab hba
    rw [h.irrefl a] at this
    exact absurd this (by simp)

theorem StrictWeakOrder.negtrans {lt : T → T → Bool} (h : StrictWeakOrder lt) (a b c : T)
    (hab : lt a b = false) (hbc : lt b c = false) : lt a c = false := by
  cases hac : lt a c with
  | false => rfl
  | true =>
    have hba : lt b a = false := by
      cases hba : lt b a with
      | false => rfl
      | true => rw [h.trans b a c hba hac] at hbc; exact absurd hbc (by simp)
    have hcb : lt c b = false := by
      cases hcb : lt c b with
      | false => rfl
      | true => rw [h.trans a c b hac hcb] at hab; exact absurd hab (by simp)
    have := (h.incomp_trans a b c hab hba hbc hcb).1
    rw [hac] at this
    exact absurd this (by simp)

theorem swap_getElem? (tree : List T) (a b k : Nat) (x y : T) :
    ((tree.set a x).set b y)[k]? =
      if k = b then (if b < tree.length then some y else none)
      else if k = a then (if a < tree.length then some x else none)
      else tree[k]? := by
  rw [List.getElem?_set]
  by_cases hkb : k = b
  · subst hkb; simp
  · have : ¬ b = k := fun h => hkb h.symm
    simp only [this, if_false, hkb]
    rw [List.getElem?_set]
    by_cases hka : k = a
    · subst hka; simp
    · have : ¬ a = k := fun h => hka h.symm
      simp [this, hka]

theorem swap_perm (tree : List T) (i j : Nat) (a b : T)
    (hi : tree[i]? = some a) (hj : tree[j]? = some b) :
    ((tree.set i b).set j a).Perm tree := by
  classical
  obtain ⟨hil, hia⟩ := List.getElem?_eq_some.mp hi
  obtain ⟨hjl, hjb⟩ := List.getElem?_eq_some.mp hj
  rw [List.perm_iff_count]
  intro c
  have hjl2 : j < (tree.set i b).length := by simpa using hjl
  rw [List.count_set _ _ _ _ hjl2, List.count_set _ _ _ _ hil]
  have hget : (tree.set i b)[j] = b := by
    rw [List.getElem_set]
    split
    · rfl
    · exact hjb
  rw [hget, hia]
  have hmem : a ∈ tree := by rw [← hia]; exact List.getElem_mem _
  have hpos : (if (a == c) = true then 1 else 0) ≤ List.count c tree := by
    split
    · rename_i h
      have : a = c := by simpa using h
      subst this
      exact List.count_pos_iff.mpr hmem
    · omega
  omega

theorem isHeap_iff (lt : T → T → Bool) (tree : List T) :
    IsHeap lt tree ↔ ∀ j, 0 < j → NotLessAt lt tree (parentOffset j) j := by
  constructor
  · intro h j hj x y hx hy
    have hjl : j < tree.length := (List.getElem?_eq_some.mp hy).1
    have := h j hjl hj
    simpa [heapOrderedAt, hx, hy] using this
  · intro h j hjl hj
    have hpl : parentOffset j < tree.length := by
      have := parentOffset_lt hj; omega
    have := h j hj tree[parentOffset j] tree[j] (by simp [hpl]) (by simp [hjl])
    simp [heapOrderedAt, hpl, hjl, this]

theorem BubbleInv_swap (lt : T → T → Bool) (hlt : StrictWeakOrder lt) (tree : List T)
    (i : Nat) (c p : T) (hi : 0 < i) (hP : BubbleInv lt tree i) (hc : tree[i]? = some c)
    (hp : tree[parentOffset i]? = some p) (hcp : lt c p = false) :
    BubbleInv lt ((tree.set (parentOffset i) c).set i p) (parentOffset i) := by
  obtain ⟨ha, hb⟩ := hP
  have hil : i < tree.length := (List.getElem?_eq_some.mp hc).1
  have hpl : parentOffset i < tree.length := (List.getElem?_eq_some.mp hp).1
  have hpi : parentOffset i < i := parentOffset_lt hi
  have hne : ¬ parentOffset i = i := by omega
  constructor
  · intro j hj hjP x y hx hy
    rw [swap_getElem?] at hx hy
    by_cases hji : j = i
    · rw [hji] at hx hy
      simp only [hne, if_false, if_true, hpl, hil, Option.some.injEq] at hx hy
      rw [← hx, ← hy]; exact hcp
    · simp only [hji, hjP, if_false] at hy
      by_cases hq : parentOffset j = parentOffset i
      · rw [hq] at hx
        simp only [hne, if_false, if_true, hpl, Option.some.injEq] at hx
        have h2 := ha j hj hji p y (by rw [hq]; exact hp) hy
        rw [← hx]
        exact hlt.negtrans _ _ _ hcp h2
      · by_cases hq2 : parentOffset j = i
        · simp only [hq2, if_true, hil, Option.some.injEq] at hx
          rw [← hx]
          exact hb hi j hj hq2 p y hp hy
        · simp only [hq, hq2, if_false] at hx
          exact ha j hj hji x y hx hy
  · intro hP0 j hj hjP x y hx hy
    rw [swap_getElem?] at hx hy
    have hg : parentOffset (parentOffset i) < parentOffset i := parentOffset_lt hP0
    have h1 : ¬ parentOffset (parentOffset i) = i := by omega
    have h2 : ¬ parentOffset (parentOffset i) = parentOffset i := by omega
    simp only [h1, h2, if_false] at hx
    have h3 := ha (parentOffset i) hP0 (by omega) x p hx hp
    by_cases hji : j = i
    · rw [hji] at hy
      simp only [if_true, hil, Option.some.injEq] at hy
      rw [← hy]
      exact h3
    · have hjP2 : ¬ j = parentOffset i := by
        have := parentOffset_lt hj; omega
      simp only [hji, hjP2, if_false] at hy
      have h4 := ha j hj hji p y (by rw [hjP]; exact hp) hy
      exact hlt.negtrans _ _ _ h3 h4
end Inv

/-! ### What the picker chooses under a strict weak ordering -/

section Picker

variable {T : Type}

theorem child_of_parentOffset {i j : Nat} (hj : 0 < j) (h : parentOffset j = i) :
    j = 2 * i + 1 ∨ j = 2 * i + 2 := by
  unfold parentOffset at h; omega

theorem parentOffset_left (i : Nat) : parentOffset (2 * i + 1) = i := by
  unfold parentOffset; omega

theorem parentOffset_right (i : Nat) : parentOffset (2 * i + 2) = i := by
  unfold parentOffset; omega

theorem pickOffset2_irrefl (lt : T → T → Bool) (hlt : StrictWeakOrder lt) (tree : List T)
    (i j : Nat) (v1 v2 : T) (h1 : tree[i]? = some v1) (h2 : tree[j]? = some v2) :
    pickOffset2 lt tree i j = if lt v1 v2 = true then j else i := by
  simp [pickOffset2, h1, h2, hlt.irrefl v1]

theorem pickOffset2_none (lt : T → T → Bool) (tree : List T)
    (i j : Nat) (v1 : T) (h1 : tree[i]? = some v1) (h2 : tree[j]? = none) :
    pickOffset2 lt tree i j = i := by
  simp [pickOffset2, h1, h2]

/-- When the picker keeps the node, the node is not less than either child. -/
theorem pickOffset3_stop (lt : T → T → Bool) (hlt : StrictWeakOrder lt) (tree : List T)
    (i : Nat) (hb : pickOffset3 lt tree i = i) :
    NotLessAt lt tree i (2 * i + 1) ∧ NotLessAt lt tree i (2 * i + 2) := by
  unfold pickOffset3 at hb
  constructor
  · intro x y hx hy
    rw [pickOffset2_irrefl lt hlt tree i (2 * i + 1) x y hx hy] at hb
    cases hxy : lt x y with
    | false => rfl
    | true =>
      rw [hxy] at hb
      simp only [if_true] at hb
      rcases pickOffset2_cases lt tree (2 * i + 1) (2 * i + 2) with h | ⟨h, _⟩ <;> omega
  · intro x y hx hy
    have hw : pickOffset2 lt tree i (2 * i + 1) = i := by
      rcases pickOffset2_cases lt tree i (2 * i + 1) with h | ⟨h, _⟩
      · exact h
      · rw [h] at hb
        rcases pickOffset2_cases lt tree (2 * i + 1) (2 * i + 2) with h2 | ⟨h2, _⟩ <;> omega
    rw [hw, pickOffset2_irrefl lt hlt tree i (2 * i + 2) x y hx hy] at hb
    cases hxy : lt x y with
    | false => rfl
    | true =>
      rw [hxy] at hb
      simp only [if_true] at hb
      omega

/-- When the picker chooses a child, that child is strictly greater than the
node and not less than either child. -/
theorem pickOffset3_child (lt : T → T → Bool) (hlt : StrictWeakOrder lt) (tree : List T)
    (i b : Nat) (vi vb : T) (hb : pickOffset3 lt tree i = b) (hne : b ≠ i)
    (hi : tree[i]? = some vi) (hvb : tree[b]? = some vb) :
    lt vi vb = true ∧ NotLessAt lt tree b (2 * i + 1) ∧ NotLessAt lt tree b (2 * i + 2) := by
  unfold pickOffset3 at hb
  cases hL : tree[2 * i + 1]? with
  | none =>
    have hRn : tree[2 * i + 2]? = none := by
      rw [List.getElem?_eq_none_iff] at hL ⊢; omega
    rw [pickOffset2_none lt tree i (2 * i + 1) vi hi hL,
      pickOffset2_none lt tree i (2 * i + 2) vi hi hRn] at hb
    exact absurd hb.symm hne
  | some vL =>
    rw [pickOffset2_irrefl lt hlt tree i (2 * i + 1) vi vL hi hL] at hb
    cases hiL : lt vi vL with
    | true =>
      rw [hiL] at hb
      simp only [if_true] at hb
      cases hR : tree[2 * i + 2]? with
      | none =>
        rw [pickOffset2_none lt tree (2 * i + 1) (2 * i + 2) vL hL hR] at hb
        subst hb
        rw [hL] at hvb
        simp only [Option.some.injEq] at hvb
        subst hvb
        refine ⟨hiL, ?_, ?_⟩
        · intro x y hx hy
          rw [hL] at hx hy
          simp only [Option.some.injEq] at hx hy
          rw [← hx, ← hy]; exact hlt.irrefl _
        · intro x y _ hy
          rw [hR] at hy; exact absurd hy (by simp)
      | some vR =>
        rw [pickOffset2_irrefl lt hlt tree (2 * i + 1) (2 * i + 2) vL vR hL hR] at hb
        cases hLR : lt vL vR with
        | true =>
          rw [hLR] at hb
          simp only [if_true] at hb
          subst hb
          rw [hR] at hvb
          simp only [Option.some.injEq] at hvb
          subst hvb
          refine ⟨hlt.trans _ _ _ hiL hLR, ?_, ?_⟩
          · intro x y hx hy
            rw [hR] at hx; rw [hL] at hy
            simp only [Option.some.injEq] at hx hy
            rw [← hx, ← hy]; exact hlt.asymm _ _ hLR
          · intro x y hx hy
            rw [hR] at hx hy
            simp only [Option.some.injEq] at hx hy
            rw [← hx, ← hy]; exact hlt.irrefl _
        | false =>
          rw [hLR] at hb
          simp only [Bool.false_eq_true, if_false] at hb
          subst hb
          rw [hL] at hvb
          simp only [Option.some.injEq] at hvb
          subst hvb
          refine ⟨hiL, ?_, ?_⟩
          · intro x y hx hy
            rw [hL] at hx hy
            simp only [Option.some.injEq] at hx hy
            rw [← hx, ← hy]; exact hlt.irrefl _
          · intro x y hx hy
            rw [hL] at hx; rw [hR] at hy
            simp only [Option.some.injEq] at hx hy
            rw [← hx, ← hy]; exact hLR
    | false =>
      rw [hiL] at hb
      simp only [Bool.false_eq_true, if_false] at hb
      cases hR : tree[2 * i + 2]? with
      | none =>
        rw [pickOffset2_none lt tree i (2 * i + 2) vi hi hR] at hb
        exact absurd hb.symm hne
      | some vR =>
        rw [pickOffset2_irrefl lt hlt tree i (2 * i + 2) vi vR hi hR] at hb
        cases hiR : lt vi vR with
        | false =>
          rw [hiR] at hb
          simp only [Bool.false_eq_true, if_false] at hb
          exact absurd hb.symm hne
        | true =>
          rw [hiR] at hb
          simp only [if_true] at hb
          subst hb
          rw [hR] at hvb
          simp only [Option.some.injEq] at hvb
          subst hvb
          refine ⟨hiR, ?_, ?_⟩
          · intro x y hx hy
            rw [hR] at hx; rw [hL] at hy
            simp only [Option.some.injEq] at hx hy
            rw [← hx, ← hy]
            cases hRL : lt vR vL with
            | false => rfl
            | true =>
              rw [hlt.trans _ _ _ hiR hRL] at hiL
              exact absurd hiL (by simp)
          · intro x y hx hy
            rw [hR] at hx hy
            simp only [Option.some.injEq] at hx hy
            rw [← hx, ← hy]; exact hlt.irrefl _

end Picker

/-! ### The invariants are kept, established and sufficient -/

section Invariants

variable {T : Type}

theorem SiftInv_swap (lt : T → T → Bool) (hlt : StrictWeakOrder lt) (tree : List T)
    (i b : Nat) (vi vb : T) (hP : SiftInv lt tree i) (hb : pickOffset3 lt tree i = b)
    (hne : b ≠ i) (hi : tree[i]? = some vi) (hvb : tree[b]? = some vb) :
    SiftInv lt ((tree.set i vb).set b vi) b := by
  obtain ⟨ha, hbb⟩ := hP
  obtain ⟨hlt1, hbL, hbR⟩ := pickOffset3_child lt hlt tree i b vi vb hb hne hi hvb
  have hil : i < tree.length := (List.getElem?_eq_some.mp hi).1
  have hbl : b < tree.length := (List.getElem?_eq_some.mp hvb).1
  have hchild : b = 2 * i + 1 ∨ b = 2 * i + 2 := by
    rcases pickOffset3_cases lt tree i with h | ⟨h, _⟩ | ⟨h, _⟩
    · rw [hb] at h; exact absurd h hne
    · rw [hb] at h; exact Or.inl h
    · rw [hb] at h; exact Or.inr h
  have hpb : parentOffset b = i := by
    rcases hchild with h | h
    · rw [h]; exact parentOffset_left i
    · rw [h]; exact parentOffset_right i
  have hib : ¬ i = b := by omega
  constructor
  · intro j hj hjq x y hx hy
    rw [swap_getElem?] at hx hy
    by_cases hjb : j = b
    · rw [hjb] at hx hy
      rw [hpb] at hx
      simp only [hib, if_false, if_true, hil, hbl, Option.some.injEq] at hx hy
      rw [← hx, ← hy]; exact hlt.asymm _ _ hlt1
    · by_cases hji : j = i
      · rw [hji] at hx hy
        have hi0 : 0 < i := by omega
        have hg := parentOffset_lt hi0
        have h1 : ¬ parentOffset i = b := by omega
        have h2 : ¬ parentOffset i = i := by omega
        simp only [h1, h2, hib, if_false, if_true, hil, Option.some.injEq] at hx hy
        rw [← hy]
        exact hbb hi0 b (by omega) hpb x vb hx hvb
      · simp only [hjb, hji, if_false] at hy
        by_cases hq : parentOffset j = i
        · rw [hq] at hx
          simp only [hib, if_false, if_true, hil, Option.some.injEq] at hx
          rw [← hx]
          rcases child_of_parentOffset hj hq with h | h
          · rw [h] at hy; exact hbL vb y hvb hy
          · rw [h] at hy; exact hbR vb y hvb hy
        · simp only [hjq, hq, if_false] at hx
          exact ha j hj hq x y hx hy
  · intro hb0 j hj hjq x y hx hy
    rw [swap_getElem?] at hx hy
    have hjgt := parentOffset_lt hj
    have h1 : ¬ j = b := by omega
    have h2 : ¬ j = i := by omega
    rw [hpb] at hx
    simp only [h1, h2, hib, if_false, if_true, hil, Option.some.injEq] at hx hy
    rw [← hx]
    exact ha j hj (by omega) vb y (by rw [hjq]; exact hvb) hy

theorem SiftInv_stop (lt : T → T → Bool) (hlt : StrictWeakOrder lt) (tree : List T)
    (i : Nat) (hP : SiftInv lt tree i) (hb : pickOffset3 lt tree i = i) :
    IsHeap lt tree := by
  rw [isHeap_iff]
  intro j hj
  by_cases hq : parentOffset j = i
  · obtain ⟨hL, hR⟩ := pickOffset3_stop lt hlt tree i hb
    rw [hq]
    rcases child_of_parentOffset hj hq with h | h
    · rw [h]; exact hL
    · rw [h]; exact hR
  · exact hP.1 j hj hq

theorem BubbleInv_root (lt : T → T → Bool) (tree : List T) (hP : BubbleInv lt tree 0) :
    IsHeap lt tree := by
  rw [isHeap_iff]
  intro j hj
  exact hP.1 j hj (by omega)

theorem BubbleInv_stop (lt : T → T → Bool) (hlt : StrictWeakOrder lt) (tree : List T)
    (i : Nat) (c p : T) (hP : BubbleInv lt tree i) (hc : tree[i]? = some c)
    (hp : tree[parentOffset i]? = some p) (hcp : lt c p = true) : IsHeap lt tree := by
  rw [isHeap_iff]
  intro j hj
  by_cases hji : j = i
  · intro x y hx hy
    rw [hji] at hx hy
    rw [hp] at hx; rw [hc] at hy
    simp only [Option.some.injEq] at hx hy
    rw [← hx, ← hy]; exact hlt.asymm _ _ hcp
  · exact hP.1 j hj hji

/-- Appending to a heap establishes the bubble-up invariant at the new offset. -/
theorem BubbleInv_append (lt : T → T → Bool) (tree : List T) (t : T) (h : IsHeap lt tree) :
    BubbleInv lt (tree ++ [t]) tree.length := by
  rw [isHeap_iff] at h
  constructor
  · intro j hj hjn x y hx hy
    have hjl : j < (tree ++ [t]).length := (List.getElem?_eq_some.mp hy).1
    simp only [List.length_append, List.length_singleton] at hjl
    have hjl2 : j < tree.length := by omega
    have hpl : parentOffset j < tree.length := by
      have := parentOffset_lt hj; omega
    rw [List.getElem?_append_left hpl] at hx
    rw [List.getElem?_append_left hjl2] at hy
    exact h j hj x y hx hy
  · intro _ j hj hjq x y _ hy
    have hjl : j < (tree ++ [t]).length := (List.getElem?_eq_some.mp hy).1
    simp only [List.length_append, List.length_singleton] at hjl
    unfold parentOffset at hjq
    omega

/-- Moving the last value to the root of a heap and erasing the last node
establishes the sift-down invariant at the root. -/
theorem SiftInv_pop (lt : T → T → Bool) (tree : List T) (a b : T) (h : IsHeap lt tree) :
    SiftInv lt ((tree.set 0 b).set (tree.length - 1) a).dropLast 0 := by
  rw [isHeap_iff] at h
  constructor
  · intro j hj hjq x y hx hy
    have hjl : j < ((tree.set 0 b).set (tree.length - 1) a).dropLast.length :=
      (List.getElem?_eq_some.mp hy).1
    simp only [List.length_dropLast, List.length_set] at hjl
    have hpj := parentOffset_lt hj
    rw [List.getElem?_dropLast] at hx hy
    simp only [List.length_set] at hx hy
    have hpl : parentOffset j < tree.length - 1 := by omega
    simp only [hpl, hjl, if_true] at hx hy
    rw [swap_getElem?] at hx hy
    have h1 : ¬ parentOffset j = tree.length - 1 := by omega
    have h2 : ¬ parentOffset j = 0 := by omega
    have h3 : ¬ j = tree.length - 1 := by omega
    have h4 : ¬ j = 0 := by omega
    simp only [h1, h2, h3, h4, if_false] at hx hy
    exact h j hj x y hx hy
  · intro h0; omega

end Invariants

/-! ### `Insert` and `PopTop` -/

section HeapCalls

variable {T : Type}

theorem Insert_eq (comp : T → T → Bool) (steps : Nat) (tree : List T) (t : T)
    (hcap : tree.length + 1 < 4294967296) :
    CHeap.Insert comp steps tree t =
      CHeap.BubbleUp comp steps (tree ++ [t]) ⟨tree.length + 1⟩ := by
  have h := GetLastNode_eq (tree ++ [t]) (by simp) (by simpa using hcap)
  simp only [List.length_append, List.length_singleton, Nat.add_sub_cancel] at h
  simp only [CHeap.Insert, CCompleteTree.Append, h]

theorem dropLast_concat_last (l : List T) (a : T) (h : l[l.length - 1]? = some a) :
    l.dropLast ++ [a] = l :=
  List.dropLast_append_getLast? a (by rw [List.getLast?_eq_getElem?]; exact h)

theorem PopTop_eq (comp : T → T → Bool) (steps : Nat) (tree : List T) (top last : T)
    (htop : tree[0]? = some top) (hlast : tree[tree.length - 1]? = some last)
    (hcap : tree.length < 4294967296) :
    CHeap.PopTop comp steps tree =
      CHeap.SiftDown comp steps ((tree.set 0 last).set (tree.length - 1) top).dropLast
        ⟨0 + 1⟩ := by
  have h0 : 0 < tree.length := (List.getElem?_eq_some.mp htop).1
  have hne : ¬ tree.length = 0 := by omega
  simp only [CHeap.PopTop, CCompleteTree.GetSize, hne, if_false, GetRootNode_eq,
    GetLastNode_eq tree h0 hcap, SwapNodeValues_some tree 0 (tree.length - 1) top last htop hlast,
    CCompleteTree.EraseLastNode, List.length_set, h0, if_true]

/-- Everything `Insert` guarantees within the range of the 32-bit index: it
returns, the stored values are the old ones plus `t`, and a heap stays a heap
under a strict weak ordering. -/
theorem Insert_spec (comp : T → T → Bool) (steps : Nat) (tree : List T) (t : T)
    (hcap : tree.length + 1 < 4294967296) (hfuel : tree.length < steps) :
    ∃ tree1, CHeap.Insert comp steps tree t = .returned tree1 ∧
      tree1.Perm (t :: tree) ∧
      (StrictWeakOrder comp → IsHeap comp tree → IsHeap comp tree1) := by
  rw [Insert_eq comp steps tree t hcap]
  refine BubbleUp_rule comp
    (fun l i => l.Perm (t :: tree) ∧
      (StrictWeakOrder comp → IsHeap comp tree → BubbleInv comp l i))
    (fun l => l.Perm (t :: tree) ∧ (StrictWeakOrder comp → IsHeap comp tree → IsHeap comp l))
    ?_ ?_ ?_ steps (tree ++ [t]) tree.length (by simp) hfuel ?_
  · intro l hP
    exact ⟨hP.1, fun h1 h2 => BubbleInv_root comp l (hP.2 h1 h2)⟩
  · intro l i c p _ hP hc hp hcp
    exact ⟨hP.1, fun h1 h2 => BubbleInv_stop comp h1 l i c p (hP.2 h1 h2) hc hp hcp⟩
  · intro l i c p hi hP hc hp hcp
    exact ⟨(swap_perm l (parentOffset i) i p c hp hc).trans hP.1,
      fun h1 h2 => BubbleInv_swap comp h1 l i c p hi (hP.2 h1 h2) hc hp hcp⟩
  · exact ⟨List.perm_append_singleton t tree, fun _ h2 => BubbleInv_append comp tree t h2⟩

/-- Everything `PopTop` guarantees on a non-empty heap within the range of the
32-bit index: it returns, the stored values are the old ones minus the old top,
and a heap stays a heap under a strict weak ordering. -/
theorem PopTop_spec (comp : T → T → Bool) (steps : Nat) (tree : List T) (top : T)
    (htop : tree[0]? = some top) (hcap : tree.length ≤ 2147483648)
    (hfuel : tree.length ≤ steps) :
    ∃ tree1, CHeap.PopTop comp steps tree = .returned tree1 ∧
      tree.Perm (top :: tree1) ∧
      (StrictWeakOrder comp → IsHeap comp tree → IsHeap comp tree1) := by
  have h0 : 0 < tree.length := (List.getElem?_eq_some.mp htop).1
  have hl : tree.length - 1 < tree.length := by omega
  obtain ⟨last, hlast⟩ : ∃ last, tree[tree.length - 1]? = some last :=
    ⟨tree[tree.length - 1], by simp [hl]⟩
  rw [PopTop_eq comp steps tree top last htop hlast (by omega)]
  have hperm0 : tree.Perm
      (top :: ((tree.set 0 last).set (tree.length - 1) top).dropLast) := by
    have h1 := swap_perm tree 0 (tree.length - 1) top last htop hlast
    have h2 : ((tree.set 0 last).set (tree.length - 1) top)[
        ((tree.set 0 last).set (tree.length - 1) top).length - 1]? = some top := by
      rw [swap_getElem?]; simp [hl]
    have h3 := dropLast_concat_last _ top h2
    have h4 := List.perm_append_singleton top
      ((tree.set 0 last).set (tree.length - 1) top).dropLast
    rw [h3] at h4
    exact h1.symm.trans h4
  refine SiftDown_rule comp
    (fun l i => tree.Perm (top :: l) ∧
      (StrictWeakOrder comp → IsHeap comp tree → SiftInv comp l i))
    (fun l => tree.Perm (top :: l) ∧ (StrictWeakOrder comp → IsHeap comp tree → IsHeap comp l))
    ?_ ?_ steps _ 0 ?_ (by omega) ?_ ?_
  · intro l i hP hb
    exact ⟨hP.1, fun h1 h2 => SiftInv_stop comp h1 l i (hP.2 h1 h2) hb⟩
  · intro l i b vi vb hP hb hne hi hvb
    exact ⟨hP.1.trans (List.Perm.cons top (swap_perm l i b vi vb hi hvb).symm),
      fun h1 h2 => SiftInv_swap comp h1 l i b vi vb (hP.2 h1 h2) hb hne hi hvb⟩
  · simp only [List.length_dropLast, List.length_set]; omega
  · simp only [List.length_dropLast, List.length_set]; omega
  · exact ⟨hperm0, fun _ h2 => SiftInv_pop comp tree top last h2⟩

end HeapCalls

/-! ### The root of a heap -/

section Root

variable {T : Type}

theorem PeekTop_some (tree : List T) (top : T) (h : tree[0]? = some top) :
    CHeap.PeekTop tree = .ok top := by
  have h0 : 0 < tree.length := (List.getElem?_eq_some.mp h).1
  have hne : ¬ tree.length = 0 := by omega
  simp only [CHeap.PeekTop, CCompleteTree.GetSize, hne, if_false, GetRootNode_eq,
    GetValue_some tree 0 top h]

theorem PeekTop_nil : CHeap.PeekTop ([] : List T) = .error .CCannotAccessEmptyHeap := by
  simp [CHeap.PeekTop, CCompleteTree.GetSize]

theorem getElem?_zero_of_ne_nil (tree : List T) (h : tree ≠ []) :
    ∃ top, tree[0]? = some top := by
  cases tree with
  | nil => exact absurd rfl h
  | cons a l => exact ⟨a, by simp⟩

/-- In a heap under a strict weak ordering the root is not less than the value
at any offset. -/
theorem root_not_less (lt : T → T → Bool) (hlt : StrictWeakOrder lt) (tree : List T)
    (h : IsHeap lt tree) : ∀ j, NotLessAt lt tree 0 j := by
  rw [isHeap_iff] at h
  intro j
  induction j using Nat.strong_induction_on with
  | _ j ih =>
    intro r x hr hx
    by_cases hj : j = 0
    · rw [hj] at hx
      rw [hr] at hx
      simp only [Option.some.injEq] at hx
      rw [← hx]; exact hlt.irrefl r
    · have hj0 : 0 < j := by omega
      have hpj := parentOffset_lt hj0
      have hjl : j < tree.length := (List.getElem?_eq_some.mp hx).1
      have hpl : parentOffset j < tree.length := by omega
      have h1 := ih (parentOffset j) hpj r tree[parentOffset j] hr (by simp [hpl])
      have h2 := h j hj0 tree[parentOffset j] x (by simp [hpl]) hx
      exact hlt.negtrans _ _ _ h1 h2

theorem root_not_less_mem (lt : T → T → Bool) (hlt : StrictWeakOrder lt) (tree : List T)
    (h : IsHeap lt tree) (top : T) (htop : tree[0]? = some top) :
    ∀ x ∈ tree, lt top x = false := by
  intro x hx
  obtain ⟨j, hj, hjx⟩ := List.getElem_of_mem hx
  exact root_not_less lt hlt tree h j top x htop (by simp [hj, hjx])

end Root

/-! ### The two standard orders on `int` -/

section StandardOrders

theorem CStdLessSortOrder_strictWeakOrder : StrictWeakOrder CStdLessSortOrder.LessThan where
  irrefl a := by simp [CStdLessSortOrder.LessThan]
  trans a b c := by
    simp only [CStdLessSortOrder.LessThan, decide_eq_true_eq]; omega
  incomp_trans a b c := by
    simp only [CStdLessSortOrder.LessThan, decide_eq_false_iff_not]; omega

theorem CStdGreaterSortOrder_strictWeakOrder :
    StrictWeakOrder CStdGreaterSortOrder.LessThan where
  irrefl a := by simp [CStdGreaterSortOrder.LessThan]
  trans a b c := by
    simp only [CStdGreaterSortOrder.LessThan, decide_eq_true_eq]; omega
  incomp_trans a b c := by
    simp only [CStdGreaterSortOrder.LessThan, decide_eq_false_iff_not]; omega

end StandardOrders

/-! ### Sequences of calls -/

section Sequences

variable {T : Type}

theorem isHeap_nil (lt : T → T → Bool) : IsHeap lt ([] : List T) := by
  intro i hi; simp at hi

/-- A sequence of inserts and successful pops applied to a heap returns a heap,
as long as the sizes stay within the range of the 32-bit index. -/
theorem runOps_spec (lt : T → T → Bool) (hlt : StrictWeakOrder lt) (steps : Nat) :
    ∀ (ops : List (Op T)) (tree : List T), IsHeap lt tree →
      popsSucceed ops tree.length = true →
      tree.length + ops.length < 2147483648 → tree.length + ops.length < steps →
      ∃ tree1, runOps lt steps ops tree = .returned tree1 ∧ IsHeap lt tree1 := by
  intro ops
  induction ops with
  | nil => intro tree h _ _ _; exact ⟨tree, rfl, h⟩
  | cons op rest ih =>
    intro tree hheap hops hcap hsteps
    simp only [List.length_cons] at hcap hsteps
    cases op with
    | insert t =>
      obtain ⟨tree1, h1, h2, h3⟩ := Insert_spec lt steps tree t (by omega) (by omega)
      have hlen : tree1.length = tree.length + 1 := by
        simpa using h2.length_eq
      simp only [popsSucceed] at hops
      simp only [runOps, h1]
      exact ih tree1 (h3 hlt hheap) (by rw [hlen]; exact hops) (by omega) (by omega)
    | popTop =>
      simp only [popsSucceed, Bool.and_eq_true, decide_eq_true_eq] at hops
      have hne : tree ≠ [] := by
        intro h; rw [h] at hops; simp at hops
      obtain ⟨top, htop⟩ := getElem?_zero_of_ne_nil tree hne
      obtain ⟨tree1, h1, h2, h3⟩ := PopTop_spec lt steps tree top htop (by omega) (by omega)
      have hlen : tree1.length = tree.length - 1 := by
        have := h2.length_eq
        simp only [List.length_cons] at this
        omega
      simp only [runOps, h1]
      exact ih tree1 (h3 hlt hheap) (by rw [hlen]; exact hops.2) (by omega) (by omega)

/-- The top of a non-empty heap is a stored element that is not less than any
stored element. -/
theorem PeekTop_of_isHeap (lt : T → T → Bool) (hlt : StrictWeakOrder lt) (tree : List T)
    (hheap : IsHeap lt tree) (hne : tree ≠ []) :
    ∃ t, CHeap.PeekTop tree = .ok t ∧ t ∈ tree ∧ ∀ x ∈ tree, lt t x = false := by
  obtain ⟨top, htop⟩ := getElem?_zero_of_ne_nil tree hne
  exact ⟨top, PeekTop_some tree top htop, List.getElem?_mem htop,
    root_not_less_mem lt hlt tree hheap top htop⟩

/-- Draining a heap: the drained sequence is a permutation of the stored values
in which no element is less than a later one. -/
theorem drain_spec (lt : T → T → Bool) (hlt : StrictWeakOrder lt) (steps : Nat) :
    ∀ (n : Nat) (tree : List T), tree.length = n → IsHeap lt tree →
      n < 2147483648 → n < steps →
      ∃ xs, drain lt steps n tree = some xs ∧ xs.Perm tree ∧
        xs.Pairwise (fun a b => lt a b = false) := by
  intro n
  induction n with
  | zero =>
    intro tree hlen _ _ _
    have : tree = [] := List.length_eq_zero.mp hlen
    subst this
    exact ⟨[], rfl, List.Perm.refl _, List.Pairwise.nil⟩
  | succ n ih =>
    intro tree hlen hheap hcap hsteps
    have hne : tree ≠ [] := by
      intro h; rw [h] at hlen; simp at hlen
    obtain ⟨top, htop⟩ := getElem?_zero_of_ne_nil tree hne
    obtain ⟨tree1, h1, h2, h3⟩ := PopTop_spec lt steps tree top htop (by omega) (by omega)
    have hlen1 : tree1.length = n := by
      have := h2.length_eq
      simp only [List.length_cons] at this
      omega
    obtain ⟨xs, hx1, hx2, hx3⟩ := ih tree1 hlen1 (h3 hlt hheap) (by omega) (by omega)
    refine ⟨top :: xs, ?_, ?_, ?_⟩
    · simp only [drain, PeekTop_some tree top htop, h1, hx1]
    · exact (List.Perm.cons top hx2).trans h2.symm
    · refine List.Pairwise.cons ?_ hx3
      intro y hy
      have hy1 : y ∈ tree1 := hx2.subset hy
      have hy2 : y ∈ tree := h2.symm.subset (List.mem_cons_of_mem top hy1)
      exact root_not_less_mem lt hlt tree hheap top htop y hy2

end Sequences

/-! ### Which exceptions the heap calls can raise -/

section Exceptions

variable {T : Type}

theorem location_error (i : CCompleteTreeIndex) (e : Err)
    (h : i.GetCurrentLocationInArray = .error e) : e = .AssertionFailed := by
  unfold CCompleteTreeIndex.GetCurrentLocationInArray at h
  split at h
  · simp only [Except.error.injEq] at h; exact h.symm
  · exact absurd h (by simp)

theorem IsStillInTree_error (tree : List T) (it : CCompleteTreeIndex) (e : Err)
    (h : Iterator.IsStillInTree (some tree) it = .error e) : e = .AssertionFailed := by
  unfold Iterator.IsStillInTree at h
  cases hl : it.GetCurrentLocationInArray with
  | ok loc => rw [hl] at h; exact absurd h (by simp)
  | error e1 =>
    rw [hl] at h
    simp only [Except.error.injEq] at h
    rw [← h]; exact location_error it e1 hl

theorem GetValue_error (tree : List T) (it : CCompleteTreeIndex) (e : Err)
    (h : Iterator.GetValue (some tree) it = .error e) :
    e ≠ .CCannotAccessEmptyHeap := by
  unfold Iterator.GetValue at h
  cases hs : Iterator.IsStillInTree (some tree) it with
  | error e1 =>
    rw [hs] at h
    simp only [Except.error.injEq] at h
    rw [← h, IsStillInTree_error tree it e1 hs]; simp
  | ok b =>
    rw [hs] at h
    cases b with
    | false => simp only [Except.error.injEq] at h; rw [← h]; simp
    | true =>
      cases hl : it.GetCurrentLocationInArray with
      | error e1 =>
        rw [hl] at h
        simp only [Except.error.injEq] at h
        rw [← h, location_error it e1 hl]; simp
      | ok loc =>
        rw [hl] at h
        simp only at h
        cases hv : tree[loc]? with
        | none => rw [hv] at h; simp only [Except.error.injEq] at h; rw [← h]; simp
        | some v => rw [hv] at h; exact absurd h (by simp)

theorem SetValue_error (tree : List T) (it : CCompleteTreeIndex) (v : T) (e : Err)
    (h : Iterator.SetValue (some tree) it v = .error e) :
    e ≠ .CCannotAccessEmptyHeap := by
  unfold Iterator.SetValue at h
  cases hs : Iterator.IsStillInTree (some tree) it with
  | error e1 =>
    rw [hs] at h
    simp only [Except.error.injEq] at h
    rw [← h, IsStillInTree_error tree it e1 hs]; simp
  | ok b =>
    rw [hs] at h
    cases b with
    | false => simp only [Except.error.injEq] at h; rw [← h]; simp
    | true =>
      cases hl : it.GetCurrentLocationInArray with
      | error e1 =>
        rw [hl] at h
        simp only [Except.error.injEq] at h
        rw [← h, location_error it e1 hl]; simp
      | ok loc => rw [hl] at h; exact absurd h (by simp)

theorem eq_error (lhs this : CCompleteTreeIndex) (e : Err)
    (h : Iterator.eq true lhs this = .error e) : e ≠ .CCannotAccessEmptyHeap := by
  unfold Iterator.eq at h
  cases h1 : lhs.GetCurrentLocationInArray with
  | error e1 =>
    rw [h1] at h
    simp only [Except.error.injEq] at h
    rw [← h, location_error lhs e1 h1]; simp
  | ok a =>
    rw [h1] at h
    cases h2 : this.GetCurrentLocationInArray with
    | error e1 =>
      rw [h2] at h
      simp only [Except.error.injEq] at h
      rw [← h, location_error this e1 h2]; simp
    | ok b =>
      rw [h2] at h
      simp only at h
      split at h <;> exact absurd h (by simp)

theorem PickLargestIterator_error (comp : T → T → Bool) (tree : List T)
    (iter1 iter2 : CCompleteTreeIndex) (e : Err)
    (h : PickLargestIterator comp tree iter1 iter2 = .error e) :
    e ≠ .CCannotAccessEmptyHeap := by
  unfold PickLargestIterator at h
  simp only at h
  cases h1 : Iterator.IsStillInTree (some tree) iter1 with
  | error e1 =>
    rw [h1] at h
    simp only [Except.error.injEq] at h
    rw [← h, IsStillInTree_error tree iter1 e1 h1]; simp
  | ok b1 =>
    rw [h1] at h
    cases h2 : Iterator.IsStillInTree (some tree) iter2 with
    | error e2 =>
      rw [h2] at h
      cases b1 <;> simp only [Except.error.injEq] at h <;>
        (rw [← h, IsStillInTree_error tree iter2 e2 h2]; simp)
    | ok b2 =>
      rw [h2] at h
      cases b1 with
      | false => cases b2 <;> exact absurd h (by simp)
      | true =>
        cases b2 with
        | false => exact absurd h (by simp)
        | true =>
          simp only at h
          cases hv1 : Iterator.GetValue (some tree) iter1 with
          | error e1 =>
            rw [hv1] at h
            simp only [Except.error.injEq] at h
            rw [← h]; exact GetValue_error tree iter1 e1 hv1
          | ok v1 =>
            rw [hv1] at h
            cases hv2 : Iterator.GetValue (some tree) iter2 with
            | error e2 =>
              rw [hv2] at h
              simp only [Except.error.injEq] at h
              rw [← h]; exact GetValue_error tree iter2 e2 hv2
            | ok v2 =>
              rw [hv2] at h
              simp only at h
              split at h <;> exact absurd h (by simp)

theorem PickLargestIterator3_error (comp : T → T → Bool) (tree : List T)
    (iter1 iter2 iter3 : CCompleteTreeIndex) (e : Err)
    (h : PickLargestIterator3 comp tree iter1 iter2 iter3 = .error e) :
    e ≠ .CCannotAccessEmptyHeap := by
  unfold PickLargestIterator3 at h
  cases h1 : PickLargestIterator comp tree iter1 iter2 with
  | error e1 =>
    rw [h1] at h
    simp only [Except.error.injEq] at h
    rw [← h]; exact PickLargestIterator_error comp tree iter1 iter2 e1 h1
  | ok w =>
    rw [h1] at h
    exact PickLargestIterator_error comp tree w iter3 e h

theorem SwapNodeValues_threw (tree : List T) (iter1 iter2 : CCompleteTreeIndex) (e : Err)
    (tree1 : List T) (h : SwapNodeValues tree iter1 iter2 = .threw e tree1) :
    e ≠ .CCannotAccessEmptyHeap := by
  unfold SwapNodeValues at h
  cases h1 : Iterator.GetValue (some tree) iter1 with
  | error e1 =>
    simp only [h1, Outcome.threw.injEq] at h
    rw [← h.1]; exact GetValue_error tree iter1 e1 h1
  | ok temp =>
    cases h2 : Iterator.GetValue (some tree) iter2 with
    | error e2 =>
      simp only [h1, h2, Outcome.threw.injEq] at h
      rw [← h.1]; exact GetValue_error tree iter2 e2 h2
    | ok v2 =>
      cases h3 : Iterator.SetValue (some tree) iter1 v2 with
      | error e3 =>
        simp only [h1, h2, h3, Outcome.threw.injEq] at h
        rw [← h.1]; exact SetValue_error tree iter1 v2 e3 h3
      | ok t1 =>
        cases h4 : Iterator.SetValue (some t1) iter2 temp with
        | error e4 =>
          simp only [h1, h2, h3, h4, Outcome.threw.injEq] at h
          rw [← h.1]; exact SetValue_error t1 iter2 temp e4 h4
        | ok t2 =>
          simp only [h1, h2, h3, h4] at h
          exact absurd h (by simp)

theorem SiftDown_threw (comp : T → T → Bool) :
    ∀ (steps : Nat) (tree : List T) (it : CCompleteTreeIndex) (e : Err) (tree1 : List T),
      CHeap.SiftDown comp steps tree it = .threw e tree1 → e ≠ .CCannotAccessEmptyHeap := by
  intro steps
  induction steps with
  | zero => intro tree it e tree1 h; simp [CHeap.SiftDown] at h
  | succ s ih =>
    intro tree it e tree1 h
    rw [CHeap.SiftDown] at h
    cases h1 : PickLargestIterator3 comp tree it (Iterator.GoLeftChild it)
        (Iterator.GoRightChild it) with
    | error e1 =>
      simp only [h1, Outcome.threw.injEq] at h
      rw [← h.1]; exact PickLargestIterator3_error comp tree _ _ _ e1 h1
    | ok w =>
      cases h2 : Iterator.eq true it w with
      | error e2 =>
        simp only [h1, h2, Outcome.threw.injEq] at h
        rw [← h.1]; exact eq_error it w e2 h2
      | ok b =>
        cases b with
        | true =>
          simp only [h1, h2] at h
          exact absurd h (by simp)
        | false =>
          cases h3 : Iterator.IsStillInTree (some tree) w with
          | error e3 =>
            simp only [h1, h2, h3, Outcome.threw.injEq] at h
            rw [← h.1, IsStillInTree_error tree w e3 h3]; simp
          | ok b3 =>
            cases b3 with
            | false =>
              simp only [h1, h2, h3, Outcome.threw.injEq] at h
              rw [← h.1]; simp
            | true =>
              cases h4 : SwapNodeValues tree it w with
              | returned t1 =>
                simp only [h1, h2, h3, h4] at h
                exact ih t1 w e tree1 h
              | threw e4 t1 =>
                simp only [h1, h2, h3, h4, Outcome.threw.injEq] at h
                rw [← h.1]; exact SwapNodeValues_threw tree it w e4 t1 h4
              | unfinished t1 =>
                simp only [h1, h2, h3, h4] at h
                exact absurd h (by simp)

theorem PopTop_threw_of_nonempty (comp : T → T → Bool) (steps : Nat) (tree : List T)
    (hne : CHeap.GetSize tree ≠ 0) (e : Err) (tree1 : List T)
    (h : CHeap.PopTop comp steps tree = .threw e tree1) : e ≠ .CCannotAccessEmptyHeap := by
  unfold CHeap.PopTop at h
  have hne2 : ¬ CCompleteTree.GetSize tree = 0 := hne
  cases h1 : SwapNodeValues tree CCompleteTree.GetRootNode (CCompleteTree.GetLastNode tree) with
  | returned t1 =>
    cases h2 : CCompleteTree.EraseLastNode t1 with
    | error e2 =>
      simp only [hne2, if_false, h1, h2, Outcome.threw.injEq] at h
      unfold CCompleteTree.EraseLastNode at h2
      split at h2
      · exact absurd h2 (by simp)
      · simp only [Except.error.injEq] at h2
        rw [← h.1, ← h2]; simp
    | ok t2 =>
      simp only [hne2, if_false, h1, h2] at h
      exact SiftDown_threw comp steps t2 _ e tree1 h
  | threw e1 t1 =>
    simp only [hne2, if_false, h1, Outcome.threw.injEq] at h
    rw [← h.1]; exact SwapNodeValues_threw tree _ _ e1 t1 h1
  | unfinished t1 =>
    simp only [hne2, if_false, h1] at h
    exact absurd h (by simp)

end Exceptions

/-! ## The claims -/

section Claims

variable {T : Type}

/-- C1: under a strict weak ordering, after any sequence of `Insert` and
successful `PopTop` calls applied to the empty heap, every call has returned
and, when the heap is non-empty, `PeekTop` returns a stored element `t` with
`LessThan(t, x)` false for every stored `x`.  The bound on the number of calls
keeps the size within the range in which the 32-bit tree index does not wrap
around; `steps` is the budget of the recursion. -/
theorem PeekTop_not_less_than_any (lt : T → T → Bool) (hlt : StrictWeakOrder lt)
    (steps : Nat) (ops : List (Op T)) (hops : popsSucceed ops 0 = true)
    (hcap : ops.length < 2147483648) (hsteps : ops.length < steps) :
    ∃ tree, runOps lt steps ops [] = .returned tree ∧
      (tree ≠ [] →
        ∃ t, CHeap.PeekTop tree = .ok t ∧ t ∈ tree ∧ ∀ x ∈ tree, lt t x = false) := by
  obtain ⟨tree, h1, h2⟩ := runOps_spec lt hlt steps ops [] (isHeap_nil lt) hops
    (by simpa using hcap) (by simpa using hsteps)
  refine ⟨tree, h1, fun hne => ?_⟩
  obtain ⟨top, htop⟩ := getElem?_zero_of_ne_nil tree hne
  exact ⟨top, PeekTop_some tree top htop, List.getElem?_mem htop,
    root_not_less_mem lt hlt tree h2 top htop⟩

theorem PeekTop_not_less_than_any_witness :
    popsSucceed [Op.insert (5 : Int), Op.insert 13, Op.insert 17, Op.popTop, Op.insert 15,
        Op.insert 3, Op.insert 17, Op.popTop] 0 = true ∧
      ∃ tree, runOps CStdLessSortOrder.LessThan 9
          [Op.insert (5 : Int), Op.insert 13, Op.insert 17, Op.popTop, Op.insert 15,
            Op.insert 3, Op.insert 17, Op.popTop] [] = .returned tree ∧
        (tree ≠ [] →
          ∃ t, CHeap.PeekTop tree = .ok t ∧ t ∈ tree ∧
            ∀ x ∈ tree, CStdLessSortOrder.LessThan t x = false) :=
  ⟨by decide, PeekTop_not_less_than_any CStdLessSortOrder.LessThan
    CStdLessSortOrder_strictWeakOrder 9 _ (by decide) (by decide) (by decide)⟩

/-- C2: under a strict weak ordering, `Insert(v)` on an array with the heap
property returns and leaves an array with the heap property.  The size bound is
the range in which the 32-bit tree index does not wrap around; `steps` is the
budget of the recursion, any value above the size is enough. -/
theorem Insert_keeps_heap_property (lt : T → T → Bool) (hlt : StrictWeakOrder lt)
    (steps : Nat) (tree : List T) (v : T) (hheap : IsHeap lt tree)
    (hcap : tree.length < 2147483648) (hsteps : tree.length < steps) :
    ∃ tree1, CHeap.Insert lt steps tree v = .returned tree1 ∧ IsHeap lt tree1 := by
  obtain ⟨tree1, h1, _, h3⟩ := Insert_spec lt steps tree v (by omega) hsteps
  exact ⟨tree1, h1, h3 hlt hheap⟩

theorem Insert_keeps_heap_property_witness :
    IsHeap CStdLessSortOrder.LessThan [17, 15, 13, 5] ∧
      ∃ tree1, CHeap.Insert CStdLessSortOrder.LessThan 5 [17, 15, 13, 5] 16 = .returned tree1 ∧
        IsHeap CStdLessSortOrder.LessThan tree1 :=
  ⟨by decide, Insert_keeps_heap_property CStdLessSortOrder.LessThan
    CStdLessSortOrder_strictWeakOrder 5 [17, 15, 13, 5] 16 (by decide) (by decide) (by decide)⟩

/-- C3: under a strict weak ordering, `PopTop` on a non-empty array with the
heap property returns and leaves an array with the heap property.  The size
bound is the range in which the 32-bit tree index does not wrap around; `steps`
is the budget of the recursion, any value above the size is enough. -/
theorem PopTop_keeps_heap_property (lt : T → T → Bool) (hlt : StrictWeakOrder lt)
    (steps : Nat) (tree : List T) (hne : tree ≠ []) (hheap : IsHeap lt tree)
    (hcap : tree.length < 2147483648) (hsteps : tree.length < steps) :
    ∃ tree1, CHeap.PopTop lt steps tree = .returned tree1 ∧ IsHeap lt tree1 := by
  obtain ⟨top, htop⟩ := getElem?_zero_of_ne_nil tree hne
  obtain ⟨tree1, h1, _, h3⟩ := PopTop_spec lt steps tree top htop (by omega) (by omega)
  exact ⟨tree1, h1, h3 hlt hheap⟩

theorem PopTop_keeps_heap_property_witness :
    [17, 15, 17, 5, 3, 13] ≠ [] ∧ IsHeap CStdLessSortOrder.LessThan [17, 15, 17, 5, 3, 13] ∧
      ∃ tree1, CHeap.PopTop CStdLessSortOrder.LessThan 7 [17, 15, 17, 5, 3, 13] =
        .returned tree1 ∧ IsHeap CStdLessSortOrder.LessThan tree1 :=
  ⟨by decide, by decide, PopTop_keeps_heap_property CStdLessSortOrder.LessThan
    CStdLessSortOrder_strictWeakOrder 7 [17, 15, 17, 5, 3, 13] (by decide) (by decide)
    (by decide) (by decide)⟩

/-- C4: for any comparator, `Insert(v)` returns with the multiset of stored
values grown by exactly one `v`, and `PopTop` on a non-empty heap returns with
the multiset shrunk by exactly one occurrence of the value `PeekTop` returned
just before.  The size bound is the range in which the 32-bit tree index does
not wrap around; `steps` is the budget of the recursion. -/
theorem Insert_PopTop_multiset (comp : T → T → Bool) (steps : Nat) (tree : List T) (v : T)
    (hcap : tree.length < 2147483648) (hsteps : tree.length < steps) :
    (∃ tree1, CHeap.Insert comp steps tree v = .returned tree1 ∧
        (tree1 : Multiset T) = v ::ₘ (tree : Multiset T)) ∧
      (∀ top, CHeap.PeekTop tree = .ok top →
        ∃ tree2, CHeap.PopTop comp steps tree = .returned tree2 ∧
          (tree : Multiset T) = top ::ₘ (tree2 : Multiset T)) := by
  constructor
  · obtain ⟨tree1, h1, h2, _⟩ := Insert_spec comp steps tree v (by omega) hsteps
    exact ⟨tree1, h1, by rw [Multiset.cons_coe, Multiset.coe_eq_coe]; exact h2⟩
  · intro top hpeek
    have htop : tree[0]? = some top := by
      cases tree with
      | nil => rw [PeekTop_nil] at hpeek; exact absurd hpeek (by simp)
      | cons a l =>
        rw [PeekTop_some (a :: l) a (by simp)] at hpeek
        simp only [Except.ok.injEq] at hpeek
        simp [hpeek]
    obtain ⟨tree2, h1, h2, _⟩ := PopTop_spec comp steps tree top htop (by omega) (by omega)
    exact ⟨tree2, h1, by rw [Multiset.cons_coe, Multiset.coe_eq_coe]; exact h2⟩

theorem Insert_PopTop_multiset_witness :
    (∃ tree1, CHeap.Insert CStdLessSortOrder.LessThan 4 [9, 2, 9] 7 = .returned tree1 ∧
        (tree1 : Multiset Int) = 7 ::ₘ (([9, 2, 9] : List Int) : Multiset Int)) ∧
      (∀ top, CHeap.PeekTop ([9, 2, 9] : List Int) = .ok top →
        ∃ tree2, CHeap.PopTop CStdLessSortOrder.LessThan 4 [9, 2, 9] = .returned tree2 ∧
          (([9, 2, 9] : List Int) : Multiset Int) = top ::ₘ (tree2 : Multiset Int)) :=
  Insert_PopTop_multiset CStdLessSortOrder.LessThan 4 [9, 2, 9] 7 (by decide) (by decide)

/-- C5: `Insert` returns with `GetSize` one larger, and `PopTop` on a non-empty
heap returns with `GetSize` one smaller.  The size bound is the range in which
the 32-bit tree index does not wrap around; `steps` is the budget of the
recursion. -/
theorem GetSize_after_Insert_PopTop (comp : T → T → Bool) (steps : Nat) (tree : List T)
    (v : T) (hcap : tree.length < 2147483648) (hsteps : tree.length < steps) :
    (∃ tree1, CHeap.Insert comp steps tree v = .returned tree1 ∧
        CHeap.GetSize tree1 = CHeap.GetSize tree + 1) ∧
      (CHeap.GetSize tree ≠ 0 →
        ∃ tree2, CHeap.PopTop comp steps tree = .returned tree2 ∧
          CHeap.GetSize tree2 = CHeap.GetSize tree - 1) := by
  constructor
  · obtain ⟨tree1, h1, h2, _⟩ := Insert_spec comp steps tree v (by omega) hsteps
    refine ⟨tree1, h1, ?_⟩
    have := h2.length_eq
    simpa [CHeap.GetSize, CCompleteTree.GetSize] using this
  · intro hne
    have hne2 : tree ≠ [] := by
      intro h; rw [h] at hne; exact hne rfl
    obtain ⟨top, htop⟩ := getElem?_zero_of_ne_nil tree hne2
    obtain ⟨tree2, h1, h2, _⟩ := PopTop_spec comp steps tree top htop (by omega) (by omega)
    refine ⟨tree2, h1, ?_⟩
    have := h2.length_eq
    simp only [List.length_cons] at this
    simp only [CHeap.GetSize, CCompleteTree.GetSize]
    omega

theorem GetSize_after_Insert_PopTop_witness :
    (∃ tree1, CHeap.Insert CStdGreaterSortOrder.LessThan 3 [4, 8] 6 = .returned tree1 ∧
        CHeap.GetSize tree1 = CHeap.GetSize ([4, 8] : List Int) + 1) ∧
      (CHeap.GetSize ([4, 8] : List Int) ≠ 0 →
        ∃ tree2, CHeap.PopTop CStdGreaterSortOrder.LessThan 3 [4, 8] = .returned tree2 ∧
          CHeap.GetSize tree2 = CHeap.GetSize ([4, 8] : List Int) - 1) :=
  GetSize_after_Insert_PopTop CStdGreaterSortOrder.LessThan 3 [4, 8] 6 (by decide) (by decide)

/-- C6: `PeekTop` and `PopTop` raise `CCannotAccessEmptyHeap` exactly when the
size is 0; a `PopTop` that raises it leaves the vector as it was (`PeekTop` is a
`const` method and has no vector to change); on a non-empty heap `PeekTop`
returns the value at array offset 0.  This holds for every size, comparator and
recursion budget. -/
theorem CCannotAccessEmptyHeap_iff_empty (comp : T → T → Bool) (steps : Nat)
    (tree : List T) :
    (CHeap.PeekTop tree = .error .CCannotAccessEmptyHeap ↔ CHeap.GetSize tree = 0) ∧
      ((∃ tree1, CHeap.PopTop comp steps tree = .threw .CCannotAccessEmptyHeap tree1) ↔
        CHeap.GetSize tree = 0) ∧
      (∀ tree1, CHeap.PopTop comp steps tree = .threw .CCannotAccessEmptyHeap tree1 →
        tree1 = tree) ∧
      (CHeap.GetSize tree ≠ 0 → ∃ v, tree[0]? = some v ∧ CHeap.PeekTop tree = .ok v) := by
  have hpeek : CHeap.GetSize tree ≠ 0 → ∃ v, tree[0]? = some v ∧ CHeap.PeekTop tree = .ok v := by
    intro hne
    have hne2 : tree ≠ [] := by
      intro h; rw [h] at hne; exact hne rfl
    obtain ⟨top, htop⟩ := getElem?_zero_of_ne_nil tree hne2
    exact ⟨top, htop, PeekTop_some tree top htop⟩
  have hpop0 : CHeap.GetSize tree = 0 →
      CHeap.PopTop comp steps tree = .threw .CCannotAccessEmptyHeap tree := by
    intro h0
    have h1 : CCompleteTree.GetSize tree = 0 := h0
    simp only [CHeap.PopTop, h1, if_true]
  refine ⟨⟨?_, ?_⟩, ⟨?_, ?_⟩, ?_, hpeek⟩
  · intro h
    by_cases h0 : CHeap.GetSize tree = 0
    · exact h0
    · obtain ⟨v, _, hv⟩ := hpeek h0
      rw [hv] at h
      exact absurd h (by simp)
  · intro h0
    have h1 : CCompleteTree.GetSize tree = 0 := h0
    simp only [CHeap.PeekTop, h1, if_true]
  · intro ⟨tree1, h⟩
    by_cases h0 : CHeap.GetSize tree = 0
    · exact h0
    · exact absurd rfl (PopTop_threw_of_nonempty comp steps tree h0 _ tree1 h)
  · intro h0
    exact ⟨tree, hpop0 h0⟩
  · intro tree1 h
    by_cases h0 : CHeap.GetSize tree = 0
    · rw [hpop0 h0] at h
      simp only [Outcome.threw.injEq, true_and] at h
      exact h.symm
    · exact absurd rfl (PopTop_threw_of_nonempty comp steps tree h0 _ tree1 h)

/-- C7: under a strict weak ordering, draining a heap of `n` elements by `n`
rounds of `PeekTop` and `PopTop` returns a sequence that is a permutation of
the stored values and in which no element is less than a later one.  The size
bound is the range in which the 32-bit tree index does not wrap around; `steps`
is the budget of the recursion. -/
theorem drain_sorted_permutation (lt : T → T → Bool) (hlt : StrictWeakOrder lt)
    (steps : Nat) (tree : List T) (hheap : IsHeap lt tree)
    (hcap : tree.length < 2147483648) (hsteps : tree.length < steps) :
    ∃ xs, drain lt steps tree.length tree = some xs ∧ xs.Perm tree ∧
      xs.Pairwise (fun a b => lt a b = false) := by
  obtain ⟨xs, h1, h2, h3⟩ := drain_spec lt hlt steps tree.length tree rfl hheap hcap hsteps
  exact ⟨xs, h1, h2, h3⟩

theorem drain_sorted_permutation_witness :
    runOps CStdLessSortOrder.LessThan 7
        [Op.insert 5, Op.insert 13, Op.insert 17, Op.insert 15, Op.insert 3, Op.insert 17] [] =
        .returned [17, 15, 17, 5, 3, 13] ∧
      drain CStdLessSortOrder.LessThan 7 6 [17, 15, 17, 5, 3, 13] =
        some [17, 17, 15, 13, 5, 3] ∧
      IsHeap CStdLessSortOrder.LessThan [17, 15, 17, 5, 3, 13] ∧
      ∃ xs, drain CStdLessSortOrder.LessThan 7 ([17, 15, 17, 5, 3, 13] : List Int).length
          [17, 15, 17, 5, 3, 13] = some xs ∧ xs.Perm [17, 15, 17, 5, 3, 13] ∧
        xs.Pairwise (fun a b => CStdLessSortOrder.LessThan a b = false) :=
  ⟨by decide, by decide, by decide, drain_sorted_permutation CStdLessSortOrder.LessThan
    CStdLessSortOrder_strictWeakOrder 7 [17, 15, 17, 5, 3, 13] (by decide) (by decide)
    (by decide)⟩

/-- C8: for a heap of ints built from the empty heap by any sequence of
`Insert` and successful `PopTop` calls, every call returns and, when the heap
is non-empty, `PeekTop` is the maximum of the stored ints under
`CStdLessSortOrder<int>` and their minimum under `CStdGreaterSortOrder<int>`.
The bound on the number of calls keeps the size within the range in which the
32-bit tree index does not wrap around; `steps` is the budget of the recursion. -/
theorem PeekTop_is_maximum_or_minimum (steps : Nat) (ops : List (Op Int))
    (hops : popsSucceed ops 0 = true)
    (hcap : ops.length < 2147483648) (hsteps : ops.length < steps) :
    (∃ tree, runOps CStdLessSortOrder.LessThan steps ops [] = .returned tree ∧
        (tree ≠ [] → ∃ t : Int, CHeap.PeekTop tree = .ok t ∧ tree.maximum = (t : WithBot Int))) ∧
      (∃ tree, runOps CStdGreaterSortOrder.LessThan steps ops [] = .returned tree ∧
        (tree ≠ [] → ∃ t : Int, CHeap.PeekTop tree = .ok t ∧ tree.minimum = (t : WithTop Int))) := by
  constructor
  · obtain ⟨tree, h1, h2⟩ := runOps_spec CStdLessSortOrder.LessThan
      CStdLessSortOrder_strictWeakOrder steps ops [] (isHeap_nil _) hops
      (by simpa using hcap) (by simpa using hsteps)
    refine ⟨tree, h1, fun hne => ?_⟩
    obtain ⟨t, ht1, ht2, ht3⟩ := PeekTop_of_isHeap _ CStdLessSortOrder_strictWeakOrder tree h2 hne
    refine ⟨t, ht1, ?_⟩
    rw [List.maximum_eq_coe_iff]
    refine ⟨ht2, fun a ha => ?_⟩
    have := ht3 a ha
    simp only [CStdLessSortOrder.LessThan, decide_eq_false_iff_not] at this
    omega
  · obtain ⟨tree, h1, h2⟩ := runOps_spec CStdGreaterSortOrder.LessThan
      CStdGreaterSortOrder_strictWeakOrder steps ops [] (isHeap_nil _) hops
      (by simpa using hcap) (by simpa using hsteps)
    refine ⟨tree, h1, fun hne => ?_⟩
    obtain ⟨t, ht1, ht2, ht3⟩ :=
      PeekTop_of_isHeap _ CStdGreaterSortOrder_strictWeakOrder tree h2 hne
    refine ⟨t, ht1, ?_⟩
    rw [List.minimum_eq_coe_iff]
    refine ⟨ht2, fun a ha => ?_⟩
    have := ht3 a ha
    simp only [CStdGreaterSortOrder.LessThan, decide_eq_false_iff_not] at this
    omega

theorem PeekTop_is_maximum_or_minimum_witness :
    popsSucceed [Op.insert (50 : Int), Op.insert 45, Op.insert 55, Op.popTop, Op.insert 12,
        Op.insert 10] 0 = true ∧
      ((∃ tree, runOps CStdLessSortOrder.LessThan 7
          [Op.insert (50 : Int), Op.insert 45, Op.insert 55, Op.popTop, Op.insert 12,
            Op.insert 10] [] = .returned tree ∧
        (tree ≠ [] →
          ∃ t : Int, CHeap.PeekTop tree = .ok t ∧ tree.maximum = (t : WithBot Int))) ∧
      (∃ tree, runOps CStdGreaterSortOrder.LessThan 7
          [Op.insert (50 : Int), Op.insert 45, Op.insert 55, Op.popTop, Op.insert 12,
            Op.insert 10] [] = .returned tree ∧
        (tree ≠ [] →
          ∃ t : Int, CHeap.PeekTop tree = .ok t ∧ tree.minimum = (t : WithTop Int)))) :=
  ⟨by decide, PeekTop_is_maximum_or_minimum 7 _ (by decide) (by decide) (by decide)⟩

/-- C9: when no stored element `x` has `LessThan(t, x)`, `Insert(t)` returns and
`PeekTop` right after it returns `t`; no assumption on the comparator.  The size
bound is the range in which the 32-bit tree index does not wrap around; `steps`
is the budget of the recursion. -/
theorem Insert_largest_goes_to_top (comp : T → T → Bool) (steps : Nat) (tree : List T) (t : T)
    (hmax : ∀ x ∈ tree, comp t x = false)
    (hcap : tree.length < 2147483648) (hsteps : tree.length < steps) :
    ∃ tree1, CHeap.Insert comp steps tree t = .returned tree1 ∧
      CHeap.PeekTop tree1 = .ok t := by
  rw [Insert_eq comp steps tree t (by omega)]
  obtain ⟨tree1, h1, h2⟩ := BubbleUp_rule comp
    (fun l i => l[i]? = some t ∧ ∀ j x, j ≠ i → l[j]? = some x → comp t x = false)
    (fun l => l[0]? = some t)
    (fun l hP => hP.1)
    (by
      intro l i c p hi hP hc hp hcp
      have hct : c = t := by
        rw [hP.1] at hc; simpa using hc.symm
      have := hP.2 (parentOffset i) p (by have := parentOffset_lt hi; omega) hp
      rw [hct, this] at hcp
      exact absurd hcp (by simp))
    (by
      intro l i c p hi hP hc hp _
      have hct : c = t := by
        rw [hP.1] at hc; simpa using hc.symm
      have hil : i < l.length := (List.getElem?_eq_some.mp hc).1
      have hpl : parentOffset i < l.length := (List.getElem?_eq_some.mp hp).1
      have hpi := parentOffset_lt hi
      have hne : ¬ parentOffset i = i := by omega
      constructor
      · rw [swap_getElem?]
        simp only [hne, if_false, if_true, hpl, hct]
      · intro j x hj hx
        rw [swap_getElem?] at hx
        by_cases hji : j = i
        · rw [hji] at hx
          simp only [if_true, hil, Option.some.injEq] at hx
          rw [← hx]
          exact hP.2 (parentOffset i) p hne hp
        · simp only [hji, hj, if_false] at hx
          exact hP.2 j x hji hx)
    steps (tree ++ [t]) tree.length (by simp) hsteps
    (by
      constructor
      · exact List.getElem?_concat_length tree t
      · intro j x hj hx
        have hjl : j < (tree ++ [t]).length := (List.getElem?_eq_some.mp hx).1
        simp only [List.length_append, List.length_singleton] at hjl
        have hjl2 : j < tree.length := by omega
        rw [List.getElem?_append_left hjl2] at hx
        exact hmax x (List.getElem?_mem hx))
  exact ⟨tree1, h1, PeekTop_some tree1 t h2⟩

theorem Insert_largest_goes_to_top_witness :
    (∀ x ∈ ([7, 3, 7] : List Int), CStdLessSortOrder.LessThan 7 x = false) ∧
      ∃ tree1, CHeap.Insert CStdLessSortOrder.LessThan 4 [7, 3, 7] 7 = .returned tree1 ∧
        CHeap.PeekTop tree1 = .ok 7 :=
  ⟨by decide, Insert_largest_goes_to_top CStdLessSortOrder.LessThan 4 [7, 3, 7] 7 (by decide)
    (by decide) (by decide)⟩

/-- C10: `CCompositeSortOrder::LessThan` is the lexicographic order of the
list of criteria: it is true exactly when some criterion has `LessThan(a, b)`
and every earlier criterion ties on `a`, `b` (so the first criterion that tells
`a` and `b` apart decides); it agrees with the reference `lexicographicLess`,
and it is false for the empty list and when every criterion ties. -/
theorem CCompositeSortOrder_is_lexicographic (criteria : List (T → T → Bool)) (a b : T) :
    CCompositeSortOrder.LessThan criteria a b = lexicographicLess criteria a b ∧
      (CCompositeSortOrder.LessThan criteria a b = true ↔
        ∃ (i : Nat) (c : T → T → Bool), criteria[i]? = some c ∧ c a b = true ∧
          ∀ (j : Nat) (d : T → T → Bool), j < i → criteria[j]? = some d →
            d a b = false ∧ d b a = false) ∧
      CCompositeSortOrder.LessThan ([] : List (T → T → Bool)) a b = false ∧
      ((∀ c ∈ criteria, c a b = false ∧ c b a = false) →
        CCompositeSortOrder.LessThan criteria a b = false) := by
  refine ⟨?_, ?_, rfl, ?_⟩
  · induction criteria with
    | nil => rfl
    | cons c rest ih =>
      unfold lexicographicLess at ih ⊢
      simp only [CCompositeSortOrder.LessThan, List.find?_cons]
      cases hab : c a b with
      | true => simp [hab]
      | false =>
        cases hba : c b a with
        | true => simp [hab]
        | false => simpa [hab, hba] using ih
  · induction criteria with
    | nil => simp [CCompositeSortOrder.LessThan]
    | cons c rest ih =>
      simp only [CCompositeSortOrder.LessThan]
      cases hab : c a b with
      | true =>
        simp only [if_true, true_iff]
        exact ⟨0, c, by simp, hab, fun j d hj => absurd hj (by omega)⟩
      | false =>
        cases hba : c b a with
        | true =>
          simp only [Bool.false_eq_true, if_false, if_true, false_iff]
          intro ⟨i, d, hd, hdab, hprev⟩
          cases i with
          | zero =>
            simp only [List.getElem?_cons_zero, Option.some.injEq] at hd
            rw [← hd, hab] at hdab
            exact absurd hdab (by simp)
          | succ i =>
            have := (hprev 0 c (by omega) (by simp)).2
            rw [hba] at this
            exact absurd this (by simp)
        | false =>
          simp only [Bool.false_eq_true, if_false]
          rw [ih]
          constructor
          · intro ⟨i, d, hd, hdab, hprev⟩
            refine ⟨i + 1, d, by simpa using hd, hdab, ?_⟩
            intro j e hj he
            cases j with
            | zero =>
              simp only [List.getElem?_cons_zero, Option.some.injEq] at he
              rw [← he]; exact ⟨hab, hba⟩
            | succ j =>
              exact hprev j e (by omega) (by simpa using he)
          · intro ⟨i, d, hd, hdab, hprev⟩
            cases i with
            | zero =>
              simp only [List.getElem?_cons_zero, Option.some.injEq] at hd
              rw [← hd, hab] at hdab
              exact absurd hdab (by simp)
            | succ i =>
              refine ⟨i, d, by simpa using hd, hdab, ?_⟩
              intro j e hj he
              exact hprev (j + 1) e (by omega) (by simpa using he)
  · intro hties
    induction criteria with
    | nil => rfl
    | cons c rest ih =>
      have hc := hties c (List.mem_cons_self c rest)
      simp only [CCompositeSortOrder.LessThan, hc.1, hc.2, Bool.false_eq_true, if_false]
      exact ih (fun d hd => hties d (List.mem_cons_of_mem c hd))

end Claims

/-! ## The claims, continued -/

section ClaimsIndex

variable {T : Type}

/-- C11: for the composite of `[c1, c2, c3]`, the composite ties on `(a, b)`
(both `LessThan(a, b)` and `LessThan(b, a)` false) exactly when each of `c1`,
`c2`, `c3` ties on `(a, b)`; otherwise its verdicts on `(a, b)` and `(b, a)` are
those of the first of `c1`, `c2`, `c3` that does not tie. -/
theorem composite_of_three_ties_iff (c1 c2 c3 : T → T → Bool) (a b : T) :
    ((CCompositeSortOrder.LessThan [c1, c2, c3] a b = false ∧
        CCompositeSortOrder.LessThan [c1, c2, c3] b a = false) ↔
      ((c1 a b = false ∧ c1 b a = false) ∧ (c2 a b = false ∧ c2 b a = false) ∧
        (c3 a b = false ∧ c3 b a = false))) ∧
    (¬ (c1 a b = false ∧ c1 b a = false) →
      CCompositeSortOrder.LessThan [c1, c2, c3] a b = c1 a b ∧
        CCompositeSortOrder.LessThan [c1, c2, c3] b a = c1 b a) ∧
    ((c1 a b = false ∧ c1 b a = false) → ¬ (c2 a b = false ∧ c2 b a = false) →
      CCompositeSortOrder.LessThan [c1, c2, c3] a b = c2 a b ∧
        CCompositeSortOrder.LessThan [c1, c2, c3] b a = c2 b a) ∧
    ((c1 a b = false ∧ c1 b a = false) → (c2 a b = false ∧ c2 b a = false) →
      ¬ (c3 a b = false ∧ c3 b a = false) →
      CCompositeSortOrder.LessThan [c1, c2, c3] a b = c3 a b ∧
        CCompositeSortOrder.LessThan [c1, c2, c3] b a = c3 b a) := by
  simp only [CCompositeSortOrder.LessThan]
  cases h1 : c1 a b <;> cases h2 : c1 b a <;> cases h3 : c2 a b <;> cases h4 : c2 b a <;>
    cases h5 : c3 a b <;> cases h6 : c3 b a <;> simp

/-- C17: for an array offset `i` with `2*(i+1)+1 < 2^32`, the index constructed
at `i` reports offset `2*(i+1)-1` after `MoveToLeft`, `2*(i+1)` after
`MoveToRight` and, when `i >= 1`, `(i+1)/2 - 1` after `MoveToParent`. -/
theorem index_moves_without_wrap (i : Nat) (h : 2 * (i + 1) + 1 < 4294967296) :
    (CCompleteTreeIndex.ofArrayIndex i).MoveToLeft.GetCurrentLocationInArray =
        .ok (2 * (i + 1) - 1) ∧
      (CCompleteTreeIndex.ofArrayIndex i).MoveToRight.GetCurrentLocationInArray =
        .ok (2 * (i + 1)) ∧
      (1 ≤ i → (CCompleteTreeIndex.ofArrayIndex i).MoveToParent.GetCurrentLocationInArray =
        .ok ((i + 1) / 2 - 1)) := by
  have h1 : i % 4294967296 = i := by omega
  have h2 : (i + 1) % 4294967296 = i + 1 := by omega
  have h3 : (i + 1) * 2 % 4294967296 = (i + 1) * 2 := by omega
  have h4 : ((i + 1) * 2 + 1) % 4294967296 = (i + 1) * 2 + 1 := by omega
  have h5 : ¬ (i + 1) * 2 = 0 := by omega
  refine ⟨?_, ?_, ?_⟩
  · simp only [CCompleteTreeIndex.ofArrayIndex, CCompleteTreeIndex.MoveToLeft,
      CCompleteTreeIndex.GetCurrentLocationInArray, uint32, h1, h2, h3, h5, if_false]
    congr 1
    omega
  · simp only [CCompleteTreeIndex.ofArrayIndex, CCompleteTreeIndex.MoveToRight,
      CCompleteTreeIndex.GetCurrentLocationInArray, uint32, h1, h2, h3, h4,
      Nat.add_one_ne_zero, if_false]
    congr 1
    omega
  · intro hi
    have h6 : ¬ (i + 1) / 2 = 0 := by omega
    simp only [CCompleteTreeIndex.ofArrayIndex, CCompleteTreeIndex.MoveToParent,
      CCompleteTreeIndex.GetCurrentLocationInArray, uint32, h1, h2, h6, if_false]

theorem index_moves_without_wrap_witness :
    (CCompleteTreeIndex.ofArrayIndex 0).MoveToLeft.MoveToLeft.MoveToLeft.GetCurrentLocationInArray
        = .ok 7 ∧
      (CCompleteTreeIndex.ofArrayIndex 0).MoveToLeft.MoveToLeft.MoveToLeft.MoveToParent.GetCurrentLocationInArray
        = .ok 3 ∧
      (CCompleteTreeIndex.ofArrayIndex 0).MoveToLeft.MoveToLeft.MoveToLeft.MoveToParent.MoveToRight.GetCurrentLocationInArray
        = .ok 8 ∧
      2 * (3 + 1) + 1 < 4294967296 ∧
      ((CCompleteTreeIndex.ofArrayIndex 3).MoveToLeft.GetCurrentLocationInArray =
          .ok (2 * (3 + 1) - 1) ∧
        (CCompleteTreeIndex.ofArrayIndex 3).MoveToRight.GetCurrentLocationInArray =
          .ok (2 * (3 + 1)) ∧
        (1 ≤ 3 → (CCompleteTreeIndex.ofArrayIndex 3).MoveToParent.GetCurrentLocationInArray =
          .ok ((3 + 1) / 2 - 1))) :=
  ⟨rfl, rfl, rfl, by norm_num, index_moves_without_wrap 3 (by norm_num)⟩

/-- C18: for a cursor at offset `i` with `2*(i+1)+1 < 2^32`, `GoLeftChild`
followed by `GoUp`, and `GoRightChild` followed by `GoUp`, give back the cursor
at offset `i`, which therefore reads the same node as before. -/
theorem GoUp_undoes_child_move (i : Nat) (h : 2 * (i + 1) + 1 < 4294967296) :
    Iterator.GoUp (Iterator.GoLeftChild (CCompleteTreeIndex.ofArrayIndex i)) =
        CCompleteTreeIndex.ofArrayIndex i ∧
      Iterator.GoUp (Iterator.GoRightChild (CCompleteTreeIndex.ofArrayIndex i)) =
        CCompleteTreeIndex.ofArrayIndex i ∧
      (CCompleteTreeIndex.ofArrayIndex i).GetCurrentLocationInArray = .ok i ∧
      (∀ parentTree : Option (List T),
        Iterator.GetValue parentTree
            (Iterator.GoUp (Iterator.GoLeftChild (CCompleteTreeIndex.ofArrayIndex i))) =
          Iterator.GetValue parentTree (CCompleteTreeIndex.ofArrayIndex i) ∧
        Iterator.GetValue parentTree
            (Iterator.GoUp (Iterator.GoRightChild (CCompleteTreeIndex.ofArrayIndex i))) =
          Iterator.GetValue parentTree (CCompleteTreeIndex.ofArrayIndex i)) := by
  have h1 : i % 4294967296 = i := by omega
  have h2 : (i + 1) % 4294967296 = i + 1 := by omega
  have h3 : (i + 1) * 2 % 4294967296 = (i + 1) * 2 := by omega
  have h4 : ((i + 1) * 2 + 1) % 4294967296 = (i + 1) * 2 + 1 := by omega
  have h5 : (i + 1) * 2 / 2 = i + 1 := by omega
  have h6 : ((i + 1) * 2 + 1) / 2 = i + 1 := by omega
  have hL : Iterator.GoUp (Iterator.GoLeftChild (CCompleteTreeIndex.ofArrayIndex i)) =
      CCompleteTreeIndex.ofArrayIndex i := by
    simp only [Iterator.GoUp, Iterator.GoLeftChild, CCompleteTreeIndex.ofArrayIndex,
      CCompleteTreeIndex.MoveToLeft, CCompleteTreeIndex.MoveToParent, uint32, h1, h2, h3, h5]
  have hR : Iterator.GoUp (Iterator.GoRightChild (CCompleteTreeIndex.ofArrayIndex i)) =
      CCompleteTreeIndex.ofArrayIndex i := by
    simp only [Iterator.GoUp, Iterator.GoRightChild, CCompleteTreeIndex.ofArrayIndex,
      CCompleteTreeIndex.MoveToRight, CCompleteTreeIndex.MoveToParent, uint32, h1, h2, h3, h4,
      h6]
  refine ⟨hL, hR, ?_, fun parentTree => ?_⟩
  · simp only [CCompleteTreeIndex.ofArrayIndex, CCompleteTreeIndex.GetCurrentLocationInArray,
      uint32, h1, h2, Nat.add_one_ne_zero, if_false, Nat.add_sub_cancel]
  · rw [hL, hR]
    exact ⟨rfl, rfl⟩

end ClaimsIndex

section ClaimsTree

variable {T : Type}

theorem GoUp_undoes_child_move_witness :
    Iterator.GetValue
        (some (CCompleteTree.Append (CCompleteTree.Append (CCompleteTree.Append
          (CCompleteTree.Append ([] : List Int) 1) 2) 3) 4))
        (Iterator.GoLeftChild (Iterator.GoLeftChild CCompleteTree.GetRootNode)) = .ok 4 ∧
      Iterator.GetValue
        (some (CCompleteTree.Append (CCompleteTree.Append (CCompleteTree.Append
          (CCompleteTree.Append ([] : List Int) 1) 2) 3) 4))
        (Iterator.GoUp (Iterator.GoLeftChild (Iterator.GoLeftChild CCompleteTree.GetRootNode)))
        = .ok 2 ∧
      Iterator.GetValue
        (some (CCompleteTree.Append (CCompleteTree.Append (CCompleteTree.Append
          (CCompleteTree.Append ([] : List Int) 1) 2) 3) 4))
        (Iterator.GoUp (Iterator.GoUp
          (Iterator.GoLeftChild (Iterator.GoLeftChild CCompleteTree.GetRootNode)))) = .ok 1 ∧
      2 * (1 + 1) + 1 < 4294967296 ∧
      (Iterator.GoUp (Iterator.GoLeftChild (CCompleteTreeIndex.ofArrayIndex 1)) =
          CCompleteTreeIndex.ofArrayIndex 1 ∧
        Iterator.GoUp (Iterator.GoRightChild (CCompleteTreeIndex.ofArrayIndex 1)) =
          CCompleteTreeIndex.ofArrayIndex 1 ∧
        (CCompleteTreeIndex.ofArrayIndex 1).GetCurrentLocationInArray = .ok 1 ∧
        (∀ parentTree : Option (List Int),
          Iterator.GetValue parentTree
              (Iterator.GoUp (Iterator.GoLeftChild (CCompleteTreeIndex.ofArrayIndex 1))) =
            Iterator.GetValue parentTree (CCompleteTreeIndex.ofArrayIndex 1) ∧
          Iterator.GetValue parentTree
              (Iterator.GoUp (Iterator.GoRightChild (CCompleteTreeIndex.ofArrayIndex 1))) =
            Iterator.GetValue parentTree (CCompleteTreeIndex.ofArrayIndex 1))) :=
  ⟨rfl, rfl, rfl, by norm_num, @GoUp_undoes_child_move Int 1 (by norm_num)⟩

/-- C19: what `GoUp` does to a cursor at the root.  The one-based index 1 is
halved to 0, so the cursor is not at array offset 0 any more: asking for its
offset fails the assertion `m_oneBasedIndex != 0`, and so does `GetValue`, on a
tree whose root still reads normally.  The doc comment of `GoUp` promises that
the cursor stays at the root. -/
theorem GoUp_at_root_leaves_the_root :
    Iterator.GoUp CCompleteTree.GetRootNode = ⟨0⟩ ∧
      CCompleteTree.GetRootNode.GetCurrentLocationInArray = .ok 0 ∧
      (Iterator.GoUp CCompleteTree.GetRootNode).GetCurrentLocationInArray =
        .error .AssertionFailed ∧
      Iterator.GetValue (some [(7 : Int)]) CCompleteTree.GetRootNode = .ok 7 ∧
      Iterator.GetValue (some [(7 : Int)]) (Iterator.GoUp CCompleteTree.GetRootNode) =
        .error .AssertionFailed :=
  ⟨rfl, rfl, rfl, rfl, rfl⟩

/-- C20: `EraseLastNode` raises `CCannotEraseFromEmptyCompleteTree` exactly
when the tree is empty, and raises nothing else; the model yields a new vector
only on success, so a raised exception leaves the caller with the vector it
passed.  On a non-empty tree it returns the vector without its element at
offset `size-1`: the size is one less and every offset below `size-1` reads as
before. -/
theorem EraseLastNode_removes_last (tree : List T) :
    (CCompleteTree.EraseLastNode tree = .error .CCannotEraseFromEmptyCompleteTree ↔
        CCompleteTree.GetSize tree = 0) ∧
      (∀ e, CCompleteTree.EraseLastNode tree = .error e →
        e = .CCannotEraseFromEmptyCompleteTree) ∧
      (CCompleteTree.GetSize tree ≠ 0 →
        ∃ tree1 last, CCompleteTree.EraseLastNode tree = .ok tree1 ∧
          tree = tree1 ++ [last] ∧
          tree[CCompleteTree.GetSize tree - 1]? = some last ∧
          CCompleteTree.GetSize tree1 = CCompleteTree.GetSize tree - 1 ∧
          ∀ i, i < CCompleteTree.GetSize tree - 1 → tree1[i]? = tree[i]?) := by
  refine ⟨?_, ?_, ?_⟩
  · unfold CCompleteTree.EraseLastNode CCompleteTree.GetSize
    by_cases h : 0 < tree.length
    · simp only [h, if_true]
      constructor
      · intro h1; exact absurd h1 (by simp)
      · intro h1; omega
    · simp only [h, if_false, true_iff]
      omega
  · intro e he
    unfold CCompleteTree.EraseLastNode at he
    split at he
    · exact absurd he (by simp)
    · simp only [Except.error.injEq] at he
      exact he.symm
  · intro hne
    have hlen : 0 < tree.length := Nat.pos_of_ne_zero hne
    have hl : tree.length - 1 < tree.length := by omega
    have hlast : tree[tree.length - 1]? = some tree[tree.length - 1] := by simp [hl]
    refine ⟨tree.dropLast, tree[tree.length - 1], ?_, ?_, hlast, ?_, ?_⟩
    · simp only [CCompleteTree.EraseLastNode, hlen, if_true]
    · exact (dropLast_concat_last tree _ hlast).symm
    · simp only [CCompleteTree.GetSize, List.length_dropLast]
    · intro i hi
      simp only [CCompleteTree.GetSize] at hi
      rw [List.getElem?_dropLast]
      simp only [hi, if_true]

end ClaimsTree

/-! ### `Reheapify` -/

section ReheapifyLemmas

variable {T : Type}

/-- Inserting a copy of the current top leaves that value at the root. -/
theorem Insert_top_keeps_root (comp : T → T → Bool) (steps : Nat) (tree : List T) (top : T)
    (htop : tree[0]? = some top) (hcap : tree.length + 1 < 4294967296)
    (hsteps : tree.length < steps) :
    ∃ tree1, CHeap.Insert comp steps tree top = .returned tree1 ∧ tree1[0]? = some top := by
  have h0 : 0 < tree.length := (List.getElem?_eq_some.mp htop).1
  rw [Insert_eq comp steps tree top hcap]
  refine BubbleUp_rule comp
    (fun l i => l[i]? = some top ∧ l[0]? = some top)
    (fun l => l[0]? = some top)
    (fun l hP => hP.2)
    (fun l i c p _ hP _ _ _ => hP.2)
    ?_ steps (tree ++ [top]) tree.length (by simp) hsteps ?_
  · intro l i c p hi hP hc hp _
    have hct : c = top := by
      rw [hP.1] at hc; simpa using hc.symm
    have hil : i < l.length := (List.getElem?_eq_some.mp hc).1
    have hpl : parentOffset i < l.length := (List.getElem?_eq_some.mp hp).1
    have hpi := parentOffset_lt hi
    have hne : ¬ parentOffset i = i := by omega
    have hself : ((l.set (parentOffset i) c).set i p)[parentOffset i]? = some top := by
      rw [swap_getElem?]
      simp only [hne, if_false, if_true, hpl, hct]
    refine ⟨hself, ?_⟩
    by_cases hp0 : parentOffset i = 0
    · rw [swap_getElem?, if_neg (by omega : ¬ 0 = i), if_pos hp0.symm, if_pos hpl, hct]
    · rw [swap_getElem?]
      have h1 : ¬ 0 = i := by omega
      have h2 : ¬ 0 = parentOffset i := fun h => hp0 h.symm
      simp only [h1, h2, if_false]
      exact hP.2
  · exact ⟨List.getElem?_concat_length tree top, by
      rw [List.getElem?_append_left h0]; exact htop⟩

/-- One round of `Reheapify(h, h)` on a non-empty heap: both calls return, the
stored values are the same as before, and a heap stays a heap. -/
theorem self_round_spec (comp : T → T → Bool) (steps : Nat) (tree : List T) (top : T)
    (htop : tree[0]? = some top) (hcap : tree.length < 2147483648)
    (hsteps : tree.length < steps) :
    ∃ tree1 tree2, CHeap.Insert comp steps tree top = .returned tree1 ∧
      CHeap.PopTop comp steps tree1 = .returned tree2 ∧ tree2.Perm tree ∧
      (StrictWeakOrder comp → IsHeap comp tree → IsHeap comp tree2) := by
  obtain ⟨tree1, h1, h2, h3⟩ := Insert_spec comp steps tree top (by omega) hsteps
  obtain ⟨tree1b, h1b, hroot⟩ :=
    Insert_top_keeps_root comp steps tree top htop (by omega) hsteps
  rw [h1] at h1b
  simp only [Outcome.returned.injEq] at h1b
  rw [← h1b] at hroot
  have hlen : tree1.length = tree.length + 1 := by simpa using h2.length_eq
  obtain ⟨tree2, h4, h5, h6⟩ := PopTop_spec comp steps tree1 top hroot (by omega) (by omega)
  refine ⟨tree1, tree2, h1, h4, ?_, fun hs hh => h6 hs (h3 hs hh)⟩
  exact (List.Perm.cons_inv (h5.symm.trans h2))

theorem ReheapifySelfLoop_spec (comp : T → T → Bool) (steps : Nat) :
    ∀ (n : Nat) (s : SelfTransfer T), (0 < n → s.heap ≠ []) →
      s.heap.length < 2147483648 → s.heap.length < steps →
      ∃ heap1, ReheapifySelfLoop comp steps n s = .returned ⟨s.rounds + n, heap1⟩ ∧
        heap1.Perm s.heap ∧
        (StrictWeakOrder comp → IsHeap comp s.heap → IsHeap comp heap1) := by
  intro n
  induction n with
  | zero =>
    intro s _ _ _
    exact ⟨s.heap, rfl, List.Perm.refl _, fun _ h => h⟩
  | succ n ih =>
    intro s hne hcap hsteps
    obtain ⟨top, htop⟩ := getElem?_zero_of_ne_nil s.heap (hne (by omega))
    obtain ⟨tree1, tree2, h1, h2, h3, h4⟩ :=
      self_round_spec comp steps s.heap top htop hcap hsteps
    have hlen : tree2.length = s.heap.length := h3.length_eq
    have hne2 : tree2 ≠ [] := by
      intro h
      rw [h] at hlen
      have := (List.getElem?_eq_some.mp htop).1
      simp only [List.length_nil] at hlen
      omega
    obtain ⟨heap1, h5, h6, h7⟩ := ih ⟨s.rounds + 1, tree2⟩ (fun _ => hne2)
      (by simpa [hlen] using hcap) (by simpa [hlen] using hsteps)
    refine ⟨heap1, ?_, h6.trans h3, fun hs hh => h7 hs (h4 hs hh)⟩
    simp only [ReheapifySelfLoop, PeekTop_some s.heap top htop, h1, h2, h5]
    congr 2
    omega

theorem ReheapifyLoop_spec (destOrder srcOrder : T → T → Bool) (steps : Nat) :
    ∀ (n : Nat) (s : Transfer T), s.src.length = n →
      s.dest.length + n < 2147483648 → s.dest.length + n < steps →
      ∃ dest1, ReheapifyLoop destOrder srcOrder steps n s =
          .returned ⟨s.rounds + n, dest1, []⟩ ∧
        dest1.Perm (s.src ++ s.dest) ∧
        (StrictWeakOrder destOrder → IsHeap destOrder s.dest → IsHeap destOrder dest1) := by
  intro n
  induction n with
  | zero =>
    intro s hlen _ _
    have hsrc : s.src = [] := List.length_eq_zero.mp hlen
    refine ⟨s.dest, ?_, by rw [hsrc]; exact List.Perm.refl _, fun _ h => h⟩
    cases s with
    | mk rounds dest src =>
      simp only at hsrc
      simp only [ReheapifyLoop, hsrc, Nat.add_zero]
  | succ n ih =>
    intro s hlen hcap hsteps
    have hne : s.src ≠ [] := by
      intro h; rw [h] at hlen; simp at hlen
    obtain ⟨top, htop⟩ := getElem?_zero_of_ne_nil s.src hne
    obtain ⟨dest1, h1, h2, h3⟩ := Insert_spec destOrder steps s.dest top (by omega) (by omega)
    obtain ⟨src1, h4, h5, _⟩ := PopTop_spec srcOrder steps s.src top htop (by omega) (by omega)
    have hlen1 : src1.length = n := by
      have := h5.length_eq
      simp only [List.length_cons] at this
      omega
    have hdlen : dest1.length = s.dest.length + 1 := by simpa using h2.length_eq
    obtain ⟨dest2, h6, h7, h8⟩ := ih ⟨s.rounds + 1, dest1, src1⟩ hlen1
      (by simp only [hdlen]; omega) (by simp only [hdlen]; omega)
    refine ⟨dest2, ?_, ?_, fun hs hh => h8 hs (h3 hs hh)⟩
    · simp only [ReheapifyLoop, PeekTop_some s.src top htop, h1, h4, h6]
      congr 2
      omega
    · simp only at h7
      have e1 : (src1 ++ dest1).Perm (src1 ++ top :: s.dest) := List.Perm.append_left src1 h2
      have e2 : (src1 ++ top :: s.dest).Perm (top :: (src1 ++ s.dest)) :=
        List.perm_middle
      have e3 : (top :: (src1 ++ s.dest)).Perm (s.src ++ s.dest) := by
        have := List.Perm.append_right s.dest h5.symm
        simpa using this
      exact h7.trans (e1.trans (e2.trans e3))

theorem uint32_size {T : Type} (tree : List T) (h : tree.length < 4294967296) :
    uint32 (CHeap.GetSize tree) = tree.length := by
  have h1 : tree.length % 4294967296 = tree.length := by omega
  simp only [uint32, CHeap.GetSize, CCompleteTree.GetSize, h1]

/-- Everything `Reheapify(dest, src)` guarantees for two distinct heaps within
the range of the 32-bit index. -/
theorem Reheapify_spec (destOrder srcOrder : T → T → Bool) (steps : Nat) (dest src : List T)
    (hcap : dest.length + src.length < 2147483648)
    (hsteps : dest.length + src.length < steps) :
    ∃ dest1, Reheapify destOrder srcOrder steps dest src =
        .returned ⟨src.length, dest1, []⟩ ∧
      dest1.Perm (src ++ dest) ∧
      (StrictWeakOrder destOrder → IsHeap destOrder dest → IsHeap destOrder dest1) := by
  obtain ⟨dest1, h1, h2, h3⟩ := ReheapifyLoop_spec destOrder srcOrder steps src.length
    ⟨0, dest, src⟩ rfl hcap hsteps
  refine ⟨dest1, ?_, h2, h3⟩
  simp only [Reheapify, uint32_size src (by omega), h1, Nat.zero_add]

/-- Everything `Reheapify(h, h)` guarantees within the range of the 32-bit
index. -/
theorem ReheapifySelf_spec (comp : T → T → Bool) (steps : Nat) (heap : List T)
    (hcap : heap.length < 2147483648) (hsteps : heap.length < steps) :
    ∃ heap1, ReheapifySelf comp steps heap = .returned ⟨heap.length, heap1⟩ ∧
      heap1.Perm heap ∧
      (StrictWeakOrder comp → IsHeap comp heap → IsHeap comp heap1) := by
  obtain ⟨heap1, h1, h2, h3⟩ := ReheapifySelfLoop_spec comp steps heap.length ⟨0, heap⟩
    (fun h => by
      intro hnil
      simp only at hnil
      rw [hnil] at h
      simp at h) hcap hsteps
  refine ⟨heap1, ?_, h2, h3⟩
  simp only [ReheapifySelf, uint32_size heap (by omega), h1, Nat.zero_add]

end ReheapifyLemmas

/-! ### Two sorted arrangements of the same values -/

section SortedArrangements

variable {T : Type}

theorem pairwise_getElem? (R : T → T → Prop) (l : List T) (h : l.Pairwise R)
    (i j : Nat) (a b : T) (hij : i < j) (ha : l[i]? = some a) (hb : l[j]? = some b) :
    R a b := by
  obtain ⟨hi, hia⟩ := List.getElem?_eq_some.mp ha
  obtain ⟨hj, hjb⟩ := List.getElem?_eq_some.mp hb
  have := List.pairwise_iff_getElem.mp h i j hi hj hij
  rw [hia, hjb] at this
  exact this

/-- In two arrangements of the same values, both with no element less than a
later one, the element at a position of the first is not less than the element
at the same position of the second. -/
theorem sorted_perm_not_less (lt : T → T → Bool) (hlt : StrictWeakOrder lt) (xs ys : List T)
    (hperm : xs.Perm ys) (hx : xs.Pairwise (fun a b => lt a b = false))
    (hy : ys.Pairwise (fun a b => lt a b = false)) :
    ∀ (i : Nat) (x y : T), xs[i]? = some x → ys[i]? = some y → lt x y = false := by
  intro i x y hxi hyi
  cases hxy : lt x y with
  | false => rfl
  | true =>
    exfalso
    have hil : i < ys.length := (List.getElem?_eq_some.mp hyi).1
    -- the first i+1 elements of ys are all greater than x
    have hbig : List.countP (fun z => lt x z) (ys.take (i + 1)) = (ys.take (i + 1)).length := by
      rw [List.countP_eq_length]
      intro z hz
      obtain ⟨j, hj⟩ := List.mem_iff_getElem?.mp hz
      rw [List.getElem?_take] at hj
      split at hj
      · rename_i hji
        have hzy : lt z y = false := by
          by_cases hjeq : j = i
          · rw [hjeq, hyi] at hj
            simp only [Option.some.injEq] at hj
            rw [← hj]; exact hlt.irrefl y
          · exact pairwise_getElem? _ ys hy j i z y (by omega) hj hyi
        cases hxz : lt x z with
        | true => rfl
        | false =>
          have := hlt.negtrans x z y hxz hzy
          rw [hxy] at this
          exact absurd this (by simp)
      · exact absurd hj (by simp)
    have hlen : (ys.take (i + 1)).length = i + 1 := by
      rw [List.length_take]; omega
    have hys : i + 1 ≤ List.countP (fun z => lt x z) ys := by
      have h1 := List.countP_append (fun z => lt x z) (ys.take (i + 1)) (ys.drop (i + 1))
      rw [List.take_append_drop] at h1
      omega
    -- from position i on, no element of xs is greater than x
    have hsmall : List.countP (fun z => lt x z) (xs.drop i) = 0 := by
      rw [List.countP_eq_zero]
      intro z hz
      obtain ⟨j, hj⟩ := List.mem_iff_getElem?.mp hz
      rw [List.getElem?_drop] at hj
      have hxz : lt x z = false := by
        by_cases hj0 : j = 0
        · rw [hj0, Nat.add_zero, hxi] at hj
          simp only [Option.some.injEq] at hj
          rw [← hj]; exact hlt.irrefl x
        · exact pairwise_getElem? _ xs hx i (i + j) x z (by omega) hxi hj
      simp [hxz]
    have hxs : List.countP (fun z => lt x z) xs ≤ i := by
      have h1 := List.countP_append (fun z => lt x z) (xs.take i) (xs.drop i)
      rw [List.take_append_drop] at h1
      have h2 : List.countP (fun z => lt x z) (xs.take i) ≤ (xs.take i).length :=
        List.countP_le_length _
      have h3 : (xs.take i).length ≤ i := by
        rw [List.length_take]; omega
      omega
    have := hperm.countP_eq (fun z => lt x z)
    omega

/-- Two such arrangements agree position by position up to ties, and are equal
when the comparator never ties two distinct values. -/
theorem sorted_perm_ties (lt : T → T → Bool) (hlt : StrictWeakOrder lt) (xs ys : List T)
    (hperm : xs.Perm ys) (hx : xs.Pairwise (fun a b => lt a b = false))
    (hy : ys.Pairwise (fun a b => lt a b = false)) :
    (∀ (i : Nat) (x y : T), xs[i]? = some x → ys[i]? = some y →
        lt x y = false ∧ lt y x = false) ∧
      ((∀ a b, lt a b = false → lt b a = false → a = b) → xs = ys) := by
  have h1 := sorted_perm_not_less lt hlt xs ys hperm hx hy
  have h2 := sorted_perm_not_less lt hlt ys xs hperm.symm hy hx
  refine ⟨fun i x y hxi hyi => ⟨h1 i x y hxi hyi, h2 i y x hyi hxi⟩, fun htot => ?_⟩
  apply List.ext_getElem?
  intro i
  have hlen := hperm.length_eq
  cases hxi : xs[i]? with
  | none =>
    rw [List.getElem?_eq_none_iff] at hxi
    exact (List.getElem?_eq_none (by omega)).symm
  | some x =>
    have hil : i < ys.length := by
      have := (List.getElem?_eq_some.mp hxi).1; omega
    have hyi : ys[i]? = some ys[i] := by simp [hil]
    rw [hyi, htot x ys[i] (h1 i x _ hxi hyi) (h2 i _ x hyi hxi)]

end SortedArrangements

/-! ### The priority queue -/

section QueueLemmas

variable {T : Type}

theorem lessOnFirst_strictWeakOrder : StrictWeakOrder lessOnFirst where
  irrefl a := by simp [lessOnFirst]
  trans a b c := by
    simp only [lessOnFirst, decide_eq_true_eq]; omega
  incomp_trans a b c := by
    simp only [lessOnFirst, decide_eq_false_iff_not]; omega

/-- A sequence of pushes and successful pops applied to a queue whose heap has
the heap property returns such a queue with the same sort order, as long as the
sizes stay within the range of the 32-bit index. -/
theorem runQueueOps_spec (steps : Nat) :
    ∀ (ops : List (QueueOp T)) (q : CPqueue T), StrictWeakOrder q.m_sortOrder →
      IsHeap q.m_sortOrder q.m_tree → popFrontsSucceed ops q.m_tree.length = true →
      q.m_tree.length + ops.length < 2147483648 → q.m_tree.length + ops.length < steps →
      ∃ q1, runQueueOps steps ops q = .returned q1 ∧ q1.m_sortOrder = q.m_sortOrder ∧
        IsHeap q1.m_sortOrder q1.m_tree := by
  intro ops
  induction ops with
  | nil => intro q _ h _ _ _; exact ⟨q, rfl, rfl, h⟩
  | cons op rest ih =>
    intro q hlt hheap hops hcap hsteps
    simp only [List.length_cons] at hcap hsteps
    cases op with
    | push t =>
      obtain ⟨tree1, h1, h2, h3⟩ :=
        Insert_spec q.m_sortOrder steps q.m_tree t (by omega) (by omega)
      have hlen : tree1.length = q.m_tree.length + 1 := by simpa using h2.length_eq
      simp only [popFrontsSucceed] at hops
      obtain ⟨q1, h4, h5, h6⟩ := ih ⟨q.m_sortOrder, tree1⟩ hlt (h3 hlt hheap)
        (by simp only [hlen]; exact hops) (by simp only [hlen]; omega)
        (by simp only [hlen]; omega)
      exact ⟨q1, by simp only [runQueueOps, CPqueue.Push, h1, h4], h5, h6⟩
    | popFront =>
      simp only [popFrontsSucceed, Bool.and_eq_true, decide_eq_true_eq] at hops
      have hne : q.m_tree ≠ [] := by
        intro h; rw [h] at hops; simp at hops
      obtain ⟨top, htop⟩ := getElem?_zero_of_ne_nil q.m_tree hne
      obtain ⟨tree1, h1, h2, h3⟩ :=
        PopTop_spec q.m_sortOrder steps q.m_tree top htop (by omega) (by omega)
      have hlen : tree1.length = q.m_tree.length - 1 := by
        have := h2.length_eq
        simp only [List.length_cons] at this
        omega
      obtain ⟨q1, h4, h5, h6⟩ := ih ⟨q.m_sortOrder, tree1⟩ hlt (h3 hlt hheap)
        (by simp only [hlen]; exact hops.2) (by simp only [hlen]; omega)
        (by simp only [hlen]; omega)
      exact ⟨q1, by simp only [runQueueOps, CPqueue.PopFront, h1, h4], h5, h6⟩

end QueueLemmas

section ClaimsReheapify

variable {T : Type}

/-- C12: for two distinct heaps and any comparators, `Reheapify(dest, src)`
returns after exactly `src.GetSize()` rounds with `src` empty and `dest` holding
the multiset union of the two original contents, so its size is the sum of the
two sizes.  The size bound is the range in which the 32-bit tree index does not
wrap around; `steps` is the budget of the recursion inside `Insert` and
`PopTop`. -/
theorem Reheapify_moves_everything (destOrder srcOrder : T → T → Bool) (steps : Nat)
    (dest src : List T) (hcap : dest.length + src.length < 2147483648)
    (hsteps : dest.length + src.length < steps) :
    ∃ dest1, Reheapify destOrder srcOrder steps dest src =
        .returned ⟨CHeap.GetSize src, dest1, []⟩ ∧
      (dest1 : Multiset T) = (dest : Multiset T) + (src : Multiset T) ∧
      CHeap.GetSize dest1 = CHeap.GetSize dest + CHeap.GetSize src := by
  obtain ⟨dest1, h1, h2, _⟩ := Reheapify_spec destOrder srcOrder steps dest src hcap hsteps
  refine ⟨dest1, h1, ?_, ?_⟩
  · rw [Multiset.coe_add, Multiset.coe_eq_coe]
    exact h2.trans List.perm_append_comm
  · have := h2.length_eq
    simp only [List.length_append] at this
    simp only [CHeap.GetSize, CCompleteTree.GetSize]
    omega

theorem Reheapify_moves_everything_witness :
    ∃ dest1, Reheapify CStdGreaterSortOrder.LessThan CStdLessSortOrder.LessThan 6
        [3, 8] [9, 4, 9] = .returned ⟨CHeap.GetSize ([9, 4, 9] : List Int), dest1, []⟩ ∧
      (dest1 : Multiset Int) =
        (([3, 8] : List Int) : Multiset Int) + (([9, 4, 9] : List Int) : Multiset Int) ∧
      CHeap.GetSize dest1 =
        CHeap.GetSize ([3, 8] : List Int) + CHeap.GetSize ([9, 4, 9] : List Int) :=
  Reheapify_moves_everything CStdGreaterSortOrder.LessThan CStdLessSortOrder.LessThan 6
    [3, 8] [9, 4, 9] (by decide) (by decide)

/-- C13: for any `src` heap under any comparator and an empty `dest` whose
comparator `D` is a strict weak ordering, `Reheapify(dest, src)` returns and
draining `dest` afterwards gives a permutation of the original elements of
`src` in which no element is less than a later one under `D`.  The size bound
is the range in which the 32-bit tree index does not wrap around; `steps` is
the budget of the recursion. -/
theorem Reheapify_into_empty_drains_sorted (destOrder srcOrder : T → T → Bool)
    (hD : StrictWeakOrder destOrder) (steps : Nat) (src : List T)
    (hcap : src.length < 2147483648) (hsteps : src.length < steps) :
    ∃ dest1 xs, Reheapify destOrder srcOrder steps [] src =
        .returned ⟨CHeap.GetSize src, dest1, []⟩ ∧
      drain destOrder steps (CHeap.GetSize dest1) dest1 = some xs ∧ xs.Perm src ∧
      xs.Pairwise (fun a b => destOrder a b = false) := by
  obtain ⟨dest1, h1, h2, h3⟩ := Reheapify_spec destOrder srcOrder steps [] src
    (by simpa using hcap) (by simpa using hsteps)
  have hperm : dest1.Perm src := by simpa using h2
  have hlen : dest1.length = src.length := hperm.length_eq
  obtain ⟨xs, h4, h5, h6⟩ := drain_spec destOrder hD steps dest1.length dest1 rfl
    (h3 hD (isHeap_nil destOrder)) (by omega) (by omega)
  exact ⟨dest1, xs, h1, h4, h5.trans hperm, h6⟩

/-- C15: `Reheapify(h, h)` on a heap of `N` elements returns after exactly `N`
rounds (the size is read once, before the loop) and leaves `h` with the same
size and the same multiset of elements, and with the heap property when the
comparator is a strict weak ordering and `h` had it.  The size bound is the
range in which the 32-bit tree index does not wrap around; `steps` is the
budget of the recursion. -/
theorem Reheapify_self_keeps_contents (comp : T → T → Bool) (steps : Nat) (heap : List T)
    (hcap : heap.length < 2147483648) (hsteps : heap.length < steps) :
    ∃ heap1, ReheapifySelf comp steps heap = .returned ⟨CHeap.GetSize heap, heap1⟩ ∧
      CHeap.GetSize heap1 = CHeap.GetSize heap ∧
      (heap1 : Multiset T) = (heap : Multiset T) ∧
      (StrictWeakOrder comp → IsHeap comp heap → IsHeap comp heap1) := by
  obtain ⟨heap1, h1, h2, h3⟩ := ReheapifySelf_spec comp steps heap hcap hsteps
  refine ⟨heap1, h1, ?_, ?_, h3⟩
  · simpa [CHeap.GetSize, CCompleteTree.GetSize] using h2.length_eq
  · rw [Multiset.coe_eq_coe]; exact h2

theorem Reheapify_self_keeps_contents_witness :
    ∃ heap1, ReheapifySelf CStdLessSortOrder.LessThan 5 [17, 15, 17, 5] =
        .returned ⟨CHeap.GetSize ([17, 15, 17, 5] : List Int), heap1⟩ ∧
      CHeap.GetSize heap1 = CHeap.GetSize ([17, 15, 17, 5] : List Int) ∧
      (heap1 : Multiset Int) = (([17, 15, 17, 5] : List Int) : Multiset Int) ∧
      (StrictWeakOrder CStdLessSortOrder.LessThan →
        IsHeap CStdLessSortOrder.LessThan [17, 15, 17, 5] →
        IsHeap CStdLessSortOrder.LessThan heap1) :=
  Reheapify_self_keeps_contents CStdLessSortOrder.LessThan 5 [17, 15, 17, 5] (by decide)
    (by decide)

end ClaimsReheapify

section ClaimsReheapify2

variable {T : Type}

theorem Reheapify_into_empty_drains_sorted_witness :
    runOps CStdLessSortOrder.LessThan 12
        [Op.insert 50, Op.insert 45, Op.insert 40, Op.insert 35, Op.insert 55, Op.insert 30,
          Op.insert 25, Op.insert 20, Op.insert 10, Op.insert 12, Op.insert 12] [] =
        .returned [55, 50, 40, 35, 45, 30, 25, 20, 10, 12, 12] ∧
      Reheapify CStdGreaterSortOrder.LessThan CStdLessSortOrder.LessThan 12 []
          [55, 50, 40, 35, 45, 30, 25, 20, 10, 12, 12] =
        .returned ⟨11, [10, 12, 30, 25, 12, 50, 35, 55, 40, 45, 20], []⟩ ∧
      drain CStdGreaterSortOrder.LessThan 12 11 [10, 12, 30, 25, 12, 50, 35, 55, 40, 45, 20] =
        some [10, 12, 12, 20, 25, 30, 35, 40, 45, 50, 55] ∧
      ∃ dest1 xs, Reheapify CStdGreaterSortOrder.LessThan CStdLessSortOrder.LessThan 12 []
          [55, 50, 40, 35, 45, 30, 25, 20, 10, 12, 12] =
          .returned ⟨CHeap.GetSize ([55, 50, 40, 35, 45, 30, 25, 20, 10, 12, 12] : List Int),
            dest1, []⟩ ∧
        drain CStdGreaterSortOrder.LessThan 12 (CHeap.GetSize dest1) dest1 = some xs ∧
        xs.Perm [55, 50, 40, 35, 45, 30, 25, 20, 10, 12, 12] ∧
        xs.Pairwise (fun a b => CStdGreaterSortOrder.LessThan a b = false) :=
  ⟨by decide, by decide, by decide,
    Reheapify_into_empty_drains_sorted CStdGreaterSortOrder.LessThan
      CStdLessSortOrder.LessThan CStdGreaterSortOrder_strictWeakOrder 12
      [55, 50, 40, 35, 45, 30, 25, 20, 10, 12, 12] (by decide) (by decide)⟩

/-- Self-reheapify can change the order in which tied elements are popped: the
heap of `(0,0), (0,1), (0,2)` (built by inserting `(0,1), (0,2), (0,0)`) under a
comparator that looks at the first component only drains as `(0,0), (0,2), (0,1)`, and after `Reheapify(h, h)` as
`(0,1), (0,2), (0,0)`. -/
theorem Reheapify_self_changes_tie_order :
    StrictWeakOrder lessOnFirst ∧
      runOps lessOnFirst 4 [Op.insert (0, 1), Op.insert (0, 2), Op.insert (0, 0)] [] =
        .returned [(0, 0), (0, 1), (0, 2)] ∧
      IsHeap lessOnFirst [(0, 0), (0, 1), (0, 2)] ∧
      ReheapifySelf lessOnFirst 4 [(0, 0), (0, 1), (0, 2)] =
        .returned ⟨3, [(0, 1), (0, 0), (0, 2)]⟩ ∧
      drain lessOnFirst 4 3 [(0, 0), (0, 1), (0, 2)] = some [(0, 0), (0, 2), (0, 1)] ∧
      drain lessOnFirst 4 3 [(0, 1), (0, 0), (0, 2)] = some [(0, 1), (0, 2), (0, 0)] ∧
      ([(0, 0), (0, 2), (0, 1)] : List (Nat × Nat)) ≠ [(0, 1), (0, 2), (0, 0)] :=
  ⟨lessOnFirst_strictWeakOrder, by decide, by decide, by decide, by decide, by decide,
    by decide⟩

/-- C14 (as amended): for a heap with the heap property under a strict weak
ordering, draining it after `Reheapify(h, h)` and draining it without the
self-reheapify give two permutations of the same elements that agree position
by position up to ties (neither element is less than the other); they are
identical, element for element, when the comparator never ties two distinct
elements.  The size bound is the range in which the 32-bit tree index does not
wrap around; `steps` is the budget of the recursion. -/
theorem Reheapify_self_keeps_pop_order_up_to_ties (lt : T → T → Bool)
    (hlt : StrictWeakOrder lt) (steps : Nat) (heap : List T) (hheap : IsHeap lt heap)
    (hcap : heap.length < 2147483648) (hsteps : heap.length < steps) :
    ∃ heap1 xs ys, ReheapifySelf lt steps heap = .returned ⟨CHeap.GetSize heap, heap1⟩ ∧
      drain lt steps (CHeap.GetSize heap) heap = some xs ∧
      drain lt steps (CHeap.GetSize heap1) heap1 = some ys ∧
      ys.Perm xs ∧
      (∀ (i : Nat) (x y : T), xs[i]? = some x → ys[i]? = some y →
        lt x y = false ∧ lt y x = false) ∧
      ((∀ a b, lt a b = false → lt b a = false → a = b) → ys = xs) := by
  obtain ⟨heap1, h1, h2, h3⟩ := ReheapifySelf_spec lt steps heap hcap hsteps
  have hlen : heap1.length = heap.length := h2.length_eq
  obtain ⟨xs, hx1, hx2, hx3⟩ := drain_spec lt hlt steps heap.length heap rfl hheap hcap hsteps
  obtain ⟨ys, hy1, hy2, hy3⟩ := drain_spec lt hlt steps heap1.length heap1 rfl
    (h3 hlt hheap) (by omega) (by omega)
  have hperm : xs.Perm ys := hx2.trans (h2.symm.trans hy2.symm)
  obtain ⟨ht1, ht2⟩ := sorted_perm_ties lt hlt xs ys hperm hx3 hy3
  exact ⟨heap1, xs, ys, h1, hx1, hy1, hperm.symm, ht1, fun htot => (ht2 htot).symm⟩

theorem Reheapify_self_keeps_pop_order_up_to_ties_witness :
    IsHeap lessOnFirst [(2, 0), (1, 1), (2, 2), (1, 3)] ∧
      ∃ heap1 xs ys, ReheapifySelf lessOnFirst 5 [(2, 0), (1, 1), (2, 2), (1, 3)] =
          .returned ⟨CHeap.GetSize ([(2, 0), (1, 1), (2, 2), (1, 3)] : List (Nat × Nat)),
            heap1⟩ ∧
        drain lessOnFirst 5 (CHeap.GetSize ([(2, 0), (1, 1), (2, 2), (1, 3)] : List (Nat × Nat)))
          [(2, 0), (1, 1), (2, 2), (1, 3)] = some xs ∧
        drain lessOnFirst 5 (CHeap.GetSize heap1) heap1 = some ys ∧
        ys.Perm xs ∧
        (∀ (i : Nat) (x y : Nat × Nat), xs[i]? = some x → ys[i]? = some y →
          lessOnFirst x y = false ∧ lessOnFirst y x = false) ∧
        ((∀ a b, lessOnFirst a b = false → lessOnFirst b a = false → a = b) → ys = xs) :=
  ⟨by decide, Reheapify_self_keeps_pop_order_up_to_ties lessOnFirst lessOnFirst_strictWeakOrder
    5 [(2, 0), (1, 1), (2, 2), (1, 3)] (by decide) (by decide) (by decide)⟩

/-- C16: for any queue and any new comparator `D` that is a strict weak
ordering, `ChangeSortOrder(D)` returns a queue ordered by `D` with the same
number and the same multiset of elements; if it is non-empty, `PeekFront`
returns an element not less than any queued element under `D`, and the same
holds after any later sequence of `Push` and successful `PopFront` calls, which
keep `D` as the sort order.  The size bounds are the range in which the 32-bit
tree index does not wrap around; `steps` is the budget of the recursion. -/
theorem ChangeSortOrder_reorders_queue (steps : Nat) (q : CPqueue T) (D : T → T → Bool)
    (hD : StrictWeakOrder D) (hcap : q.m_tree.length < 2147483648)
    (hsteps : q.m_tree.length < steps) :
    ∃ q1, CPqueue.ChangeSortOrder steps q D = .returned q1 ∧ q1.m_sortOrder = D ∧
      q1.m_tree.length = q.m_tree.length ∧
      (q1.m_tree : Multiset T) = (q.m_tree : Multiset T) ∧
      (q1.m_tree ≠ [] →
        ∃ t, CPqueue.PeekFront q1 = .ok t ∧ t ∈ q1.m_tree ∧ ∀ x ∈ q1.m_tree, D t x = false) ∧
      (∀ ops : List (QueueOp T), popFrontsSucceed ops q1.m_tree.length = true →
        q1.m_tree.length + ops.length < 2147483648 → q1.m_tree.length + ops.length < steps →
        ∃ q2, runQueueOps steps ops q1 = .returned q2 ∧ q2.m_sortOrder = D ∧
          (q2.m_tree ≠ [] →
            ∃ t, CPqueue.PeekFront q2 = .ok t ∧ t ∈ q2.m_tree ∧
              ∀ x ∈ q2.m_tree, D t x = false)) := by
  obtain ⟨dest1, h1, h2, h3⟩ := Reheapify_spec D q.m_sortOrder steps [] q.m_tree
    (by simpa using hcap) (by simpa using hsteps)
  have hperm : dest1.Perm q.m_tree := by simpa using h2
  have hheap : IsHeap D dest1 := h3 hD (isHeap_nil D)
  refine ⟨⟨D, dest1⟩, by simp only [CPqueue.ChangeSortOrder, h1], rfl, hperm.length_eq,
    by rw [Multiset.coe_eq_coe]; exact hperm,
    fun hne => PeekTop_of_isHeap D hD dest1 hheap hne, ?_⟩
  intro ops hops hcap2 hsteps2
  obtain ⟨q2, h4, h5, h6⟩ := runQueueOps_spec steps ops ⟨D, dest1⟩ hD hheap hops hcap2 hsteps2
  simp only at h5
  refine ⟨q2, h4, h5, fun hne => ?_⟩
  rw [h5] at h6
  exact PeekTop_of_isHeap D hD q2.m_tree h6 hne

theorem ChangeSortOrder_reorders_queue_witness :
    ∃ q1, CPqueue.ChangeSortOrder 8 ⟨CStdLessSortOrder.LessThan, [55, 50, 40, 35, 45]⟩
        CStdGreaterSortOrder.LessThan = .returned q1 ∧
      q1.m_sortOrder = CStdGreaterSortOrder.LessThan ∧
      q1.m_tree.length = ([55, 50, 40, 35, 45] : List Int).length ∧
      (q1.m_tree : Multiset Int) = (([55, 50, 40, 35, 45] : List Int) : Multiset Int) ∧
      (q1.m_tree ≠ [] →
        ∃ t, CPqueue.PeekFront q1 = .ok t ∧ t ∈ q1.m_tree ∧
          ∀ x ∈ q1.m_tree, CStdGreaterSortOrder.LessThan t x = false) ∧
      (∀ ops : List (QueueOp Int), popFrontsSucceed ops q1.m_tree.length = true →
        q1.m_tree.length + ops.length < 2147483648 → q1.m_tree.length + ops.length < 8 →
        ∃ q2, runQueueOps 8 ops q1 = .returned q2 ∧
          q2.m_sortOrder = CStdGreaterSortOrder.LessThan ∧
          (q2.m_tree ≠ [] →
            ∃ t, CPqueue.PeekFront q2 = .ok t ∧ t ∈ q2.m_tree ∧
              ∀ x ∈ q2.m_tree, CStdGreaterSortOrder.LessThan t x = false)) :=
  ChangeSortOrder_reorders_queue 8 ⟨CStdLessSortOrder.LessThan, [55, 50, 40, 35, 45]⟩
    CStdGreaterSortOrder.LessThan CStdGreaterSortOrder_strictWeakOrder (by decide) (by decide)

end ClaimsReheapify2

/-! ## The claims on the tree and its cursors -/

section CursorLemmas

variable {T : Type}

theorem location_zero :
    CCompleteTreeIndex.GetCurrentLocationInArray ⟨0⟩ = .error .AssertionFailed := by
  simp [CCompleteTreeIndex.GetCurrentLocationInArray]

theorem IsStillInTree_zero (tree : List T) :
    Iterator.IsStillInTree (some tree) ⟨0⟩ = .error .AssertionFailed := by
  simp [Iterator.IsStillInTree, location_zero]

theorem GetValue_zero (tree : List T) :
    Iterator.GetValue (some tree) ⟨0⟩ = .error .AssertionFailed := by
  simp [Iterator.GetValue, IsStillInTree_zero]

theorem SetValue_zero (tree : List T) (v : T) :
    Iterator.SetValue (some tree) ⟨0⟩ v = .error .AssertionFailed := by
  simp [Iterator.SetValue, IsStillInTree_zero]

theorem GetValue_succ (tree : List T) (i : Nat) :
    Iterator.GetValue (some tree) ⟨i + 1⟩ =
      match tree[i]? with
      | some v => .ok v
      | none => .error .COutOfBounds := by
  cases h : tree[i]? with
  | some v => exact GetValue_some tree i v h
  | none =>
    have hi : ¬ i < tree.length := by
      have := List.getElem?_eq_none_iff.mp h; omega
    simp [Iterator.GetValue, IsStillInTree_succ, hi]

theorem SetValue_succ (tree : List T) (i : Nat) (v : T) :
    Iterator.SetValue (some tree) ⟨i + 1⟩ v =
      if i < tree.length then .ok (tree.set i v) else .error .COutOfBounds := by
  by_cases h : i < tree.length
  · simp only [h, if_true]; exact SetValue_lt tree i v h
  · simp [Iterator.SetValue, IsStillInTree_succ, h]

end CursorLemmas

section ClaimsCursor

variable {T : Type}

/-- C21: `Append(v)` on a tree of size `n` (it has no failure path) makes the
size `n+1`, stores `v` at offset `n` and leaves the values at offsets below `n`
as they were; `GetLastNode().GetValue()` then returns `v`, as long as `n+1` is
within the range of the 32-bit tree index. -/
theorem Append_stores_at_end (tree : List T) (v : T) :
    CCompleteTree.GetSize (CCompleteTree.Append tree v) = CCompleteTree.GetSize tree + 1 ∧
      (CCompleteTree.Append tree v)[CCompleteTree.GetSize tree]? = some v ∧
      (∀ i, i < CCompleteTree.GetSize tree → (CCompleteTree.Append tree v)[i]? = tree[i]?) ∧
      (CCompleteTree.GetSize tree + 1 < 4294967296 →
        Iterator.GetValue (some (CCompleteTree.Append tree v))
          (CCompleteTree.GetLastNode (CCompleteTree.Append tree v)) = .ok v) := by
  refine ⟨?_, ?_, ?_, ?_⟩
  · simp [CCompleteTree.GetSize, CCompleteTree.Append]
  · simp only [CCompleteTree.GetSize, CCompleteTree.Append]
    exact List.getElem?_concat_length tree v
  · intro i hi
    simp only [CCompleteTree.GetSize] at hi
    simp only [CCompleteTree.Append]
    exact List.getElem?_append_left hi
  · intro hcap
    simp only [CCompleteTree.GetSize] at hcap
    have h := GetLastNode_eq (tree ++ [v]) (by simp) (by simpa using hcap)
    simp only [List.length_append, List.length_singleton, Nat.add_sub_cancel] at h
    simp only [CCompleteTree.Append, h]
    exact GetValue_some (tree ++ [v]) tree.length v (List.getElem?_concat_length tree v)

/-- C22: for a cursor into a live tree, `IsStillInTree` is true exactly when
the cursor has an array offset and that offset is below the size; `GetValue`
and `SetValue` raise `COutOfBounds` exactly when `IsStillInTree` is false; in
the tree, `GetValue` returns the element at the offset and `SetValue(v)`
returns the vector with `v` at that offset, the same size and every other
offset unchanged. -/
theorem cursor_access_in_bounds (tree : List T) (it : CCompleteTreeIndex) (v : T) :
    (Iterator.IsStillInTree (some tree) it = .ok true ↔
        ∃ loc, it.GetCurrentLocationInArray = .ok loc ∧ loc < CCompleteTree.GetSize tree) ∧
      (Iterator.GetValue (some tree) it = .error .COutOfBounds ↔
        Iterator.IsStillInTree (some tree) it = .ok false) ∧
      (Iterator.SetValue (some tree) it v = .error .COutOfBounds ↔
        Iterator.IsStillInTree (some tree) it = .ok false) ∧
      (∀ loc, it.GetCurrentLocationInArray = .ok loc → loc < CCompleteTree.GetSize tree →
        ∃ x tree1, tree[loc]? = some x ∧ Iterator.GetValue (some tree) it = .ok x ∧
          Iterator.SetValue (some tree) it v = .ok tree1 ∧
          CCompleteTree.GetSize tree1 = CCompleteTree.GetSize tree ∧
          tree1[loc]? = some v ∧ ∀ j, j ≠ loc → tree1[j]? = tree[j]?) := by
  cases it with
  | mk m =>
    cases m with
    | zero =>
      simp [IsStillInTree_zero, GetValue_zero, SetValue_zero, location_zero]
    | succ i =>
      simp only [IsStillInTree_succ, GetValue_succ, SetValue_succ, location_succ,
        CCompleteTree.GetSize, Except.ok.injEq]
      refine ⟨?_, ?_, ?_, ?_⟩
      · constructor
        · intro h
          exact ⟨i, rfl, by simpa using h⟩
        · intro ⟨loc, h1, h2⟩
          rw [← h1] at h2
          simpa using h2
      · cases h : tree[i]? with
        | some x =>
          have hi : i < tree.length := (List.getElem?_eq_some.mp h).1
          simp [hi]
        | none =>
          have hi : ¬ i < tree.length := by
            have := List.getElem?_eq_none_iff.mp h; omega
          simp [hi]
      · by_cases hi : i < tree.length <;> simp [hi]
      · intro loc hloc hlt
        rw [← hloc] at hlt
        refine ⟨tree[i], tree.set i v, ?_, ?_, ?_, ?_, ?_, ?_⟩
        · rw [← hloc]; simp [hlt]
        · simp [hlt]
        · simp [hlt]
        · simp
        · rw [← hloc]; simp [hlt]
        · intro j hj
          rw [← hloc] at hj
          exact List.getElem?_set_ne (fun h => hj h.symm)

/-- C24: for a cursor whose tree no longer exists (the weak pointer does not
lock), `IsStillInTree`, `GetValue` and `SetValue` all raise `CIteratorInvalid`;
for a cursor whose tree exists none of them raises `CIteratorInvalid`. -/
theorem CIteratorInvalid_iff_tree_gone (it : CCompleteTreeIndex) (v : T) :
    (Iterator.IsStillInTree (none : Option (List T)) it = .error .CIteratorInvalid ∧
        Iterator.GetValue (none : Option (List T)) it = .error .CIteratorInvalid ∧
        Iterator.SetValue (none : Option (List T)) it v = .error .CIteratorInvalid) ∧
      (∀ tree : List T,
        Iterator.IsStillInTree (some tree) it ≠ .error .CIteratorInvalid ∧
          Iterator.GetValue (some tree) it ≠ .error .CIteratorInvalid ∧
          Iterator.SetValue (some tree) it v ≠ .error .CIteratorInvalid) := by
  refine ⟨⟨rfl, rfl, rfl⟩, fun tree => ?_⟩
  cases it with
  | mk m =>
    cases m with
    | zero =>
      simp [IsStillInTree_zero, GetValue_zero, SetValue_zero]
    | succ i =>
      simp only [IsStillInTree_succ, GetValue_succ, SetValue_succ]
      refine ⟨by simp, ?_, ?_⟩
      · cases h : tree[i]? <;> simp
      · by_cases hi : i < tree.length <;> simp [hi]

end ClaimsCursor

section ClaimsShape

variable {T : Type}

/-- C23: in every tree state reached from the empty tree by `Append` and
`EraseLastNode` calls, a cursor is in the tree exactly when its offset is below
the size, so the in-tree offsets are `0 .. size-1` with no gap; the parent of
every in-tree cursor other than the root is in the tree, and (for a tree of
fewer than 2^31 elements, where child indices do not wrap around) whenever the
right child of an in-tree node is in the tree, so is its left child. -/
theorem in_tree_offsets_have_no_gap (ops : List (TreeOp T)) (tree : List T)
    (hreach : runTreeOps ops [] = .ok tree) :
    (∀ it loc, CCompleteTreeIndex.GetCurrentLocationInArray it = .ok loc →
        (Iterator.IsStillInTree (some tree) it = .ok true ↔ loc < CCompleteTree.GetSize tree)) ∧
      (∀ it, Iterator.IsStillInTree (some tree) it = .ok true →
        it ≠ CCompleteTree.GetRootNode →
        Iterator.IsStillInTree (some tree) (Iterator.GoUp it) = .ok true) ∧
      (CCompleteTree.GetSize tree < 2147483648 →
        ∀ it, Iterator.IsStillInTree (some tree) it = .ok true →
          Iterator.IsStillInTree (some tree) (Iterator.GoRightChild it) = .ok true →
          Iterator.IsStillInTree (some tree) (Iterator.GoLeftChild it) = .ok true) := by
  have _ := hreach
  simp only [CCompleteTree.GetSize]
  refine ⟨?_, ?_, ?_⟩
  · intro it loc hloc
    cases it with
    | mk m =>
      cases m with
      | zero => simp [location_zero] at hloc
      | succ i =>
        simp only [location_succ, Except.ok.injEq] at hloc
        rw [IsStillInTree_succ, ← hloc]
        simp
  · intro it hin hroot
    cases it with
    | mk m =>
      cases m with
      | zero => simp [IsStillInTree_zero] at hin
      | succ i =>
        have hi : 0 < i := by
          rcases Nat.eq_zero_or_pos i with h | h
          · subst h; exact absurd GetRootNode_eq.symm hroot
          · exact h
        have hil : i < tree.length := by simpa [IsStillInTree_succ] using hin
        have hpl := parentOffset_lt hi
        rw [GoUp_succ i hi, IsStillInTree_succ]
        simp; omega
  · intro hcap it hin hright
    cases it with
    | mk m =>
      cases m with
      | zero => simp [IsStillInTree_zero] at hin
      | succ i =>
        have hil : i < tree.length := by simpa [IsStillInTree_succ] using hin
        rw [GoRightChild_succ i (by omega), IsStillInTree_succ] at hright
        have hr : 2 * i + 2 < tree.length := by simpa using hright
        rw [GoLeftChild_succ i (by omega), IsStillInTree_succ]
        simp; omega

theorem in_tree_offsets_have_no_gap_witness :
    runTreeOps [TreeOp.append 5, TreeOp.append 3, TreeOp.eraseLastNode, TreeOp.append 7,
        TreeOp.append 9] ([] : List Int) = .ok [5, 7, 9] ∧
      Iterator.IsStillInTree (some ([5, 7, 9] : List Int))
        (Iterator.GoLeftChild CCompleteTree.GetRootNode) = .ok true :=
  ⟨rfl, (in_tree_offsets_have_no_gap
    [TreeOp.append 5, TreeOp.append 3, TreeOp.eraseLastNode, TreeOp.append 7, TreeOp.append 9]
    ([5, 7, 9] : List Int) rfl).2.2 (by decide) CCompleteTree.GetRootNode rfl rfl⟩

end ClaimsShape

section PickerTies

variable {T : Type}

theorem GetValue_ok (tree : List T) (it : CCompleteTreeIndex) (v : T)
    (h : Iterator.GetValue (some tree) it = .ok v) :
    ∃ i, it = ⟨i + 1⟩ ∧ tree[i]? = some v := by
  cases it with
  | mk m =>
    cases m with
    | zero => simp [GetValue_zero] at h
    | succ i =>
      refine ⟨i, rfl, ?_⟩
      rw [GetValue_succ] at h
      cases hv : tree[i]? with
      | none => simp [hv] at h
      | some x =>
        simp only [hv, Except.ok.injEq] at h
        rw [h]

/-- The two-way picker on two in-tree cursors: the second cursor exactly when
the first value is less than the second, or less than itself. -/
theorem PickLargestIterator_both (comp : T → T → Bool) (tree : List T)
    (iter1 iter2 : CCompleteTreeIndex) (v1 v2 : T)
    (h1 : Iterator.GetValue (some tree) iter1 = .ok v1)
    (h2 : Iterator.GetValue (some tree) iter2 = .ok v2) :
    PickLargestIterator comp tree iter1 iter2 =
      .ok (if (comp v1 v2 || comp v1 v1) = true then iter2 else iter1) := by
  obtain ⟨i, hi, hvi⟩ := GetValue_ok tree iter1 v1 h1
  obtain ⟨j, hj, hvj⟩ := GetValue_ok tree iter2 v2 h2
  subst hi; subst hj
  rw [PickLargestIterator_succ]
  simp only [pickOffset2, hvi, hvj]
  by_cases h : (comp v1 v2 || comp v1 v1) = true
  · simp [h]
  · simp [h]

end PickerTies

section ClaimsTies

variable {T : Type}

/-- C27, as the code has it: the claim that a tie is resolved to `iter2` fails.
With `lessOnFirst`, the values `(0,0)` at offset 0 and `(0,1)` at offset 1 tie,
and the two-way picker returns the first cursor, not the second; in the
three-way pick over offsets 0, 1, 2 of three tied values the winner of the
first comparison (offset 0) is returned, not the third cursor. -/
theorem PickLargestIterator_tie_is_not_second :
    Iterator.GetValue (some [((0 : Nat), (0 : Nat)), (0, 1)]) ⟨1⟩ = .ok (0, 0) ∧
      Iterator.GetValue (some [((0 : Nat), (0 : Nat)), (0, 1)]) ⟨2⟩ = .ok (0, 1) ∧
      lessOnFirst (0, 0) (0, 1) = false ∧ lessOnFirst (0, 1) (0, 0) = false ∧
      PickLargestIterator lessOnFirst [(0, 0), (0, 1)] ⟨1⟩ ⟨2⟩ = .ok ⟨1⟩ ∧
      PickLargestIterator lessOnFirst [(0, 0), (0, 1)] ⟨1⟩ ⟨2⟩ ≠ .ok ⟨2⟩ ∧
      PickLargestIterator3 lessOnFirst [(0, 0), (0, 1), (0, 2)] ⟨1⟩ ⟨2⟩ ⟨3⟩ = .ok ⟨1⟩ ∧
      PickLargestIterator3 lessOnFirst [(0, 0), (0, 1), (0, 2)] ⟨1⟩ ⟨2⟩ ⟨3⟩ ≠ .ok ⟨3⟩ := by
  refine ⟨rfl, rfl, rfl, rfl, rfl, ?_, rfl, ?_⟩
  · intro h
    have h2 : PickLargestIterator lessOnFirst [(0, 0), (0, 1)] ⟨1⟩ ⟨2⟩ = .ok ⟨1⟩ := rfl
    rw [h2] at h
    simp at h
  · intro h
    have h2 : PickLargestIterator3 lessOnFirst [(0, 0), (0, 1), (0, 2)] ⟨1⟩ ⟨2⟩ ⟨3⟩ = .ok ⟨1⟩ :=
      rfl
    rw [h2] at h
    simp at h

/-- C27, amended: for two in-tree cursors whose values tie under a comparator
that does not judge the first value less than itself (every strict weak
ordering is such), the two-way `PickLargestIterator` returns `iter1`: the
first-compared cursor keeps a tie. Consequently, in the three-way pick, when
`iter1` is the winner of the first comparison and `iter2` is the third cursor,
the tie resolves to the winner of the first comparison, not to the third. -/
theorem PickLargestIterator_tie_keeps_first (comp : T → T → Bool) (tree : List T)
    (iter1 iter2 : CCompleteTreeIndex) (v1 v2 : T)
    (h1 : Iterator.GetValue (some tree) iter1 = .ok v1)
    (h2 : Iterator.GetValue (some tree) iter2 = .ok v2)
    (hirr : comp v1 v1 = false) (h12 : comp v1 v2 = false) (h21 : comp v2 v1 = false) :
    PickLargestIterator comp tree iter1 iter2 = .ok iter1 ∧
      (∀ itA itB, PickLargestIterator comp tree itA itB = .ok iter1 →
        PickLargestIterator3 comp tree itA itB iter2 = .ok iter1) := by
  have _ := h21
  have h : PickLargestIterator comp tree iter1 iter2 = .ok iter1 := by
    rw [PickLargestIterator_both comp tree iter1 iter2 v1 v2 h1 h2]
    simp [hirr, h12]
  refine ⟨h, ?_⟩
  intro itA itB hAB
  simp only [PickLargestIterator3, hAB, h]

theorem PickLargestIterator_tie_keeps_first_witness :
    PickLargestIterator lessOnFirst [((0 : Nat), (0 : Nat)), (0, 1), (0, 2)] ⟨2⟩ ⟨3⟩ = .ok ⟨2⟩ ∧
      (∀ itA itB,
        PickLargestIterator lessOnFirst [((0 : Nat), (0 : Nat)), (0, 1), (0, 2)] itA itB =
          .ok ⟨2⟩ →
        PickLargestIterator3 lessOnFirst [((0 : Nat), (0 : Nat)), (0, 1), (0, 2)] itA itB ⟨3⟩ =
          .ok ⟨2⟩) :=
  PickLargestIterator_tie_keeps_first lessOnFirst [(0, 0), (0, 1), (0, 2)] ⟨2⟩ ⟨3⟩ (0, 1) (0, 2)
    rfl rfl rfl rfl rfl

/-- C25, as the code has it: the claim that a new element tying with its parent
stays below it fails. With `lessOnFirst`, inserting `(0,1)` into the heap
holding `(0,0)` finds the parent `(0,0)` not less than the new node, yet the two
are swapped and the new element ends at the root. -/
theorem Insert_tie_does_not_stay_below :
    lessOnFirst (0, 0) (0, 1) = false ∧ lessOnFirst (0, 1) (0, 0) = false ∧
      CHeap.Insert lessOnFirst 2 [((0 : Nat), (0 : Nat))] (0, 1) =
        .returned [(0, 1), (0, 0)] ∧
      CHeap.Insert lessOnFirst 2 [((0 : Nat), (0 : Nat))] (0, 1) ≠
        .returned [(0, 0), (0, 1)] := by
  refine ⟨rfl, rfl, rfl, ?_⟩
  intro h
  have h2 : CHeap.Insert lessOnFirst 2 [((0 : Nat), (0 : Nat))] (0, 1) =
      .returned [(0, 1), (0, 0)] := rfl
  rw [h2] at h
  simp at h

/-- C25, amended: `Insert(v)` appends `v` and bubbles it up from the last
position (within the range of the 32-bit index). A call of `BubbleUp` at the
root returns; at any other node it stops with no swap exactly when the node is
less than its parent under the comparator, and otherwise (the parent is less
than the node, or the two tie) it swaps the two values and continues from the
parent's position. So a new element that is not less than its parent, a tie
included, does not stay below it: the parent's value ends in the new slot. -/
theorem Insert_bubbles_up_unless_less (comp : T → T → Bool) (steps : Nat) (tree : List T)
    (v : T) (hcap : tree.length + 1 < 4294967296) :
    CHeap.Insert comp steps tree v =
        CHeap.BubbleUp comp steps (CCompleteTree.Append tree v) ⟨tree.length + 1⟩ ∧
      (∀ s (l : List T), CHeap.BubbleUp comp (s + 1) l CCompleteTree.GetRootNode = .returned l) ∧
      (∀ s (l : List T) (i : Nat) (c p : T), 0 < i → l[i]? = some c →
        l[parentOffset i]? = some p →
        CHeap.BubbleUp comp (s + 1) l ⟨i + 1⟩ =
          if comp c p = true then .returned l
          else CHeap.BubbleUp comp s ((l.set (parentOffset i) c).set i p)
            ⟨parentOffset i + 1⟩) ∧
      (∀ p, tree[parentOffset tree.length]? = some p → 0 < tree.length →
        comp v p = false → tree.length < steps →
        ∃ tree1, CHeap.Insert comp steps tree v = .returned tree1 ∧
          tree1[tree.length]? = some p) := by
  refine ⟨Insert_eq comp steps tree v hcap, ?_, ?_, ?_⟩
  · intro s l
    rw [GetRootNode_eq]
    exact BubbleUp_root comp s l
  · intro s l i c p hi hc hp
    exact BubbleUp_step comp s l i c p hi hc hp
  · intro p hp h0 hvp hsteps
    rw [Insert_eq comp steps tree v hcap]
    obtain ⟨s, hs⟩ : ∃ s, steps = s + 1 := ⟨steps - 1, by omega⟩
    subst hs
    have hpl : parentOffset tree.length < tree.length := parentOffset_lt h0
    have hc : (tree ++ [v])[tree.length]? = some v := List.getElem?_concat_length tree v
    have hp2 : (tree ++ [v])[parentOffset tree.length]? = some p := by
      rw [List.getElem?_append_left hpl]; exact hp
    rw [BubbleUp_step comp s (tree ++ [v]) tree.length v p h0 hc hp2]
    simp only [hvp, Bool.false_eq_true, if_false]
    refine BubbleUp_rule comp
      (fun l i => i < tree.length ∧ l[tree.length]? = some p)
      (fun l => l[tree.length]? = some p) ?_ ?_ ?_ s _ (parentOffset tree.length)
      (by simp; omega) (by omega) ⟨hpl, ?_⟩
    · intro l hP
      exact hP.2
    · intro l i c q _ hP _ _ _
      exact hP.2
    · intro l i c q hi hP _ _ _
      have hq := parentOffset_lt hi
      refine ⟨by omega, ?_⟩
      rw [List.getElem?_set_ne (by omega), List.getElem?_set_ne (by omega)]
      exact hP.2
    · rw [List.getElem?_set_self (by simp)]

theorem Insert_bubbles_up_unless_less_witness :
    ∃ tree1, CHeap.Insert lessOnFirst 2 [((0 : Nat), (0 : Nat))] (0, 1) = .returned tree1 ∧
      tree1[1]? = some (0, 0) :=
  (Insert_bubbles_up_unless_less lessOnFirst 2 [((0 : Nat), (0 : Nat))] (0, 1)
    (by decide)).2.2.2 (0, 0) rfl (by decide) rfl (by decide)

end ClaimsTies

section SiftSteps

variable {T : Type}

/-- When the node is not less than either child, the picker keeps the node. -/
theorem pickOffset3_keep (lt : T → T → Bool) (hlt : StrictWeakOrder lt) (tree : List T)
    (i : Nat) (hL : NotLessAt lt tree i (2 * i + 1)) (hR : NotLessAt lt tree i (2 * i + 2)) :
    pickOffset3 lt tree i = i := by
  by_contra hb
  have hchild : ∃ b vb, pickOffset3 lt tree i = b ∧ tree[b]? = some vb ∧
      (b = 2 * i + 1 ∨ b = 2 * i + 2) := by
    rcases pickOffset3_cases lt tree i with h | ⟨h, v, hv⟩ | ⟨h, v, hv⟩
    · exact absurd h hb
    · exact ⟨_, v, h, hv, Or.inl rfl⟩
    · exact ⟨_, v, h, hv, Or.inr rfl⟩
  obtain ⟨b, vb, hpick, hvb, hcase⟩ := hchild
  have hbl : b < tree.length := (List.getElem?_eq_some.mp hvb).1
  have hil : i < tree.length := by omega
  have hvi : tree[i]? = some tree[i] := by simp [hil]
  have hne : b ≠ i := by omega
  have hgt := (pickOffset3_child lt hlt tree i b tree[i] vb hpick hne hvi hvb).1
  rcases hcase with h | h
  · subst h
    rw [hL _ _ hvi hvb] at hgt
    exact absurd hgt (by simp)
  · subst h
    rw [hR _ _ hvi hvb] at hgt
    exact absurd hgt (by simp)

/-- A call of `SiftDown` at an in-range node where the picker does not keep the
node swaps the node with an in-tree child and recurses at that child. -/
theorem SiftDown_swap_call (comp : T → T → Bool) (s : Nat) (tree : List T) (i : Nat)
    (hw : 2 * i + 3 < 4294967296) (hb : pickOffset3 comp tree i ≠ i) :
    ∃ b vi vb, (b = 2 * i + 1 ∨ b = 2 * i + 2) ∧ pickOffset3 comp tree i = b ∧
      tree[i]? = some vi ∧ tree[b]? = some vb ∧
      CHeap.SiftDown comp (s + 1) tree ⟨i + 1⟩ =
        CHeap.SiftDown comp s ((tree.set i vb).set b vi) ⟨b + 1⟩ := by
  have hchild : ∃ b vb, pickOffset3 comp tree i = b ∧ tree[b]? = some vb ∧
      (b = 2 * i + 1 ∨ b = 2 * i + 2) := by
    rcases pickOffset3_cases comp tree i with h | ⟨h, v, hv⟩ | ⟨h, v, hv⟩
    · exact absurd h hb
    · exact ⟨_, v, h, hv, Or.inl rfl⟩
    · exact ⟨_, v, h, hv, Or.inr rfl⟩
  obtain ⟨b, vb, hpick, hvb, hcase⟩ := hchild
  have hbl : b < tree.length := (List.getElem?_eq_some.mp hvb).1
  have hil : i < tree.length := by omega
  have hvi : tree[i]? = some tree[i] := by simp [hil]
  have hne : b ≠ i := by omega
  exact ⟨b, tree[i], vb, hcase, hpick, hvi, hvb,
    SiftDown_step comp s tree i b tree[i] vb hw hpick hne hvi hvb⟩

end SiftSteps

section ClaimsSteps

variable {T : Type}

/-- C26: for a strict weak ordering, one step of sift-down at a node (whose
child indices are within the 32-bit range): if the node is not less than either
in-tree child, ties included, or has no in-tree child, the call returns with the
vector unmodified; otherwise it swaps the node with a child that is in the tree
and strictly greater than the node, and continues from that child. -/
theorem SiftDown_swaps_only_with_greater_child (lt : T → T → Bool)
    (hlt : StrictWeakOrder lt) (s : Nat) (tree : List T) (i : Nat)
    (hw : 2 * i + 3 < 4294967296) :
    (NotLessAt lt tree i (2 * i + 1) ∧ NotLessAt lt tree i (2 * i + 2) →
        CHeap.SiftDown lt (s + 1) tree ⟨i + 1⟩ = .returned tree) ∧
      (¬ (NotLessAt lt tree i (2 * i + 1) ∧ NotLessAt lt tree i (2 * i + 2)) →
        ∃ b vi vb, (b = 2 * i + 1 ∨ b = 2 * i + 2) ∧ tree[i]? = some vi ∧
          tree[b]? = some vb ∧ lt vi vb = true ∧
          CHeap.SiftDown lt (s + 1) tree ⟨i + 1⟩ =
            CHeap.SiftDown lt s ((tree.set i vb).set b vi) ⟨b + 1⟩) := by
  constructor
  · intro h
    exact SiftDown_stop lt s tree i hw (pickOffset3_keep lt hlt tree i h.1 h.2)
  · intro h
    have hb : pickOffset3 lt tree i ≠ i := fun hb => h (pickOffset3_stop lt hlt tree i hb)
    obtain ⟨b, vi, vb, hcase, hpick, hvi, hvb, hstep⟩ := SiftDown_swap_call lt s tree i hw hb
    have hne : b ≠ i := by omega
    exact ⟨b, vi, vb, hcase, hvi, hvb,
      (pickOffset3_child lt hlt tree i b vi vb hpick hne hvi hvb).1, hstep⟩

theorem SiftDown_swaps_only_with_greater_child_witness :
    2 * 0 + 3 < 4294967296 ∧
      CHeap.SiftDown CStdLessSortOrder.LessThan (1 + 1) [7, 7, 3] ⟨0 + 1⟩ =
        .returned [7, 7, 3] :=
  ⟨by norm_num,
    (SiftDown_swaps_only_with_greater_child CStdLessSortOrder.LessThan
      CStdLessSortOrder_strictWeakOrder 1 [7, 7, 3] 0 (by norm_num)).1
      ⟨by
        intro x y hx hy
        simp at hx hy
        rw [← hx, ← hy]; decide,
      by
        intro x y hx hy
        simp at hx hy
        rw [← hx, ← hy]; decide⟩⟩

end ClaimsSteps

section Termination

variable {T : Type}

/-- With a budget above the starting offset, `BubbleUp` returns. -/
theorem BubbleUp_returns (comp : T → T → Bool) (steps : Nat) (tree : List T) (i : Nat)
    (hi : i < tree.length) (hsteps : i < steps) :
    ∃ tree1, CHeap.BubbleUp comp steps tree ⟨i + 1⟩ = .returned tree1 := by
  obtain ⟨tree1, h, _⟩ := BubbleUp_rule comp (fun _ _ => True) (fun _ => True)
    (fun _ _ => trivial) (fun _ _ _ _ _ _ _ _ _ => trivial)
    (fun _ _ _ _ _ _ _ _ _ => trivial) steps tree i hi hsteps trivial
  exact ⟨tree1, h⟩

/-- With a budget above the size, `SiftDown` returns on a vector of fewer than
2^31 elements. -/
theorem SiftDown_returns (comp : T → T → Bool) (steps : Nat) (tree : List T) (i : Nat)
    (hcap : tree.length < 2147483648) (hw : 2 * i + 3 < 4294967296)
    (hsteps : tree.length - i < steps) :
    ∃ tree1, CHeap.SiftDown comp steps tree ⟨i + 1⟩ = .returned tree1 := by
  obtain ⟨tree1, h, _⟩ := SiftDown_rule comp (fun _ _ => True) (fun _ => True)
    (fun _ _ _ _ => trivial) (fun _ _ _ _ _ _ _ _ _ _ => trivial)
    steps tree i hcap hw hsteps trivial
  exact ⟨tree1, h⟩

end Termination

section ClaimsSafety

variable {T : Type}

/-- C28: for a heap of `n < 2^31` elements and any comparator, `BubbleUp` started
at the last node and `SiftDown` started at the root both return, a budget of
more than `n` calls being enough. Each recursive call of `BubbleUp` is made at
the parent offset, which is strictly smaller, until the root is reached; each
recursive call of `SiftDown` is made at a strictly larger offset that is still
below `n`. -/
theorem BubbleUp_and_SiftDown_terminate (comp : T → T → Bool) (steps : Nat) (tree : List T)
    (hcap : tree.length < 2147483648) (hsteps : tree.length < steps) :
    (tree ≠ [] →
        ∃ tree1, CHeap.BubbleUp comp steps tree (CCompleteTree.GetLastNode tree) =
          .returned tree1) ∧
      (∃ tree1, CHeap.SiftDown comp steps tree CCompleteTree.GetRootNode = .returned tree1) ∧
      (∀ s (l : List T) (i : Nat), l.length = tree.length → i < l.length →
        (i = 0 → CHeap.BubbleUp comp (s + 1) l ⟨i + 1⟩ = .returned l) ∧
        (0 < i → parentOffset i < i ∧
          (CHeap.BubbleUp comp (s + 1) l ⟨i + 1⟩ = .returned l ∨
            ∃ l1, l1.length = l.length ∧
              CHeap.BubbleUp comp (s + 1) l ⟨i + 1⟩ =
                CHeap.BubbleUp comp s l1 ⟨parentOffset i + 1⟩))) ∧
      (∀ s (l : List T) (i : Nat), l.length = tree.length → i < l.length →
        CHeap.SiftDown comp (s + 1) l ⟨i + 1⟩ = .returned l ∨
          ∃ b l1, i < b ∧ b < l.length ∧ l1.length = l.length ∧
            CHeap.SiftDown comp (s + 1) l ⟨i + 1⟩ = CHeap.SiftDown comp s l1 ⟨b + 1⟩) := by
  refine ⟨?_, ?_, ?_, ?_⟩
  · intro hne
    have h0 : 0 < tree.length := List.length_pos.mpr hne
    rw [GetLastNode_eq tree h0 (by omega)]
    exact BubbleUp_returns comp steps tree (tree.length - 1) (by omega) (by omega)
  · rw [GetRootNode_eq]
    exact SiftDown_returns comp steps tree 0 hcap (by norm_num) (by omega)
  · intro s l i _ hil
    constructor
    · intro hi
      subst hi
      exact BubbleUp_root comp s l
    · intro hi
      have hpl := parentOffset_lt hi
      refine ⟨hpl, ?_⟩
      have hc : l[i]? = some l[i] := by simp [hil]
      have hpl2 : parentOffset i < l.length := by omega
      have hp : l[parentOffset i]? = some l[parentOffset i] := by simp [hpl2]
      rw [BubbleUp_step comp s l i _ _ hi hc hp]
      by_cases hcp : comp l[i] l[parentOffset i] = true
      · left; simp [hcp]
      · right
        exact ⟨(l.set (parentOffset i) l[i]).set i l[parentOffset i], by simp,
          by simp [hcp]⟩
  · intro s l i hl hil
    by_cases hb : pickOffset3 comp l i = i
    · exact Or.inl (SiftDown_stop comp s l i (by omega) hb)
    · right
      obtain ⟨b, vi, vb, hcase, _, _, hvb, hstep⟩ :=
        SiftDown_swap_call comp s l i (by omega) hb
      have hbl : b < l.length := (List.getElem?_eq_some.mp hvb).1
      exact ⟨b, (l.set i vb).set b vi, by omega, hbl, by simp, hstep⟩

theorem BubbleUp_and_SiftDown_terminate_witness :
    ∃ tree1, CHeap.BubbleUp CStdLessSortOrder.LessThan 4 [5, 3, 9]
      (CCompleteTree.GetLastNode ([5, 3, 9] : List Int)) = .returned tree1 :=
  (BubbleUp_and_SiftDown_terminate CStdLessSortOrder.LessThan 4 [5, 3, 9]
    (by decide) (by decide)).1 (by simp)

/-- C29: `BubbleUp` applies `GoUp` only after its comparison of the cursor with
the root has come out false, and such a cursor has an offset of at least 1: a
cursor at the root makes `BubbleUp` return at once, and for any other cursor
the index `GoUp` produces is not 0 (it is the parent offset), so the assertion
of `GetCurrentLocationInArray` holds for it. Within the range of the 32-bit
index (fewer than 2^31 elements) and with enough budget, no call of `Insert` or
`PopTop` ends in a failed assertion. -/
theorem GoUp_never_applied_at_root (comp : T → T → Bool) (steps : Nat) (tree : List T)
    (v : T) :
    (∀ s (l : List T),
        CHeap.BubbleUp comp (s + 1) l CCompleteTree.GetRootNode = .returned l) ∧
      (∀ currLoc, Iterator.eq true CCompleteTree.GetRootNode currLoc = .ok false →
        ∃ loc, CCompleteTreeIndex.GetCurrentLocationInArray currLoc = .ok loc ∧ 1 ≤ loc ∧
          (Iterator.GoUp currLoc).m_oneBasedIndex ≠ 0 ∧
          CCompleteTreeIndex.GetCurrentLocationInArray (Iterator.GoUp currLoc) =
            .ok (parentOffset loc)) ∧
      (tree.length < 2147483648 → tree.length < steps →
        (∀ t, CHeap.Insert comp steps tree v ≠ .threw .AssertionFailed t) ∧
          (∀ t, CHeap.PopTop comp steps tree ≠ .threw .AssertionFailed t)) := by
  refine ⟨?_, ?_, ?_⟩
  · intro s l
    rw [GetRootNode_eq]
    exact BubbleUp_root comp s l
  · intro currLoc h
    cases currLoc with
    | mk m =>
      cases m with
      | zero => simp [Iterator.eq, location_zero, GetRootNode_eq, location_succ] at h
      | succ i =>
        rw [GetRootNode_eq, eq_succ] at h
        have hi : 0 < i := by
          rcases Nat.eq_zero_or_pos i with h0 | h0
          · subst h0; simp at h
          · exact h0
        refine ⟨i, location_succ i, hi, ?_, ?_⟩
        · rw [GoUp_succ i hi]; simp
        · rw [GoUp_succ i hi]; exact location_succ _
  · intro hcap hsteps
    constructor
    · intro t h
      obtain ⟨tree1, h1, _⟩ := Insert_spec comp steps tree v (by omega) hsteps
      rw [h1] at h
      simp at h
    · intro t h
      cases htop : tree[0]? with
      | none =>
        have hnil : tree.length = 0 := by
          have := List.getElem?_eq_none_iff.mp htop; omega
        simp [CHeap.PopTop, CCompleteTree.GetSize, hnil] at h
      | some top =>
        obtain ⟨tree1, h1, _⟩ := PopTop_spec comp steps tree top htop (by omega) (by omega)
        rw [h1] at h
        simp at h

/-- C30: for a heap of fewer than 2^31 elements and any comparator, `Insert`
returns and `PopTop` on a non-empty heap returns (with enough budget), so no
exception is raised and no `GetValue` or `SetValue` made on the way met a cursor
outside the tree; this includes `PopTop` removing the only element, where
`SiftDown` runs on the empty tree. Whenever `SiftDown` reaches its assertion,
the picked node is in the tree. -/
theorem Insert_and_PopTop_never_raise (comp : T → T → Bool) (steps : Nat) (tree : List T)
    (v : T) (hcap : tree.length < 2147483648) (hsteps : tree.length < steps) :
    (∃ tree1, CHeap.Insert comp steps tree v = .returned tree1) ∧
      (tree ≠ [] → ∃ tree1, CHeap.PopTop comp steps tree = .returned tree1) ∧
      (tree.length = 1 → CHeap.PopTop comp steps tree = .returned []) ∧
      (∀ s, CHeap.SiftDown comp (s + 1) [] CCompleteTree.GetRootNode = .returned []) ∧
      (∀ (l : List T) (i : Nat), l.length = tree.length → i < l.length →
        ∃ b, PickLargestIterator3 comp l ⟨i + 1⟩ (Iterator.GoLeftChild ⟨i + 1⟩)
            (Iterator.GoRightChild ⟨i + 1⟩) = .ok ⟨b + 1⟩ ∧
          (b ≠ i → Iterator.IsStillInTree (some l) ⟨b + 1⟩ = .ok true)) := by
  have hpop : tree ≠ [] → ∃ tree1, CHeap.PopTop comp steps tree = .returned tree1 ∧
      tree.length = tree1.length + 1 := by
    intro hne
    have h0 : 0 < tree.length := List.length_pos.mpr hne
    have htop : tree[0]? = some tree[0] := by simp [h0]
    obtain ⟨tree1, h1, h2, _⟩ := PopTop_spec comp steps tree _ htop (by omega) (by omega)
    exact ⟨tree1, h1, by simpa using h2.length_eq⟩
  refine ⟨?_, ?_, ?_, ?_, ?_⟩
  · obtain ⟨tree1, h1, _⟩ := Insert_spec comp steps tree v (by omega) hsteps
    exact ⟨tree1, h1⟩
  · intro hne
    obtain ⟨tree1, h1, _⟩ := hpop hne
    exact ⟨tree1, h1⟩
  · intro h1
    obtain ⟨tree1, h2, h3⟩ := hpop (by intro h; rw [h] at h1; simp at h1)
    have h4 : tree1 = [] := List.length_eq_zero.mp (by omega)
    rw [h2, h4]
  · intro s
    rw [GetRootNode_eq]
    exact SiftDown_stop comp s [] 0 (by norm_num) (by simp [pickOffset3, pickOffset2])
  · intro l i hl hil
    refine ⟨pickOffset3 comp l i, ?_, ?_⟩
    · rw [GoLeftChild_succ i (by omega), GoRightChild_succ i (by omega),
        PickLargestIterator3_succ]
    · intro hb
      rw [IsStillInTree_succ]
      rcases pickOffset3_cases comp l i with h | ⟨h, w, hw⟩ | ⟨h, w, hw⟩
      · exact absurd h hb
      · have := (List.getElem?_eq_some.mp hw).1
        rw [h]; simp [this]
      · have := (List.getElem?_eq_some.mp hw).1
        rw [h]; simp [this]

theorem Insert_and_PopTop_never_raise_witness :
    CHeap.PopTop CStdLessSortOrder.LessThan 2 [7] = .returned [] :=
  (Insert_and_PopTop_never_raise CStdLessSortOrder.LessThan 2 [7] 0
    (by decide) (by decide)).2.2.1 rfl

end ClaimsSafety

section ClaimsSafety2

theorem Append_stores_at_end_witness :
    Iterator.GetValue (some (CCompleteTree.Append ([5, 3] : List Int) 9))
      (CCompleteTree.GetLastNode (CCompleteTree.Append ([5, 3] : List Int) 9)) = .ok 9 :=
  (Append_stores_at_end ([5, 3] : List Int) 9).2.2.2 (by decide)

theorem GoUp_never_applied_at_root_witness :
    CHeap.Insert CStdLessSortOrder.LessThan 3 [5, 3] 9 ≠ .threw .AssertionFailed [9, 3, 5] ∧
      CHeap.PopTop CStdLessSortOrder.LessThan 3 [5, 3] ≠ .threw .AssertionFailed [3] :=
  ⟨((GoUp_never_applied_at_root CStdLessSortOrder.LessThan 3 [5, 3] 9).2.2
      (by decide) (by decide)).1 [9, 3, 5],
    ((GoUp_never_applied_at_root CStdLessSortOrder.LessThan 3 [5, 3] 9).2.2
      (by decide) (by decide)).2 [3]⟩

end ClaimsSafety2

/-! ## The claims on the sort orders -/

section CompositeOrder

variable {T : Type}

theorem composite_cons (c : T → T → Bool) (rest : List (T → T → Bool)) (a b : T) :
    CCompositeSortOrder.LessThan (c :: rest) a b =
      if c a b = true then true
      else if c b a = true then false else CCompositeSortOrder.LessThan rest a b := rfl

/-- Comparing by a strict weak ordering first and by another one on its ties is
a strict weak ordering. -/
theorem composite_cons_strictWeakOrder (c : T → T → Bool) (rest : List (T → T → Bool))
    (hc : StrictWeakOrder c) (hr : StrictWeakOrder (CCompositeSortOrder.LessThan rest)) :
    StrictWeakOrder (CCompositeSortOrder.LessThan (c :: rest)) := by
  have key : ∀ a b, CCompositeSortOrder.LessThan (c :: rest) a b = false →
      CCompositeSortOrder.LessThan (c :: rest) b a = false →
      c a b = false ∧ c b a = false ∧ CCompositeSortOrder.LessThan rest a b = false ∧
        CCompositeSortOrder.LessThan rest b a = false := by
    intro a b hab hba
    rw [composite_cons] at hab hba
    cases h1 : c a b <;> cases h2 : c b a <;> simp [h1, h2] at hab hba ⊢
    exact ⟨hab, hba⟩
  refine ⟨?_, ?_, ?_⟩
  · intro a
    rw [composite_cons]
    simp [hc.irrefl a, hr.irrefl a]
  · intro a b d hab hbd
    rw [composite_cons] at hab hbd ⊢
    cases h1 : c a b with
    | true =>
      cases h2 : c b d with
      | true => simp [hc.trans a b d h1 h2]
      | false =>
        have h3 : c d b = false := by
          cases h3 : c d b with
          | false => rfl
          | true => simp [h2, h3] at hbd
        have h4 : c a d = true := by
          cases h4 : c a d with
          | true => rfl
          | false =>
            rw [hc.negtrans a d b h4 h3] at h1
            exact absurd h1 (by simp)
        simp [h4]
    | false =>
      have h1b : c b a = false := by
        cases h : c b a with
        | false => rfl
        | true => simp [h1, h] at hab
      have hrab : CCompositeSortOrder.LessThan rest a b = true := by
        simpa [h1, h1b] using hab
      cases h2 : c b d with
      | true =>
        have h4 : c a d = true := by
          cases h4 : c a d with
          | true => rfl
          | false =>
            rw [hc.negtrans b a d h1b h4] at h2
            exact absurd h2 (by simp)
        simp [h4]
      | false =>
        have h3 : c d b = false := by
          cases h3 : c d b with
          | false => rfl
          | true => simp [h2, h3] at hbd
        have hrbd : CCompositeSortOrder.LessThan rest b d = true := by
          simpa [h2, h3] using hbd
        have h5 := hc.incomp_trans a b d h1 h1b h2 h3
        simp [h5.1, h5.2, hr.trans a b d hrab hrbd]
  · intro a b d hab hba hbd hdb
    obtain ⟨h1, h2, h3, h4⟩ := key a b hab hba
    obtain ⟨h5, h6, h7, h8⟩ := key b d hbd hdb
    have hcad := hc.incomp_trans a b d h1 h2 h5 h6
    have hrad := hr.incomp_trans a b d h3 h4 h7 h8
    rw [composite_cons, composite_cons]
    simp [hcad.1, hcad.2, hrad.1, hrad.2]

/-- A composite of strict weak orderings is a strict weak ordering. -/
theorem composite_strictWeakOrder (criteria : List (T → T → Bool))
    (h : ∀ c ∈ criteria, StrictWeakOrder c) :
    StrictWeakOrder (CCompositeSortOrder.LessThan criteria) := by
  induction criteria with
  | nil =>
    exact ⟨fun _ => rfl, fun _ _ _ hab _ => absurd hab (by simp [CCompositeSortOrder.LessThan]),
      fun _ _ _ _ _ _ _ => ⟨rfl, rfl⟩⟩
  | cons c rest ih =>
    exact composite_cons_strictWeakOrder c rest (h c (List.mem_cons_self c rest))
      (ih (fun d hd => h d (List.mem_cons_of_mem c hd)))

end CompositeOrder

section ClaimsOrders

variable {T : Type}

/-- C31: the body of `CStdGreaterSortOrder<T>::LessThan` compares with
`std::greater<int>` whatever `T` is, so it answers `rhs < lhs` for the
arguments converted to `int`. For `T = int` this is the standard "greater
than"; for `T = double` it is not: `0.25 < 0.5`, yet `LessThan(0.5, 0.25)` is
false, both values being converted to `0`. -/
theorem CStdGreaterSortOrder_compares_as_int :
    (∀ (toInt : T → Int) (lhs rhs : T),
        CStdGreaterSortOrder.LessThanT toInt lhs rhs = true ↔ toInt rhs < toInt lhs) ∧
      (∀ lhs rhs : Int, CStdGreaterSortOrder.LessThan lhs rhs = true ↔ rhs < lhs) ∧
      ((1 / 4 : Rat) < 1 / 2 ∧
        CStdGreaterSortOrder.LessThanT intOfDouble (1 / 2) (1 / 4) = false) := by
  have h1 : intOfDouble (1 / 2) = 0 := by
    simp only [intOfDouble]; norm_num; rfl
  have h2 : intOfDouble (1 / 4) = 0 := by
    simp only [intOfDouble]; norm_num; rfl
  refine ⟨?_, ?_, by norm_num, ?_⟩
  · intro toInt lhs rhs
    simp [CStdGreaterSortOrder.LessThanT, CStdGreaterSortOrder.LessThan]
  · intro lhs rhs
    simp [CStdGreaterSortOrder.LessThan]
  · simp only [CStdGreaterSortOrder.LessThanT, h1, h2]
    rfl

/-- C32: the `CCompositeSortOrder` built from a list of comparators each of
which is a strict weak ordering is itself a strict weak ordering; so, within the
range of the 32-bit index and with enough budget, `Insert` and `PopTop` keep the
heap property of a heap ordered by the composite, and `PeekTop` of such a heap
returns an element that is not less than any stored element. -/
theorem CCompositeSortOrder_is_strictWeakOrder (criteria : List (T → T → Bool))
    (h : ∀ c ∈ criteria, StrictWeakOrder c) :
    StrictWeakOrder (CCompositeSortOrder.LessThan criteria) ∧
      (∀ (steps : Nat) (tree : List T) (t : T),
        IsHeap (CCompositeSortOrder.LessThan criteria) tree →
        tree.length < 2147483648 → tree.length < steps →
        ∃ tree1, CHeap.Insert (CCompositeSortOrder.LessThan criteria) steps tree t =
            .returned tree1 ∧
          IsHeap (CCompositeSortOrder.LessThan criteria) tree1) ∧
      (∀ (steps : Nat) (tree : List T),
        IsHeap (CCompositeSortOrder.LessThan criteria) tree → tree ≠ [] →
        tree.length < 2147483648 → tree.length < steps →
        ∃ tree1, CHeap.PopTop (CCompositeSortOrder.LessThan criteria) steps tree =
            .returned tree1 ∧
          IsHeap (CCompositeSortOrder.LessThan criteria) tree1) ∧
      (∀ tree : List T, IsHeap (CCompositeSortOrder.LessThan criteria) tree → tree ≠ [] →
        ∃ t, CHeap.PeekTop tree = .ok t ∧ t ∈ tree ∧
          ∀ x ∈ tree, CCompositeSortOrder.LessThan criteria t x = false) := by
  have hswo := composite_strictWeakOrder criteria h
  refine ⟨hswo, ?_, ?_, ?_⟩
  · intro steps tree t hheap hcap hsteps
    obtain ⟨tree1, h1, _, h3⟩ := Insert_spec (CCompositeSortOrder.LessThan criteria) steps tree t
      (by omega) hsteps
    exact ⟨tree1, h1, h3 hswo hheap⟩
  · intro steps tree hheap hne hcap hsteps
    obtain ⟨top, htop⟩ := getElem?_zero_of_ne_nil tree hne
    obtain ⟨tree1, h1, _, h3⟩ := PopTop_spec (CCompositeSortOrder.LessThan criteria) steps tree
      top htop (by omega) (by omega)
    exact ⟨tree1, h1, h3 hswo hheap⟩
  · intro tree hheap hne
    exact PeekTop_of_isHeap (CCompositeSortOrder.LessThan criteria) hswo tree hheap hne

theorem CCompositeSortOrder_is_strictWeakOrder_witness :
    StrictWeakOrder
      (CCompositeSortOrder.LessThan [CStdLessSortOrder.LessThan, CStdGreaterSortOrder.LessThan]) :=
  (CCompositeSortOrder_is_strictWeakOrder
    [CStdLessSortOrder.LessThan, CStdGreaterSortOrder.LessThan]
    (by
      intro c hc
      simp only [List.mem_cons, List.mem_singleton, List.not_mem_nil, or_false] at hc
      rcases hc with hc | hc
      · rw [hc]; exact CStdLessSortOrder_strictWeakOrder
      · rw [hc]; exact CStdGreaterSortOrder_strictWeakOrder)).1

/-- C33: the comparator on `p, s, c` whose only related pair is `c < s` is
irreflexive and transitive, but its incomparability is not transitive (`c` ties
with `p` and `p` ties with `s`, yet `c < s`), so it is not a strict weak
ordering. Inserting `s`, `p`, `c` into the empty heap under it returns the array
`c, s, p` (with any budget of at least 3), which violates the heap property, and
`PeekTop` returns `c`, which is less than the stored element `s`. -/
theorem strict_weak_ordering_is_necessary :
    (∀ a, onlyCBelowS a a = false) ∧
      (∀ a b d, onlyCBelowS a b = true → onlyCBelowS b d = true → onlyCBelowS a d = true) ∧
      (onlyCBelowS Psc.c Psc.p = false ∧ onlyCBelowS Psc.p Psc.c = false ∧
        onlyCBelowS Psc.p Psc.s = false ∧ onlyCBelowS Psc.s Psc.p = false ∧
        onlyCBelowS Psc.c Psc.s = true) ∧
      ¬ StrictWeakOrder onlyCBelowS ∧
      (∀ k, runOps onlyCBelowS (k + 3)
        [Op.insert Psc.s, Op.insert Psc.p, Op.insert Psc.c] [] =
          .returned [Psc.c, Psc.s, Psc.p]) ∧
      ¬ IsHeap onlyCBelowS [Psc.c, Psc.s, Psc.p] ∧
      CHeap.PeekTop [Psc.c, Psc.s, Psc.p] = .ok Psc.c ∧
      Psc.s ∈ [Psc.c, Psc.s, Psc.p] ∧ onlyCBelowS Psc.c Psc.s = true := by
  refine ⟨?_, ?_, ⟨rfl, rfl, rfl, rfl, rfl⟩, ?_, ?_, ?_, rfl, by simp, rfl⟩
  · intro a
    cases a <;> rfl
  · intro a b d hab hbd
    cases a <;> cases b <;> cases d <;> simp_all [onlyCBelowS]
  · intro hswo
    have h := (hswo.incomp_trans Psc.c Psc.p Psc.s rfl rfl rfl rfl).1
    exact absurd h (by simp [onlyCBelowS])
  · intro k
    rfl
  · intro hheap
    have h := hheap 1 (by simp) (by norm_num)
    simp [heapOrderedAt, parentOffset, onlyCBelowS] at h

end ClaimsOrders

end pqueue
